import Mathlib

/-! # OpenRPC description generator (`rpc/openrpc.go`)

A shallow embedding of the document generator of `rpc/openrpc.go`:
`OpenRPCJSONSchemaTypeMapper`, `jsonschemaPkgSupport`, `makeContentDescriptor`,
`makeMethod`, `getAstFunc`, `RegisterMethod`, `Clean` and `RPCService.Describe`.

Conventions of the embedding.

* A Go function that may panic returns `Option _`; `none` is the panic.
* A Go `(value, error)` pair is a pair `_ × Option Err`; `none` is the `nil` error.
* Go maps are association lists (first binding of a key is the live one).
* Pointers to freshly allocated values that are never aliased (`&cd`, the
  descriptors of a method) are embedded as the values they point to.
* Functions of libraries outside the repository (`encoding/json`, `crypto/sha1`,
  the structural part of `github.com/alecthomas/jsonschema`) are fields of
  `Externals`; every theorem quantifies over them.
-/

set_option autoImplicit false

namespace OpenRPC

/-! ## Go types as seen through `reflect` -/

/-- The kinds of `reflect.Kind`. -/
inductive Kind where
  | Invalid | Bool
  | Int | Int8 | Int16 | Int32 | Int64
  | Uint | Uint8 | Uint16 | Uint32 | Uint64 | Uintptr
  | Float32 | Float64 | Complex64 | Complex128
  | Array | Chan | Func | Interface | Map | Ptr | Slice | String | Struct
  | UnsafePointer
  deriving DecidableEq, Repr

/-- The predeclared non-composite types. -/
inductive BasicKind where
  | bool
  | int | int8 | int16 | int32 | int64
  | uint | uint8 | uint16 | uint32 | uint64 | uintptr
  | float32 | float64 | complex64 | complex128
  | string | unsafePointer
  deriving DecidableEq, Repr

/-- A value of `reflect.Type`: two values are the same Go type exactly when they are equal. -/
inductive GoType where
  | Basic (k : BasicKind)
  | Named (pkgPath : String) (name : String) (underlying : GoType)
  | Ptr (elem : GoType)
  | Slice (elem : GoType)
  | Array (len : Nat) (elem : GoType)
  | Chan (elem : GoType)
  | Map (key : GoType) (elem : GoType)
  | Func (signature : String)
  | Struct (fields : String)
  | Interface (methods : String)
  deriving DecidableEq, Repr

/-- The kind of a predeclared type. -/
def BasicKind.kind : BasicKind → Kind
  | .bool => .Bool
  | .int => .Int | .int8 => .Int8 | .int16 => .Int16 | .int32 => .Int32 | .int64 => .Int64
  | .uint => .Uint | .uint8 => .Uint8 | .uint16 => .Uint16 | .uint32 => .Uint32
  | .uint64 => .Uint64 | .uintptr => .Uintptr
  | .float32 => .Float32 | .float64 => .Float64
  | .complex64 => .Complex64 | .complex128 => .Complex128
  | .string => .String | .unsafePointer => .UnsafePointer

/-- The name of a predeclared type. -/
def BasicKind.name : BasicKind → String
  | .bool => "bool"
  | .int => "int" | .int8 => "int8" | .int16 => "int16" | .int32 => "int32" | .int64 => "int64"
  | .uint => "uint" | .uint8 => "uint8" | .uint16 => "uint16" | .uint32 => "uint32"
  | .uint64 => "uint64" | .uintptr => "uintptr"
  | .float32 => "float32" | .float64 => "float64"
  | .complex64 => "complex64" | .complex128 => "complex128"
  | .string => "string" | .unsafePointer => "Pointer"

/-- The method `Kind` of `reflect.Type`. -/
def GoType.Kind : GoType → Kind
  | .Basic k => k.kind
  | .Named _ _ u => u.Kind
  | .Ptr _ => .Ptr
  | .Slice _ => .Slice
  | .Array _ _ => .Array
  | .Chan _ => .Chan
  | .Map _ _ => .Map
  | .Func _ => .Func
  | .Struct _ => .Struct
  | .Interface _ => .Interface

/-- The method `Name` of `reflect.Type`: empty for an unnamed type. -/
def GoType.Name : GoType → String
  | .Basic k => k.name
  | .Named _ n _ => n
  | _ => ""

/-- The method `PkgPath` of `reflect.Type`: empty for predeclared and unnamed types. -/
def GoType.PkgPath : GoType → String
  | .Named p _ _ => p
  | _ => ""

/-- The method `Elem` of `reflect.Type`; it panics (`none`) when the kind is not
Array, Chan, Map, Ptr or Slice. -/
def GoType.Elem : GoType → Option GoType
  | .Named _ _ u => u.Elem
  | .Ptr e => some e
  | .Slice e => some e
  | .Array _ e => some e
  | .Chan e => some e
  | .Map _ e => some e
  | _ => none

/-! ## JSON schema trees -/

/-- A JSON schema node, the fields of `spec.Schema` (and of `jsonschema.Type`) the
generator reads or writes: an empty string, list or map is an absent field. -/
inductive Schema where
  | mk (title : String) (type : List String) (pattern : String) (description : String)
       (enum : List String) (properties : List (String × Schema)) (items : List Schema)
       (oneOf : List Schema) (definitions : List (String × Schema)) (ref : String)

/-- The field `Title`. -/
def Schema.Title : Schema → String
  | .mk t _ _ _ _ _ _ _ _ _ => t

/-- The field `Type`. -/
def Schema.Type_ : Schema → List String
  | .mk _ ty _ _ _ _ _ _ _ _ => ty

/-- The field `Pattern`. -/
def Schema.Pattern : Schema → String
  | .mk _ _ p _ _ _ _ _ _ _ => p

/-- The field `Description`. -/
def Schema.Description : Schema → String
  | .mk _ _ _ d _ _ _ _ _ _ => d

/-- The field `Enum`. -/
def Schema.Enum : Schema → List String
  | .mk _ _ _ _ e _ _ _ _ _ => e

/-- The field `Properties`. -/
def Schema.Properties : Schema → List (String × Schema)
  | .mk _ _ _ _ _ ps _ _ _ _ => ps

/-- The field `Items`. -/
def Schema.Items : Schema → List Schema
  | .mk _ _ _ _ _ _ is _ _ _ => is

/-- The field `OneOf`. -/
def Schema.OneOf : Schema → List Schema
  | .mk _ _ _ _ _ _ _ os _ _ => os

/-- The field `Definitions`. -/
def Schema.Definitions : Schema → List (String × Schema)
  | .mk _ _ _ _ _ _ _ _ ds _ => ds

/-- The field `Ref`, as the text of the reference. -/
def Schema.Ref : Schema → String
  | .mk _ _ _ _ _ _ _ _ _ r => r

/-- The zero value `spec.Schema{}`. -/
def Schema.zero : Schema := .mk "" [] "" "" [] [] [] [] [] ""

/-- Assignment to the field `Description`. -/
def Schema.setDescription : Schema → String → Schema
  | .mk t ty p _ e ps is os ds r, d => .mk t ty p d e ps is os ds r

/-- Assignment to the field `Type`. -/
def Schema.setType : Schema → List String → Schema
  | .mk t _ p d e ps is os ds r, ty => .mk t ty p d e ps is os ds r

/-- Assignment to the field `Definitions`. -/
def Schema.setDefinitions : Schema → List (String × Schema) → Schema
  | .mk t ty p d e ps is os _ r, ds => .mk t ty p d e ps is os ds r

/-! ## The override table and `OpenRPCJSONSchemaTypeMapper` -/

/-- The arbitrary-precision integer `big.Int` of the standard library, a struct. -/
def bigInt : GoType := .Named "math/big" "Int" (.Struct "neg bool; abs nat")

/-- Modelled from the spec: `hexutil.Big`, declared over `big.Int`. -/
def hexutilBig : GoType :=
  .Named "github.com/ethereum/go-ethereum/common/hexutil" "Big" (.Struct "neg bool; abs nat")

/-- Modelled from the spec: `types.BlockNonce`, an 8-byte array. -/
def blockNonce : GoType :=
  .Named "github.com/ethereum/go-ethereum/core/types" "BlockNonce" (.Array 8 (.Basic .uint8))

/-- Modelled from the spec: the 160-bit address `common.Address`, a 20-byte array. -/
def commonAddress : GoType :=
  .Named "github.com/ethereum/go-ethereum/common" "Address" (.Array 20 (.Basic .uint8))

/-- Modelled from the spec: the 256-bit hash `common.Hash`, a 32-byte array. -/
def commonHash : GoType :=
  .Named "github.com/ethereum/go-ethereum/common" "Hash" (.Array 32 (.Basic .uint8))

/-- Modelled from the spec: the variable-length byte string `hexutil.Bytes`. -/
def hexutilBytes : GoType :=
  .Named "github.com/ethereum/go-ethereum/common/hexutil" "Bytes" (.Slice (.Basic .uint8))

/-- Modelled from the spec: the block-number-or-hash union `rpc.BlockNumberOrHash`, a struct. -/
def blockNumberOrHash : GoType :=
  .Named "github.com/ethereum/go-ethereum/rpc" "BlockNumberOrHash"
    (.Struct "BlockNumber *BlockNumber; BlockHash *common.Hash; RequireCanonical bool")

/-- Modelled from the spec: the block-number-or-tag type `rpc.BlockNumber`, an `int64`. -/
def blockNumber : GoType :=
  .Named "github.com/ethereum/go-ethereum/rpc" "BlockNumber" (.Basic .int64)

/-- The value `integerD` decodes to. -/
def integerD : Schema :=
  .mk "integer" ["string"] "^0x[a-fA-F0-9]+$" "Hex representation of the integer" [] [] [] [] [] ""

/-- The value `commonHashD` decodes to (the JSON text `\\d` is the pattern text `\d`). -/
def commonHashD : Schema :=
  .mk "keccak" ["string"] "^0x[a-fA-F\\d]{64}$" "Hex representation of a Keccak 256 hash"
    [] [] [] [] [] ""

/-- The value `blockNumberTagD` decodes to. -/
def blockNumberTagD : Schema :=
  .mk "blockNumberTag" ["string"] "" "The optional block height description"
    ["earliest", "latest", "pending"] [] [] [] [] ""

/-- The value the literal of the pointer entries for `common.Address` and
`common.Hash` decodes to. -/
def keccakPointerD : Schema :=
  .mk "keccak" ["string"] "^0x[a-fA-F\\d]{64}$"
    "Hex representation of a Keccak 256 hash POINTER" [] [] [] [] [] ""

/-- The value the literal of the entry for `common.Address{}` decodes to. -/
def addressD : Schema :=
  .mk "address" ["string"] "^0x[a-fA-F\\d]{40}$" "" [] [] [] [] [] ""

/-- The value the literal of the entries for `hexutil.Bytes` decodes to. -/
def dataWordD : Schema :=
  .mk "dataWord" ["string"] "^0x([a-fA-F\\d]{64})?$"
    "Hex representation of a 256 bit unit of data" [] [] [] [] [] ""

/-- The value the literal of the entry for `[]byte{}` decodes to. -/
def bytesD : Schema :=
  .mk "bytes" ["string"] "^0x([a-fA-F0-9]?)+$"
    "Hex representation of a variable length byte array" [] [] [] [] [] ""

/-- The value the literal of the entry for `BlockNumberOrHash{}` decodes to. -/
def blockNumberOrHashD : Schema :=
  .mk "blockNumberOrHash" [] "" "Hex representation of a block number or hash" [] [] []
    [commonHashD, integerD] [] ""

/-- The value the literal of the entry for `BlockNumber(0)` decodes to. -/
def blockNumberOrTagD : Schema :=
  .mk "blockNumberOrTag" [] "" "Block tag or hex representation of a block number" [] [] []
    [commonHashD, blockNumberTagD] [] ""

/-- An entry of the override table: `t` is `reflect.TypeOf` of the entry's value and
`j` the schema its JSON literal decodes to (every literal of the table is
well-formed JSON, so `unmarshalJSONToJSONSchemaType` does not return `nil` on it). -/
structure schemaDictEntry where
  t : GoType
  j : Schema

/-- The slice `dict` of `OpenRPCJSONSchemaTypeMapper`, in source order. -/
def dict : List schemaDictEntry :=
  [ ⟨.Ptr bigInt, integerD⟩,
    ⟨bigInt, integerD⟩,
    ⟨.Ptr hexutilBig, integerD⟩,
    ⟨hexutilBig, integerD⟩,
    ⟨blockNonce, integerD⟩,
    ⟨.Ptr commonAddress, keccakPointerD⟩,
    ⟨commonAddress, addressD⟩,
    ⟨.Ptr commonHash, keccakPointerD⟩,
    ⟨commonHash, commonHashD⟩,
    ⟨hexutilBytes, dataWordD⟩,
    ⟨.Ptr hexutilBytes, dataWordD⟩,
    ⟨.Slice (.Basic .uint8), bytesD⟩,
    ⟨blockNumberOrHash, blockNumberOrHashD⟩,
    ⟨blockNumber, blockNumberOrTagD⟩ ]

/-- The loop over `dict`: the schema of the first entry whose type is `r`. -/
def dictLookup (r : GoType) : List schemaDictEntry → Option Schema
  | [] => none
  | d :: rest => if d.t = r then some d.j else dictLookup r rest

/-- The kind switch that follows the loop: `some none` is the `nil` result, `none` the panic. -/
def kindSwitch (k : Kind) : Option (Option Schema) :=
  match k with
  | .Struct => some none
  | .Map | .Interface => some none
  | .Slice | .Array => some none
  | .Int | .Int8 | .Int16 | .Int32 | .Int64
  | .Uint | .Uint8 | .Uint16 | .Uint32 | .Uint64 => some (some integerD)
  | .Float32 | .Float64 => some none
  | .Bool => some none
  | .String => some none
  | .Ptr => some none
  | _ => none

/-- The function `OpenRPCJSONSchemaTypeMapper`: `none` is the panic, `some none` the
`nil` result and `some (some t)` the schema returned. -/
def OpenRPCJSONSchemaTypeMapper (r : GoType) : Option (Option Schema) :=
  match dictLookup r dict with
  | some tt => some (some tt)
  | none => kindSwitch r.Kind

/-- The function `jsonschemaPkgSupport`. -/
def jsonschemaPkgSupport (r : GoType) : Bool :=
  match r.Kind with
  | .Struct
  | .Map
  | .Slice | .Array
  | .Interface
  | .Int | .Int8 | .Int16 | .Int32 | .Int64
  | .Uint | .Uint8 | .Uint16 | .Uint32 | .Uint64
  | .Float32 | .Float64
  | .Bool
  | .String
  | .Ptr => true
  | _ => false

/-! ## Strings -/

/-- The test `strings.Contains` on the characters of the two strings. -/
def containsChars : List Char → List Char → Bool
  | [], sub => sub.isEmpty
  | c :: cs, sub => sub.isPrefixOf (c :: cs) || containsChars cs sub

/-- The function `strings.Contains`. -/
def strContains (s substr : String) : Bool := containsChars s.toList substr.toList

/-- The function `strings.Split` for a separator of one character, on characters. -/
def splitChars (sep : Char) : List Char → List (List Char)
  | [] => [[]]
  | c :: cs =>
    if c = sep then [] :: splitChars sep cs
    else match splitChars sep cs with
      | [] => [[c]]
      | h :: t => (c :: h) :: t

/-- The last element `spl[len(spl)-1]` of `strings.Split(s, ":")`. -/
def lastColonToken (s : String) : String :=
  String.mk ((splitChars ':' s.toList).getLastD [])

/-- One lower-case hexadecimal digit. -/
def hexDigit (n : Nat) : Char :=
  "0123456789abcdef".toList.getD n '0'

/-- The verb `%x` on a slice of bytes: two lower-case digits per byte. -/
def hexBytes : List (Fin 256) → List Char
  | [] => []
  | b :: bs => hexDigit (b.val / 16) :: hexDigit (b.val % 16) :: hexBytes bs

/-! ## The abstract syntax of a declaring file (`go/ast`) -/

/-- The type expression of a field, as far as `makeContentDescriptor` and `getAstFunc`
tell expressions apart; the strings are the texts `%v` prints for the operands. -/
inductive Expr where
  | Ident (name : String)
  | SelectorExpr (x : String) (sel : String)
  | StarExpr (x : String)
  | Other
  deriving DecidableEq, Repr

/-- A field `*ast.Field`. `typeText` is the text of `fmt.Sprintf("%s", field.Type)`,
`Doc` and `Comment` are `field.Doc.Text()` and `field.Comment.Text()`; an entry of
`Names` is `none` for a nil identifier. -/
structure Field where
  Names : List (Option String)
  Type_ : Expr
  typeText : String
  Doc : String
  Comment : String
  deriving DecidableEq, Repr

/-- The signature `*ast.FuncType`; `none` is a nil field list, an entry `none` a nil field. -/
structure FuncType where
  Params : Option (List (Option Field))
  Results : Option (List (Option Field))
  deriving DecidableEq, Repr

/-- A function declaration `*ast.FuncDecl`; `Doc` is `fn.Doc.Text()`, `Name` the
name of the identifier `fn.Name` (`none` when nil) and `Recv` the list `fn.Recv.List`
(`none` when `fn.Recv` is nil). -/
structure FuncDecl where
  Doc : String
  Recv : Option (List (Option Field))
  Name : Option String
  Type_ : FuncType
  deriving DecidableEq, Repr

/-- A top-level declaration of a file. -/
inductive Decl where
  | FuncDecl (fn : FuncDecl)
  | GenDecl
  deriving DecidableEq, Repr

/-- The function `*runtime.Func` of a callback: its `Name()` and the file and line
`FileLine(Entry())` returns. -/
structure runtimeFunc where
  Name : String
  File : String
  Line : Nat
  deriving DecidableEq, Repr

/-- A registered callback `*callback`. `rcvr` is the text `cb.rcvr.String()`;
`argTypes`, `retTypes` and `hasCtx` are the values `makeArgTypes` and `makeRetTypes`
leave in the callback; `fn` is `runtime.FuncForPC(cb.fn.Pointer())`. -/
structure callback where
  fn : runtimeFunc
  rcvr : String
  argTypes : List GoType
  retTypes : List GoType
  hasCtx : Bool
  isSubscribe : Bool
  deriving DecidableEq, Repr

/-! ## The document -/

/-- The descriptor `goopenrpcT.ContentDescriptor`. -/
structure ContentDescriptor where
  Name : String
  Summary : String
  Description : String
  Schema : Schema

/-- The method `goopenrpcT.Method`, with the fields `makeMethod` sets to a value that
is not empty. `Params` and `Result` hold pointers in the source. -/
structure Method where
  Name : String
  Summary : String
  ExternalDocsDescription : String
  ExternalDocsURL : String
  Params : List ContentDescriptor
  Result : ContentDescriptor
  ParamStructure : String

/-- The document `goopenrpcT.OpenRPCSpec1`; `Schemas` is `Components.Schemas`. -/
structure OpenRPCSpec1 where
  OpenRPC : String
  InfoTitle : String
  InfoVersion : String
  Methods : List Method
  Schemas : List (String × Schema)

/-- The type `OpenRPCDescription`. -/
structure OpenRPCDescription where
  Doc : OpenRPCSpec1

/-- An identifier or a synthetic name, the type `argIdent`. -/
structure argIdent where
  ident : Option String
  name : String
  deriving DecidableEq, Repr

/-- The method `argIdent.Name`. -/
def argIdent.Name (a : argIdent) : String :=
  match a.ident with
  | some n => n
  | none => a.name

/-- The error values of the file, by the text that builds them. -/
inductive Err where
  /-- The error `unsupported iface: ...` of `makeContentDescriptor`. -/
  | unsupportedIface (ty : GoType) (field : Field) (ident : argIdent)
  /-- The error `nil ast func: method name: ...` of `RegisterMethod`. -/
  | nilAstFunc (name : String)
  /-- The error `make method error method=... cb=... error=...` of `RegisterMethod`. -/
  | makeMethodError (name : String) (cb : callback) (err : Err)
  /-- An error of `parser.ParseFile`. -/
  | parseError (msg : String)
  /-- The error of `SchemaAsReferenceSchema` for a schema that was not registered. -/
  | notAvailableAsReference (json : String)
  deriving DecidableEq, Repr

/-- What the file takes from outside: library functions, the source files of the
running program, and two constants of package `rpc` declared in another file. -/
structure Externals where
  /-- The function `json.Marshal` on a schema (its error is discarded by the callers). -/
  jsonMarshal : Schema → String
  /-- The function `sha1.Sum`: the twenty bytes of the digest. -/
  sha1Sum : String → Fin 20 → Fin 256
  /-- The structural reflection of `jsonschema.Reflector.ReflectFromType`, cast to
  `spec.Schema`, for a type the type mapper answers `nil` for; `none` when it panics. -/
  reflectStructural : GoType → Option Schema
  /-- The function `parser.ParseFile` on the file of that name. -/
  ParseFile : String → Except String (List Decl)
  /-- The constant `serviceMethodSeparators[0]`. -/
  serviceMethodSeparator : String
  /-- The constant `subscribeMethodSuffix`. -/
  subscribeMethodSuffix : String

/-! ## `makeContentDescriptor` -/

/-- The zero value `goopenrpcT.ContentDescriptor{}`. -/
def ContentDescriptor.zero : ContentDescriptor := ⟨"", "", "", Schema.zero⟩

/-- The call `rflctr.ReflectFromType(ty)` followed by the cast through JSON: the
reflector asks its `TypeMapper`, which is `OpenRPCJSONSchemaTypeMapper`, first and
takes a schema that is not `nil` as the schema of the type. `none` is a panic. -/
def ReflectFromType (E : Externals) (ty : GoType) : Option Schema :=
  match OpenRPCJSONSchemaTypeMapper ty with
  | none => none
  | some (some t) => some t
  | some none => E.reflectStructural ty

/-- The string `schemaType` of `makeContentDescriptor`. In the `*ast.StarExpr` case the
test `reflect.ValueOf(ty).Type().Kind() == reflect.Ptr` looks at the Go value `ty`,
which is a pointer to the runtime type descriptor, so its branch is always taken and
`ty.Elem()` is called: `none` is its panic. -/
def schemaTypeOf (ty : GoType) (e : Expr) : Option String :=
  match e with
  | .SelectorExpr x sel => some (ty.PkgPath ++ ":" ++ (x ++ "." ++ sel))
  | .StarExpr _ =>
    match ty.Elem with
    | none => none
    | some el => some ("*" ++ el.PkgPath ++ ":" ++ el.Name)
  | _ => some (ty.PkgPath ++ ":" ++ ty.Name)

/-- The function `makeContentDescriptor`; `none` is a panic. -/
def makeContentDescriptor (E : Externals) (ty : GoType) (field : Field) (ident : argIdent) :
    Option (ContentDescriptor × Option Err) :=
  let cd := ContentDescriptor.zero
  if !jsonschemaPkgSupport ty then
    some (cd, some (.unsupportedIface ty field ident))
  else
    match schemaTypeOf ty field.Type_ with
    | none => none
    | some schemaType =>
      let cd := { cd with Name := ident.Name, Summary := field.Doc, Description := field.Comment }
      match ReflectFromType E ty with
      | none => none
      | some sch =>
        let sch :=
          if schemaType != ":" && (cd.Schema.Description == "" || cd.Schema.Description == ":")
          then sch.setDescription schemaType else sch
        some ({ cd with Schema := sch }, none)

/-! ## `makeMethod` -/

/-- The loop over `field.Names` of a parameter field: `j` is the index into
`cb.argTypes`, `ps` the list `m.Params`. -/
def paramNames (E : Externals) (name : String) (cb : callback) (field : Field) :
    List (Option String) → Nat → List ContentDescriptor →
    Option (Nat × List ContentDescriptor × Option Err)
  | [], j, ps => some (j, ps, none)
  | none :: rest, j, ps => paramNames E name cb field rest j ps
  | some ident :: rest, j, ps =>
    if (j : Int) > (cb.argTypes.length : Int) - 1 then
      paramNames E name cb field rest j ps
    else
      match cb.argTypes[j]? with
      | none => none
      | some ty =>
        match makeContentDescriptor E ty field
            ⟨some ident, name ++ "Parameter" ++ toString j⟩ with
        | none => none
        | some (_, some err) => some (j, ps, some err)
        | some (cd, none) => paramNames E name cb field rest (j + 1) (ps ++ [cd])

/-- The loop over `fn.Type.Params.List`. -/
def paramFields (E : Externals) (name : String) (cb : callback) :
    List (Option Field) → Nat → List ContentDescriptor →
    Option (Nat × List ContentDescriptor × Option Err)
  | [], j, ps => some (j, ps, none)
  | none :: rest, j, ps => paramFields E name cb rest j ps
  | some field :: rest, j, ps =>
    if cb.hasCtx && strContains field.typeText "context" then
      paramFields E name cb rest j ps
    else if field.Names.length > 0 then
      match paramNames E name cb field field.Names j ps with
      | none => none
      | some (j, ps, some err) => some (j, ps, some err)
      | some (j, ps, none) => paramFields E name cb rest j ps
    else
      match cb.argTypes[j]? with
      | none => none
      | some ty =>
        match makeContentDescriptor E ty field ⟨none, name ++ "Parameter" ++ toString j⟩ with
        | none => none
        | some (_, some err) => some (j, ps, some err)
        | some (cd, none) => paramFields E name cb rest (j + 1) (ps ++ [cd])

/-- The loop over `field.Names` of a result field: `res` is the descriptor `m.Result`
points to. -/
def resultNames (E : Externals) (name : String) (cb : callback) (field : Field) :
    List (Option String) → Nat → ContentDescriptor →
    Option (Nat × ContentDescriptor × Option Err)
  | [], j, res => some (j, res, none)
  | ident :: rest, j, res =>
    match cb.retTypes[j]? with
    | none => none
    | some ty =>
      match makeContentDescriptor E ty field ⟨ident, name ++ "Result" ++ toString j⟩ with
      | none => none
      | some (_, some err) => some (j, res, some err)
      | some (cd, none) => resultNames E name cb field rest (j + 1) cd

/-- The loop over `fn.Type.Results.List`. -/
def resultFields (E : Externals) (name : String) (cb : callback) :
    List (Option Field) → Nat → ContentDescriptor →
    Option (Nat × ContentDescriptor × Option Err)
  | [], j, res => some (j, res, none)
  | none :: rest, j, res => resultFields E name cb rest j res
  | some field :: rest, j, res =>
    if strContains field.typeText "error" then
      resultFields E name cb rest j res
    else if field.Names.length > 0 then
      match resultNames E name cb field field.Names j res with
      | none => none
      | some (j, res, some err) => some (j, res, some err)
      | some (j, res, none) => resultFields E name cb rest j res
    else
      match cb.retTypes[j]? with
      | none => none
      | some ty =>
        match makeContentDescriptor E ty field ⟨none, name ++ "Result"⟩ with
        | none => none
        | some (_, some err) => some (j, res, some err)
        | some (cd, none) => resultFields E name cb rest (j + 1) cd

/-- The deferred function of `makeMethod`. It runs after the result values are set and
writes through the pointer `m.Result`, which the returned copy of `m` shares. -/
def deferredNullResult (m : Method) : Method :=
  if m.Result.Name == "" then
    { m with Result :=
        { m.Result with
          Name := "null"
          Schema := (m.Result.Schema.setType ["null"]).setDescription "Null" } }
  else m

/-- The method literal `m` that `makeMethod` starts from. -/
def newMethod (name : String) (rt : runtimeFunc) (fn : FuncDecl) : Method :=
  { Name := name
    Summary := fn.Doc
    ExternalDocsDescription := rt.Name
    ExternalDocsURL := "file://" ++ rt.File ++ ":" ++ toString rt.Line
    Params := []
    Result := ContentDescriptor.zero
    ParamStructure := "by-position" }

/-- The block `if fn.Type.Params != nil` of `makeMethod`: the list `m.Params` it builds
and the error it returns with, if any; `none` is a panic. -/
def makeMethodParams (E : Externals) (name : String) (cb : callback) (fn : FuncDecl) :
    Option (Nat × List ContentDescriptor × Option Err) :=
  match fn.Type_.Params with
  | none => some (0, [], none)
  | some list => paramFields E name cb list 0 []

/-- The block `if fn.Type.Results != nil` of `makeMethod`: the descriptor `m.Result`
points to afterwards and the error it returns with, if any; `none` is a panic. -/
def makeMethodResults (E : Externals) (name : String) (cb : callback) (fn : FuncDecl) :
    Option (Nat × ContentDescriptor × Option Err) :=
  match fn.Type_.Results with
  | none => some (0, ContentDescriptor.zero, none)
  | some list => resultFields E name cb list 0 ContentDescriptor.zero

/-- The function `makeMethod`; `none` is a panic. -/
def makeMethod (E : Externals) (name : String) (cb : callback) (rt : runtimeFunc)
    (fn : FuncDecl) : Option (Method × Option Err) :=
  let m := newMethod name rt fn
  match makeMethodParams E name cb fn with
  | none => none
  | some (_, ps, some err) => some (deferredNullResult { m with Params := ps }, some err)
  | some (_, ps, none) =>
    let m := { m with Params := ps }
    match makeMethodResults E name cb fn with
    | none => none
    | some (_, res, some err) => some (deferredNullResult { m with Result := res }, some err)
    | some (_, res, none) => some (deferredNullResult { m with Result := res }, none)

/-! ## `getAstFunc` and `RegisterMethod` -/

/-- The function `runtimeFuncName`: the text after the last dot of `rf.Name()`. -/
def runtimeFuncName (rf : runtimeFunc) : String :=
  String.mk ((splitChars '.' rf.Name.toList).getLastD [])

/-- The class `\\s` of the regular expressions of package `regexp`. -/
def isSpaceChar (c : Char) : Bool :=
  c == ' ' || c == '\t' || c == '\n' || c == '\x0c' || c == '\r'

/-- Whether the characters of `lit`, followed by one character of class `\\s`, occur in
the list. -/
def matchLitSpace (lit : List Char) : List Char → Bool
  | [] => false
  | c :: cs =>
    (lit.isPrefixOf (c :: cs) && ((c :: cs).drop lit.length).head?.any isSpaceChar)
      || matchLitSpace lit cs

/-- The test `regexp.MustCompile(fnRecName + "\\s").MatchString(s)` for a receiver name
made of the characters of an identifier, which stand for themselves in a pattern. -/
def reRecMatch (fnRecName : String) (s : String) : Bool :=
  matchLitSpace fnRecName.toList s.toList

/-- The loop over `fn.Recv.List` that computes `fnRecName`; `none` is the panic on a
nil field. -/
def recvName : List (Option Field) → String → Option String
  | [], fnRecName => some fnRecName
  | l :: rest, fnRecName =>
    if fnRecName != "" then some fnRecName
    else
      match l with
      | none => none
      | some l =>
        match l.Type_ with
        | .Ident i => recvName rest i
        | .StarExpr x => recvName rest x
        | _ => recvName rest fnRecName

/-- The loop of `getAstFunc` over `astFile.Decls`; `none` is a panic (`fn.Recv` is
dereferenced without a nil test), `some none` the `nil` result. -/
def getAstFuncLoop (cb : callback) (rfName : String) : List Decl → Option (Option FuncDecl)
  | [] => some none
  | .GenDecl :: rest => getAstFuncLoop cb rfName rest
  | .FuncDecl fn :: rest =>
    if fn.Name == none || fn.Name != some rfName then
      getAstFuncLoop cb rfName rest
    else
      match fn.Recv with
      | none => none
      | some list =>
        match recvName list "" with
        | none => none
        | some fnRecName =>
          if !reRecMatch fnRecName cb.rcvr then getAstFuncLoop cb rfName rest
          else some (some fn)

/-- The function `getAstFunc`. -/
def getAstFunc (cb : callback) (astFile : List Decl) (rf : runtimeFunc) :
    Option (Option FuncDecl) :=
  getAstFuncLoop cb (runtimeFuncName rf) astFile

/-- The order `less` of the `sort.Slice` call: `a < b` on strings, byte by byte. -/
def nameLess (a b : Method) : Bool := decide (a.Name.toList < b.Name.toList)

/-- Insertion into a list sorted by `less`. -/
def insertByName (x : Method) : List Method → List Method
  | [] => [x]
  | y :: ys => if nameLess y x then y :: insertByName x ys else x :: y :: ys

/-- The call `sort.Slice(d.Doc.Methods, less)`, as an insertion sort. For a list with
pairwise distinct names, which is what `Describe` sorts, every sorting algorithm yields
this list. -/
def sortSlice : List Method → List Method
  | [] => []
  | x :: xs => insertByName x (sortSlice xs)

/-- The method `RegisterMethod`: the description afterwards and the error; `none` is
a panic. -/
def RegisterMethod (E : Externals) (d : OpenRPCDescription) (name : String) (cb : callback) :
    Option (OpenRPCDescription × Option Err) :=
  let rtFunc := cb.fn
  match E.ParseFile rtFunc.File with
  | .error err => some (d, some (.parseError err))
  | .ok astFile =>
    match getAstFunc cb astFile rtFunc with
    | none => none
    | some none => some (d, some (.nilAstFunc name))
    | some (some astFuncDel) =>
      match makeMethod E name cb rtFunc astFuncDel with
      | none => none
      | some (_, some err) => some (d, some (.makeMethodError name cb err))
      | some (method, none) =>
        some ({ d with Doc := { d.Doc with Methods := sortSlice (d.Doc.Methods ++ [method]) } },
          none)

/-! ## The schema analysis of package `jst` and `Clean` -/

/-- Modelled from the spec: the analysis `jst.AnalysisT`; the package is not part of the
sources at hand. It remembers for the serialization of each registered schema the key it
was registered under. -/
structure AnalysisT where
  schemaTitles : List (String × String)

/-- Modelled from the spec: the constructor `jst.NewAnalysisT`, an analysis that
knows no schema. -/
def NewAnalysisT : AnalysisT := ⟨[]⟩

/-- Modelled from the spec: the method `RegisterSchema` of `jst.AnalysisT`, which
records the key `titleKeyer` gives to the schema. -/
def AnalysisT.RegisterSchema (E : Externals) (a : AnalysisT) (sch : Schema)
    (titleKeyer : Schema → String) : AnalysisT :=
  ⟨(E.jsonMarshal sch, titleKeyer sch) :: a.schemaTitles⟩

/-- Modelled from the spec: the pure reference to the entry `key` of the components
table that `SchemaAsReferenceSchema` of package `jst` builds; the package is not part of
the sources at hand. -/
def refSchema (key : String) : Schema :=
  .mk "" [] "" "" [] [] [] [] [] ("#/components/schemas/" ++ key)

/-- Modelled from the spec: the method `SchemaAsReferenceSchema` of `jst.AnalysisT`: a
pure reference to the key the schema was registered under, an error for a schema that
was not registered. -/
def AnalysisT.SchemaAsReferenceSchema (E : Externals) (a : AnalysisT) (sch : Schema) :
    Schema × Option Err :=
  match a.schemaTitles.lookup (E.jsonMarshal sch) with
  | some titleKey => (refSchema titleKey, none)
  | none => (Schema.zero, some (.notAvailableAsReference (E.jsonMarshal sch)))

mutual
/-- Modelled from the spec: the method `Traverse` of `jst.AnalysisT`. It visits the
tree bottom-up: the nodes under `oneOf`, `properties` and `items` first, each replaced
by what the callback leaves in its place, then the node itself; it stops at the first
error. `σ` is the state the callback closes over. The callback is run on every node;
the reading under which a node that is a pure reference already is passed over is the
callback `unlessReference`. `Clean` sets the option `ExpandAtNode` of the analysis,
which the specification does not describe and which has no part in this model. -/
def Traverse {σ : Type} (onNode : Schema → σ → Schema × σ × Option Err) :
    Schema → σ → Schema × σ × Option Err
  | .mk t ty p d e props items oneOf defs r, st =>
    match TraverseList onNode oneOf st with
    | (oneOf, st, some err) => (.mk t ty p d e props items oneOf defs r, st, some err)
    | (oneOf, st, none) =>
      match TraverseProps onNode props st with
      | (props, st, some err) => (.mk t ty p d e props items oneOf defs r, st, some err)
      | (props, st, none) =>
        match TraverseList onNode items st with
        | (items, st, some err) => (.mk t ty p d e props items oneOf defs r, st, some err)
        | (items, st, none) => onNode (.mk t ty p d e props items oneOf defs r) st
/-- Modelled from the spec: `Traverse` on the schemas of a list, in order. -/
def TraverseList {σ : Type} (onNode : Schema → σ → Schema × σ × Option Err) :
    List Schema → σ → List Schema × σ × Option Err
  | [], st => ([], st, none)
  | s :: rest, st =>
    match Traverse onNode s st with
    | (s, st, some err) => (s :: rest, st, some err)
    | (s, st, none) =>
      match TraverseList onNode rest st with
      | (rest, st, err) => (s :: rest, st, err)
/-- Modelled from the spec: `Traverse` on the schemas of a property map, in order. -/
def TraverseProps {σ : Type} (onNode : Schema → σ → Schema × σ × Option Err) :
    List (String × Schema) → σ → List (String × Schema) × σ × Option Err
  | [], st => ([], st, none)
  | (k, s) :: rest, st =>
    match Traverse onNode s st with
    | (s, st, some err) => ((k, s) :: rest, st, some err)
    | (s, st, none) =>
      match TraverseProps onNode rest st with
      | (rest, st, err) => ((k, s) :: rest, st, err)
end

/-- The closure `uniqueKeyFn` of `Clean`. -/
def uniqueKeyFn (E : Externals) (sch : Schema) : String :=
  let b := E.jsonMarshal sch
  let sum := E.sha1Sum b
  let out := String.mk (hexBytes [sum 0, sum 1, sum 2, sum 3])
  let out := if sch.Title != "" then (sch.Title ++ ".") ++ out else out
  let out :=
    if sch.Type_.length != 0 then (String.intercalate "+" sch.Type_ ++ ".") ++ out else out
  let splv := lastColonToken sch.Description
  if splv != "" && !strContains splv " " then splv ++ "_" ++ out else out

/-- The state the closures of `Clean` write to: the analysis `a` and the map
`doc.Components.Schemas`. -/
abbrev CleanState := AnalysisT × List (String × Schema)

/-- The closure `registerSchema` of `Clean`. -/
def registerSchema (E : Externals) (leaf : Schema) (a : AnalysisT) : AnalysisT × Option Err :=
  (a.RegisterSchema E leaf (uniqueKeyFn E), none)

/-- The closure `referencer` of `Clean`. -/
def referencer (E : Externals) (sch : Schema) (st : CleanState) :
    Schema × CleanState × Option Err :=
  match registerSchema E sch st.1 with
  | (a, some err) => (sch, (a, st.2), some err)
  | (a, none) =>
    match a.SchemaAsReferenceSchema E sch with
    | (_, some err) => (sch, (a, st.2), some err)
    | (r, none) => (r, (a, (uniqueKeyFn E sch, sch) :: st.2), none)

/-- The closure `removeDefinitions` of `Clean`. -/
def removeDefinitions (sch : Schema) (st : CleanState) : Schema × CleanState × Option Err :=
  (sch.setDefinitions [], st, none)

/-- The two calls of `Traverse` that `Clean` makes on one schema; `Clean` discards both
results. -/
def cleanSchema (E : Externals) (sch : Schema) (st : CleanState) : Schema × CleanState :=
  match Traverse removeDefinitions sch st with
  | (sch, st, _) =>
    match Traverse (referencer E) sch st with
    | (sch, st, _) => (sch, st)

/-- The loop of `Clean` over `met.Params`. -/
def cleanParams (E : Externals) :
    List ContentDescriptor → CleanState → List ContentDescriptor × CleanState
  | [], st => ([], st)
  | par :: rest, st =>
    match cleanSchema E par.Schema st with
    | (sch, st) =>
      match cleanParams E rest st with
      | (rest, st) => ({ par with Schema := sch } :: rest, st)

/-- The loop of `Clean` over `doc.Methods`. -/
def cleanMethods (E : Externals) : List Method → CleanState → List Method × CleanState
  | [], st => ([], st)
  | met :: rest, st =>
    match cleanParams E met.Params st with
    | (params, st) =>
      match cleanSchema E met.Result.Schema st with
      | (sch, st) =>
        match cleanMethods E rest st with
        | (rest, st) =>
          ({ met with Params := params, Result := { met.Result with Schema := sch } } :: rest, st)

/-- The function `Clean`: the document as the call leaves it and the error returned. -/
def Clean (E : Externals) (doc : OpenRPCSpec1) : OpenRPCSpec1 × Option Err :=
  let a := NewAnalysisT
  let doc := { doc with Schemas := [] }
  match cleanMethods E doc.Methods (a, doc.Schemas) with
  | (methods, (_, schemas)) => ({ doc with Methods := methods, Schemas := schemas }, none)

/-! ## `Describe` -/

/-- The function `NewOpenRPCDescription`. -/
def NewOpenRPCDescription : OpenRPCDescription :=
  ⟨{ OpenRPC := "1.2.4"
     InfoTitle := "Ethereum JSON-RPC"
     InfoVersion := "1.0.10"
     Methods := []
     Schemas := [] }⟩

/-- The inner loop of `Describe` over the method names of one module, each with the
callback `s.server.services.services[module].callbacks[methodName]`. -/
def describeList (E : Externals) (module : String) :
    List (String × callback) → OpenRPCDescription → Option (OpenRPCDescription × Option Err)
  | [], d => some (d, none)
  | (methodName, method) :: rest, d =>
    let fullName := module ++ E.serviceMethodSeparator ++ methodName
    if method.isSubscribe || strContains fullName E.subscribeMethodSuffix then
      describeList E module rest d
    else if d.Doc.Methods.any (fun m => m.Name == fullName) then
      describeList E module rest d
    else
      match RegisterMethod E d fullName method with
      | none => none
      | some (d, some err) => some (d, some err)
      | some (d, none) => describeList E module rest d

/-- The outer loop of `Describe` over the modules of `s.methods()`, in the order the
map is enumerated in. -/
def describeModules (E : Externals) :
    List (String × List (String × callback)) → OpenRPCDescription →
    Option (OpenRPCDescription × Option Err)
  | [], d => some (d, none)
  | (module, list) :: rest, d =>
    if module == "rpc" then describeModules E rest d
    else
      match describeList E module list d with
      | none => none
      | some (d, some err) => some (d, some err)
      | some (d, none) => describeModules E rest d

/-- Modelled from the spec: the service `RPCService`, whose declaration is not part of
the sources at hand: the retained description `s.doc` (`none` when nil) and the registry,
as `s.methods()` enumerates it in this call, each method name with its callback. -/
structure RPCService where
  doc : Option OpenRPCDescription
  methods : List (String × List (String × callback))

/-- The method `Describe`: the service afterwards, the document returned (`none` for
nil) and the error; the outer `none` is a panic. -/
def Describe (E : Externals) (s : RPCService) :
    Option (RPCService × Option OpenRPCSpec1 × Option Err) :=
  let d := match s.doc with
    | none => NewOpenRPCDescription
    | some d => d
  match describeModules E s.methods d with
  | none => none
  | some (d, some err) => some ({ s with doc := some d }, none, some err)
  | some (d, none) =>
    match Clean E d.Doc with
    | (_, some _) => none
    | (doc, none) => some ({ s with doc := some ⟨doc⟩ }, some doc, none)

/-! ## What the traversals of `Clean` compute -/

mutual
/-- The tree `Traverse` with `removeDefinitions` leaves: no node reached through
`oneOf`, `properties` or `items` keeps its `definitions`. -/
def stripDefinitions : Schema → Schema
  | .mk t ty p d e props items oneOf _ r =>
    .mk t ty p d e (stripDefinitionsProps props) (stripDefinitionsList items)
      (stripDefinitionsList oneOf) [] r
/-- The function `stripDefinitions` on the schemas of a list. -/
def stripDefinitionsList : List Schema → List Schema
  | [] => []
  | s :: rest => stripDefinitions s :: stripDefinitionsList rest
/-- The function `stripDefinitions` on the schemas of a property map. -/
def stripDefinitionsProps : List (String × Schema) → List (String × Schema)
  | [] => []
  | (k, s) :: rest => (k, stripDefinitions s) :: stripDefinitionsProps rest
end

mutual
/-- The reference `Traverse` with `referencer` leaves in the place of a schema: the
reference to the key of the node whose children are references already. -/
def referenced (E : Externals) : Schema → Schema
  | .mk t ty p d e props items oneOf defs r =>
    refSchema (uniqueKeyFn E
      (.mk t ty p d e (referencedProps E props) (referencedList E items)
        (referencedList E oneOf) defs r))
/-- The function `referenced` on the schemas of a list. -/
def referencedList (E : Externals) : List Schema → List Schema
  | [] => []
  | s :: rest => referenced E s :: referencedList E rest
/-- The function `referenced` on the schemas of a property map. -/
def referencedProps (E : Externals) : List (String × Schema) → List (String × Schema)
  | [] => []
  | (k, s) :: rest => (k, referenced E s) :: referencedProps E rest
end

/-- The node `referencer` is called on at the root of a schema: the schema with its
children replaced by references. -/
def canonicalNode (E : Externals) : Schema → Schema
  | .mk t ty p d e props items oneOf defs r =>
    .mk t ty p d e (referencedProps E props) (referencedList E items)
      (referencedList E oneOf) defs r

mutual
/-- The bindings `Traverse` with `referencer` adds to the components table for a
schema, the latest first. -/
def tableEntries (E : Externals) : Schema → List (String × Schema)
  | .mk t ty p d e props items oneOf defs r =>
    (uniqueKeyFn E
        (.mk t ty p d e (referencedProps E props) (referencedList E items)
          (referencedList E oneOf) defs r),
      .mk t ty p d e (referencedProps E props) (referencedList E items)
        (referencedList E oneOf) defs r) ::
      (tableEntriesList E items ++ (tableEntriesProps E props ++ tableEntriesList E oneOf))
/-- The function `tableEntries` on the schemas of a list. -/
def tableEntriesList (E : Externals) : List Schema → List (String × Schema)
  | [] => []
  | s :: rest => tableEntriesList E rest ++ tableEntries E s
/-- The function `tableEntries` on the schemas of a property map. -/
def tableEntriesProps (E : Externals) : List (String × Schema) → List (String × Schema)
  | [] => []
  | (_, s) :: rest => tableEntriesProps E rest ++ tableEntries E s
end

/-- The binding of the analysis that goes with a binding of the components table. -/
def titleOf (E : Externals) (kv : String × Schema) : String × String :=
  (E.jsonMarshal kv.2, kv.1)

/-- The schema `Clean` leaves in the place of a schema. -/
def cleaned (E : Externals) (sch : Schema) : Schema :=
  referenced E (stripDefinitions sch)

/-- The descriptor `Clean` leaves in the place of a descriptor. -/
def cleanedDescriptor (E : Externals) (cd : ContentDescriptor) : ContentDescriptor :=
  { cd with Schema := cleaned E cd.Schema }

/-- The method `Clean` leaves in the place of a method. -/
def cleanedMethod (E : Externals) (m : Method) : Method :=
  { m with Params := m.Params.map (cleanedDescriptor E), Result := cleanedDescriptor E m.Result }

/-- The descriptors of a method: its parameters, then its result. -/
def Method.descriptors (m : Method) : List ContentDescriptor := m.Params ++ [m.Result]

/-- The bindings `Clean` adds to the components table for the descriptors of a list,
the latest first. -/
def descriptorEntries (E : Externals) : List ContentDescriptor → List (String × Schema)
  | [] => []
  | cd :: rest => descriptorEntries E rest ++ tableEntries E (stripDefinitions cd.Schema)

/-- The bindings `Clean` adds to the components table for the methods of a list, the
latest first. -/
def methodEntries (E : Externals) : List Method → List (String × Schema)
  | [] => []
  | m :: rest => methodEntries E rest ++ descriptorEntries E m.descriptors

/-! ## Notions the statements use -/

/-- Whether a schema is a pure reference: it holds a reference and nothing else. -/
def Schema.isReference : Schema → Bool
  | .mk t ty p d e props items oneOf defs r =>
    t == "" && ty.isEmpty && p == "" && d == "" && e.isEmpty && props.isEmpty &&
      items.isEmpty && oneOf.isEmpty && defs.isEmpty && r != ""

/-- Modelled from the spec: a callback as a traversal runs it that passes over a node
which is a pure reference already, the reading of section 4.4 of the specification
under which the pass on an already-referenced node is a no-op. -/
def unlessReference (onNode : Schema → CleanState → Schema × CleanState × Option Err)
    (sch : Schema) (st : CleanState) : Schema × CleanState × Option Err :=
  if sch.isReference then (sch, st, none) else onNode sch st

/-- Modelled from the spec: the function `cleanSchema` with a traversal that passes over
pure references. -/
def cleanSchemaSkipping (E : Externals) (sch : Schema) (st : CleanState) :
    Schema × CleanState :=
  match Traverse (unlessReference removeDefinitions) sch st with
  | (sch, st, _) =>
    match Traverse (unlessReference (referencer E)) sch st with
    | (sch, st, _) => (sch, st)

/-- Modelled from the spec: the function `cleanParams` with a traversal that passes over
pure references. -/
def cleanParamsSkipping (E : Externals) :
    List ContentDescriptor → CleanState → List ContentDescriptor × CleanState
  | [], st => ([], st)
  | par :: rest, st =>
    match cleanSchemaSkipping E par.Schema st with
    | (sch, st) =>
      match cleanParamsSkipping E rest st with
      | (rest, st) => ({ par with Schema := sch } :: rest, st)

/-- Modelled from the spec: the function `cleanMethods` with a traversal that passes
over pure references. -/
def cleanMethodsSkipping (E : Externals) :
    List Method → CleanState → List Method × CleanState
  | [], st => ([], st)
  | met :: rest, st =>
    match cleanParamsSkipping E met.Params st with
    | (params, st) =>
      match cleanSchemaSkipping E met.Result.Schema st with
      | (sch, st) =>
        match cleanMethodsSkipping E rest st with
        | (rest, st) =>
          ({ met with Params := params, Result := { met.Result with Schema := sch } } :: rest, st)

/-- Modelled from the spec: the function `Clean` with a traversal that passes over pure
references; the code of `Clean` is the same, the traversal of package `jst` is read the
other way. -/
def CleanSkipping (E : Externals) (doc : OpenRPCSpec1) : OpenRPCSpec1 × Option Err :=
  let a := NewAnalysisT
  let doc := { doc with Schemas := [] }
  match cleanMethodsSkipping E doc.Methods (a, doc.Schemas) with
  | (methods, (_, schemas)) => ({ doc with Methods := methods, Schemas := schemas }, none)

/-- Every schema of a descriptor of the methods is a pure reference. -/
def allReferences (ms : List Method) : Prop :=
  ∀ m ∈ ms, ∀ cd ∈ m.descriptors, cd.Schema.isReference = true

/-- Whether the parameter loop of `makeMethod` skips the field as the context argument. -/
def isContextField (cb : callback) (field : Field) : Bool :=
  cb.hasCtx && strContains field.typeText "context"

/-- The fields of a parameter list the loop of `makeMethod` does not skip: those that
are not nil and not taken for the context argument, in declaration order. -/
def declaredParams (cb : callback) : List (Option Field) → List Field
  | [] => []
  | none :: rest => declaredParams cb rest
  | some field :: rest =>
    if isContextField cb field then declaredParams cb rest
    else field :: declaredParams cb rest

/-- The function `strings.HasSuffix`. -/
def strHasSuffix (s suffix : String) : Bool := suffix.toList.isSuffixOf s.toList

/-- The error `makeContentDescriptor` returns for a type `jsonschemaPkgSupport` rejects. -/
def Err.isUnsupportedIface (err : Err) : Prop :=
  ∃ ty field ident, err = .unsupportedIface ty field ident ∧ jsonschemaPkgSupport ty = false

/-- The methods of the description the service retains: none when `s.doc` is nil. -/
def RPCService.retainedMethods (s : RPCService) : List Method :=
  match s.doc with
  | none => []
  | some d => d.Doc.Methods

/-- The part of the key `uniqueKeyFn` builds before it looks at the description: the
digest, behind the title and the types of the node. -/
def keyBody (E : Externals) (sch : Schema) : String :=
  let b := E.jsonMarshal sch
  let sum := E.sha1Sum b
  let out := String.mk (hexBytes [sum 0, sum 1, sum 2, sum 3])
  let out := if sch.Title != "" then (sch.Title ++ ".") ++ out else out
  if sch.Type_.length != 0 then (String.intercalate "+" sch.Type_ ++ ".") ++ out else out

/-- The calls of `makeContentDescriptor` the parameter loops of `makeMethod` make, in
order, as far as the declaration decides them: one slot for every identifier that is
not nil of a field with names, and one slot, without identifier, for a field without
names; nil fields and the fields skipped as the context argument have none. -/
def paramSlots (cb : callback) : List (Option Field) → List (Field × Option String)
  | [] => []
  | none :: rest => paramSlots cb rest
  | some field :: rest =>
    if isContextField cb field then paramSlots cb rest
    else if field.Names.length > 0 then
      (field.Names.filterMap id).map (fun ident => (field, some ident)) ++ paramSlots cb rest
    else (field, none) :: paramSlots cb rest

/-- The two nested parameter loops of `makeMethod` as one loop over the slots: a slot
with an identifier is skipped when no argument type is left, a slot without identifier
indexes `cb.argTypes` without that test. -/
def runParamSlots (E : Externals) (name : String) (cb : callback) :
    List (Field × Option String) → Nat → List ContentDescriptor →
    Option (Nat × List ContentDescriptor × Option Err)
  | [], j, ps => some (j, ps, none)
  | (field, ident) :: rest, j, ps =>
    if ident.isSome && decide ((j : Int) > (cb.argTypes.length : Int) - 1) then
      runParamSlots E name cb rest j ps
    else
      match cb.argTypes[j]? with
      | none => none
      | some ty =>
        match makeContentDescriptor E ty field ⟨ident, name ++ "Parameter" ++ toString j⟩ with
        | none => none
        | some (_, some err) => some (j, ps, some err)
        | some (cd, none) => runParamSlots E name cb rest (j + 1) (ps ++ [cd])

/-- The calls of `makeContentDescriptor` the result loops of `makeMethod` make, in
order: one slot for every identifier, nil or not, of a field with names, and one slot
for a field without names; nil fields and the fields whose type text contains `error`
have none. The second component is `none` for a field without names. -/
def resultSlots : List (Option Field) → List (Field × Option (Option String))
  | [] => []
  | none :: rest => resultSlots rest
  | some field :: rest =>
    if strContains field.typeText "error" then resultSlots rest
    else if field.Names.length > 0 then
      field.Names.map (fun ident => (field, some ident)) ++ resultSlots rest
    else (field, none) :: resultSlots rest

/-- The identifier `makeMethod` passes for a result slot when the index into
`cb.retTypes` is `j`. -/
def resultIdent (name : String) (slot : Option (Option String)) (j : Nat) : argIdent :=
  match slot with
  | some ident => ⟨ident, name ++ "Result" ++ toString j⟩
  | none => ⟨none, name ++ "Result"⟩

/-- The two nested result loops of `makeMethod` as one loop over the slots. -/
def runResultSlots (E : Externals) (name : String) (cb : callback) :
    List (Field × Option (Option String)) → Nat → ContentDescriptor →
    Option (Nat × ContentDescriptor × Option Err)
  | [], j, res => some (j, res, none)
  | (field, slot) :: rest, j, res =>
    match cb.retTypes[j]? with
    | none => none
    | some ty =>
      match makeContentDescriptor E ty field (resultIdent name slot j) with
      | none => none
      | some (_, some err) => some (j, res, some err)
      | some (cd, none) => runResultSlots E name cb rest (j + 1) cd

/-- The method a call of `RegisterMethod` under the name adds to the description, `none`
when the call fails or panics: the outcome of the call but for the description. -/
def builtMethod (E : Externals) (name : String) (cb : callback) : Option Method :=
  match E.ParseFile cb.fn.File with
  | .error _ => none
  | .ok astFile =>
    match getAstFunc cb astFile cb.fn with
    | some (some astFuncDel) =>
      match makeMethod E name cb cb.fn astFuncDel with
      | some (method, none) => some method
      | _ => none
    | _ => none

/-- The entries of a registry, as the loops of `Describe` meet them in an enumeration:
the module, the method name and the callback. -/
def registryEntries :
    List (String × List (String × callback)) → List (String × String × callback)
  | [] => []
  | (module, list) :: rest => list.map (fun e => (module, e.1, e.2)) ++ registryEntries rest

/-- The qualified name of an entry. -/
def qualifiedName (E : Externals) (e : String × String × callback) : String :=
  e.1 ++ E.serviceMethodSeparator ++ e.2.1

/-- What the loops of `Describe` go on with for an entry: the qualified name and the
callback, unless the module is `rpc` or the method is skipped as a subscription. -/
def describeEntry (E : Externals) (e : String × String × callback) :
    Option (String × callback) :=
  if e.1 == "rpc" then none
  else if e.2.2.isSubscribe || strContains (qualifiedName E e) E.subscribeMethodSuffix then none
  else some (qualifiedName E e, e.2.2)

/-- The two loops of `Describe` as one loop over the entries that are not skipped: the
test for a name that is in the description already, and the call of `RegisterMethod`. -/
def registerAll (E : Externals) :
    List (String × callback) → OpenRPCDescription → Option (OpenRPCDescription × Option Err)
  | [], d => some (d, none)
  | (fullName, cb) :: rest, d =>
    if d.Doc.Methods.any (fun m => m.Name == fullName) then registerAll E rest d
    else
      match RegisterMethod E d fullName cb with
      | none => none
      | some (d, some err) => some (d, some err)
      | some (d, none) => registerAll E rest d

/-! ## Concrete inputs -/

/-- A document with one method, without parameters, whose result has the schema of
the integer override; its components table is empty. -/
def integerDoc : OpenRPCSpec1 :=
  { OpenRPC := "1.2.4"
    InfoTitle := "Ethereum JSON-RPC"
    InfoVersion := "1.0.10"
    Methods :=
      [ { Name := "eth_blockNumber"
          Summary := ""
          ExternalDocsDescription := ""
          ExternalDocsURL := ""
          Params := []
          Result := ⟨"eth_blockNumberResult", "", "", integerD⟩
          ParamStructure := "by-position" } ]
    Schemas := [] }

/-- A structural reflection that looks at the kind of the type only. -/
def reflectByKind (ty : GoType) : Option Schema :=
  match ty.Kind with
  | .String => some (.mk "" ["string"] "" "" [] [] [] [] [] "")
  | .Bool => some (.mk "" ["boolean"] "" "" [] [] [] [] [] "")
  | .Float32 | .Float64 => some (.mk "" ["number"] "" "" [] [] [] [] [] "")
  | .Slice | .Array => some (.mk "" ["array"] "" "" [] [] [] [] [] "")
  | _ => some (.mk "" ["object"] "" "" [] [] [] [] [] "")

/-- An environment for evaluating the definitions on concrete inputs: a serializer that
writes the title, the description and the reference of a node, a digest made of the
length of its input, the structural reflection `reflectByKind`, the separator `_`, the
suffix `_subscribe`, and the source files given. -/
def externalsWith (ParseFile : String → Except String (List Decl)) : Externals :=
  { jsonMarshal := fun sch => sch.Title ++ "|" ++ sch.Description ++ "|" ++ sch.Ref
    sha1Sum := fun s i => ⟨(s.length + i.val) % 256, Nat.mod_lt _ (by decide)⟩
    reflectStructural := reflectByKind
    ParseFile := ParseFile
    serviceMethodSeparator := "_"
    subscribeMethodSuffix := "_subscribe" }

/-- A field without documentation. -/
def fieldOf (names : List (Option String)) (type : Expr) (typeText : String) : Field :=
  { Names := names, Type_ := type, typeText := typeText, Doc := "", Comment := "" }

/-- The predeclared type `error`. -/
def errorType : GoType := .Named "" "error" (.Interface "Error() string")

/-- A declaration `func (s *Service) Version(uint64, string) error`: two parameters
without names, and an error as the only result. -/
def versionDecl : FuncDecl :=
  { Doc := "Version reports the version.\n"
    Recv := some [some (fieldOf [some "s"] (.StarExpr "Service") "")]
    Name := some "Version"
    Type_ :=
      { Params := some [some (fieldOf [] (.Ident "uint64") "uint64"),
                        some (fieldOf [] (.Ident "string") "string")]
        Results := some [some (fieldOf [] (.Ident "error") "error")] } }

/-- The callback of `versionDecl`. -/
def versionCb : callback :=
  { fn := ⟨"main.(*Service).Version", "service.go", 7⟩
    rcvr := "<*main.Service Value>"
    argTypes := [.Basic .uint64, .Basic .string]
    retTypes := [errorType]
    hasCtx := false
    isSubscribe := false }

/-- An environment whose source files all hold the declaration `versionDecl`. -/
def versionExternals : Externals :=
  externalsWith fun _ => .ok [.GenDecl, .FuncDecl versionDecl]

/-- A method with a name and nothing else. -/
def methodNamed (name : String) : Method :=
  { Name := name
    Summary := ""
    ExternalDocsDescription := ""
    ExternalDocsURL := ""
    Params := []
    Result := ContentDescriptor.zero
    ParamStructure := "by-position" }

/-- A description whose two methods are not in the order of their names. -/
def unsortedDescription : OpenRPCDescription :=
  ⟨{ NewOpenRPCDescription.Doc with Methods := [methodNamed "web3_sha3", methodNamed "eth_call"] }⟩

/-- A declaration `func (api *PrivateAdminAPI) Datadir() string`. -/
def datadirDecl : FuncDecl :=
  { Doc := "Datadir retrieves the current data directory the node is using.\n"
    Recv := some [some (fieldOf [some "api"] (.StarExpr "PrivateAdminAPI") "")]
    Name := some "Datadir"
    Type_ :=
      { Params := some []
        Results := some [some (fieldOf [] (.Ident "string") "string")] } }

/-- A declaration `func (api *PublicFilterAPI) LogsSubscribe() string`. -/
def logsSubscribeDecl : FuncDecl :=
  { datadirDecl with
    Doc := ""
    Recv := some [some (fieldOf [some "api"] (.StarExpr "PublicFilterAPI") "")]
    Name := some "LogsSubscribe" }

/-- A callback for a method without arguments that returns a string, declared in the
file and under the runtime name given. -/
def stringCb (rtName file rcvr : String) (isSubscribe : Bool) : callback :=
  { fn := ⟨rtName, file, 40⟩
    rcvr := rcvr
    argTypes := []
    retTypes := [.Basic .string]
    hasCtx := false
    isSubscribe := isSubscribe }

/-- An environment whose source files all hold `datadirDecl` and `logsSubscribeDecl`. -/
def adminExternals : Externals :=
  externalsWith fun _ => .ok [.FuncDecl logsSubscribeDecl, .FuncDecl datadirDecl]

/-- A service without retained description in which `admin_datadir` is met twice, with
two callbacks. -/
def adminService : RPCService :=
  { doc := none
    methods :=
      [ ("admin", [("datadir",
          stringCb "github.com/ethereum/go-ethereum/node.(*PrivateAdminAPI).Datadir"
            "node/api.go" "<*node.PrivateAdminAPI Value>" false)]),
        ("admin", [("datadir",
          stringCb "github.com/ethereum/go-ethereum/eth.(*PrivateAdminAPI).Datadir"
            "eth/api.go" "<*eth.PrivateAdminAPI Value>" false)]) ] }

/-- A service without retained description with a method flagged as a subscription, a
method whose qualified name ends in the suffix, and a plain method. -/
def filterService : RPCService :=
  { doc := none
    methods :=
      [ ("eth", [("logs",
          stringCb "github.com/ethereum/go-ethereum/eth/filters.(*PublicFilterAPI).LogsSubscribe"
            "eth/filters/api.go" "<*filters.PublicFilterAPI Value>" true),
         ("logs_subscribe",
          stringCb "github.com/ethereum/go-ethereum/eth/filters.(*PublicFilterAPI).LogsSubscribe"
            "eth/filters/api.go" "<*filters.PublicFilterAPI Value>" false)]),
        ("admin", [("datadir",
          stringCb "github.com/ethereum/go-ethereum/node.(*PrivateAdminAPI).Datadir"
            "node/api.go" "<*node.PrivateAdminAPI Value>" false)]) ] }

/-- The type text of `*big.Int`. -/
def bigIntTypeText : String :=
  "&\x7b%!s(token.Pos=61) %!s(*ast.SelectorExpr=&\x7bbig Int\x7d)\x7d"

/-- A parameter field of type `*big.Int` with the names given. -/
def bigIntField (names : List (Option String)) : Field :=
  fieldOf names (.StarExpr "&\x7bbig Int\x7d") bigIntTypeText

/-- A declaration `func (s *MathService) Add(<names> *big.Int) (*big.Int, error)`. -/
def addDecl (names : List String) : FuncDecl :=
  { Doc := "Add returns the sum.\n"
    Recv := some [some (fieldOf [some "s"] (.StarExpr "MathService") "")]
    Name := some "Add"
    Type_ :=
      { Params := some [some (bigIntField (names.map some))]
        Results := some [some (bigIntField []), some (fieldOf [] (.Ident "error") "error")] } }

/-- A callback with two arguments of type `*big.Int`, which returns a `*big.Int` and
an error. -/
def addCb : callback :=
  { fn := ⟨"main.(*MathService).Add", "math.go", 12⟩
    rcvr := "<*main.MathService Value>"
    argTypes := [.Ptr bigInt, .Ptr bigInt]
    retTypes := [.Ptr bigInt, errorType]
    hasCtx := false
    isSubscribe := false }

/-- A parameter `hash common.Hash`. -/
def hashFieldCommon : Field :=
  fieldOf [some "hash"] (.SelectorExpr "common" "Hash") "&\x7bcommon Hash\x7d"

/-- A parameter `hash ethcommon.Hash`, in a file that imports the package of the hash
type under the name `ethcommon`. -/
def hashFieldEthcommon : Field :=
  fieldOf [some "hash"] (.SelectorExpr "ethcommon" "Hash") "&\x7bethcommon Hash\x7d"

/-- The schema of the descriptors of a `*big.Int`: the integer override under the
description `makeContentDescriptor` gives it. -/
def bigIntSchema : Schema := integerD.setDescription "*math/big:Int"

/-- An environment with the separator `_` whose source files all hold the declaration
of `Add` with the parameters `a`, `b`; the library functions are the ones given. -/
def mathExternals (jsonMarshal : Schema → String) (sha1Sum : String → Fin 20 → Fin 256)
    (reflectStructural : GoType → Option Schema) : Externals :=
  { jsonMarshal := jsonMarshal
    sha1Sum := sha1Sum
    reflectStructural := reflectStructural
    ParseFile := fun _ => .ok [.GenDecl, .FuncDecl (addDecl ["a", "b"])]
    serviceMethodSeparator := "_"
    subscribeMethodSuffix := "_subscribe" }

/-- The registry with the one module `math` and its one method `add`. -/
def mathService : RPCService :=
  { doc := none, methods := [("math", [("add", addCb)])] }

/-- The method `makeMethod` builds for `add` under the name `math_add`. -/
def mathMethod : Method :=
  { Name := "math_add"
    Summary := "Add returns the sum.\n"
    ExternalDocsDescription := "main.(*MathService).Add"
    ExternalDocsURL := "file://math.go:12"
    Params := [⟨"a", "", "", bigIntSchema⟩, ⟨"b", "", "", bigIntSchema⟩]
    Result := ⟨"math_addResult", "", "", bigIntSchema⟩
    ParamStructure := "by-position" }

/-- The schema of the result descriptor `null`. -/
def nullSchema : Schema := (Schema.zero.setType ["null"]).setDescription "Null"

/-- A schema whose description ends, after its colon, in a token with a tab. -/
def tabSchema : Schema := Schema.zero.setDescription "note:see\tbelow"

/-- A declaration `func (s *Service) Watch(ch chan int) error`. -/
def watchDecl : FuncDecl :=
  { Doc := ""
    Recv := some [some (fieldOf [some "s"] (.StarExpr "Service") "")]
    Name := some "Watch"
    Type_ :=
      { Params := some [some (fieldOf [some "ch"] .Other
          "&\x7b%!s(token.Pos=40) %!s(token.Pos=0) %!s(ast.ChanDir=3) int\x7d")]
        Results := some [some (fieldOf [] (.Ident "error") "error")] } }

/-- The callback of `watchDecl`: its one argument is a channel. -/
def watchCb : callback :=
  { fn := ⟨"main.(*Service).Watch", "service.go", 21⟩
    rcvr := "<*main.Service Value>"
    argTypes := [.Chan (.Basic .int)]
    retTypes := [errorType]
    hasCtx := false
    isSubscribe := false }

/-- A declaration `func (s *Service) Pair() (uint64, uint32, error)`: two results
without names besides the error. -/
def pairDecl : FuncDecl :=
  { Doc := ""
    Recv := some [some (fieldOf [some "s"] (.StarExpr "Service") "")]
    Name := some "Pair"
    Type_ :=
      { Params := some []
        Results := some [some (fieldOf [] (.Ident "uint64") "uint64"),
                         some (fieldOf [] (.Ident "uint32") "uint32"),
                         some (fieldOf [] (.Ident "error") "error")] } }

/-- A declaration `func (s *Service) Pair() (result uint64, err error)`: one result,
declared under the name `result`, besides the error. -/
def namedResultDecl : FuncDecl :=
  { pairDecl with
    Type_ :=
      { Params := some []
        Results := some [some (fieldOf [some "result"] (.Ident "uint64") "uint64"),
                         some (fieldOf [some "err"] (.Ident "error") "error")] } }

/-- A callback without arguments that returns the types given. -/
def resultsCb (retTypes : List GoType) : callback :=
  { fn := ⟨"main.(*Service).Pair", "service.go", 30⟩
    rcvr := "<*main.Service Value>"
    argTypes := []
    retTypes := retTypes
    hasCtx := false
    isSubscribe := false }

/-- An environment in which the file `node/api.go` holds `datadirDecl` and no other file
can be parsed. -/
def nodeOnlyExternals : Externals :=
  externalsWith fun file =>
    if file == "node/api.go" then .ok [.FuncDecl datadirDecl]
    else .error "expected declaration"

/-- A service without retained description with two methods: the first can be
registered, the declaring file of the second cannot be parsed. -/
def halfService : RPCService :=
  { doc := none
    methods :=
      [ ("admin", [("datadir",
          stringCb "github.com/ethereum/go-ethereum/node.(*PrivateAdminAPI).Datadir"
            "node/api.go" "<*node.PrivateAdminAPI Value>" false),
         ("peers",
          stringCb "github.com/ethereum/go-ethereum/node.(*PrivateAdminAPI).Peers"
            "node/generated.go" "<*node.PrivateAdminAPI Value>" false)]) ] }

/-- A declaration `func Datadir() string`: a function without receiver. -/
def plainDatadirDecl : FuncDecl :=
  { datadirDecl with Doc := "Datadir of the package.\n", Recv := none }

/-- A declaration `func (api *API) Datadir() string`: the method of another type, whose
name ends the name `PrivateAdminAPI`. -/
def apiDatadirDecl : FuncDecl :=
  { datadirDecl with
    Doc := "Datadir of the other type.\n"
    Recv := some [some (fieldOf [some "api"] (.StarExpr "API") "")] }

/-- The callback of the method `Datadir` of `*node.PrivateAdminAPI`. -/
def datadirCb : callback :=
  stringCb "github.com/ethereum/go-ethereum/node.(*PrivateAdminAPI).Datadir"
    "node/api.go" "<*node.PrivateAdminAPI Value>" false

/-- A declaration `func (s *Service) Get(ctx context.Context, info mycontext.Info,
id string) error`: besides the leading context argument it declares a parameter whose
type is taken from a package named `mycontext`. -/
def contextInfoDecl : FuncDecl :=
  { Doc := ""
    Recv := some [some (fieldOf [some "s"] (.StarExpr "Service") "")]
    Name := some "Get"
    Type_ :=
      { Params := some
          [ some (fieldOf [some "ctx"] (.SelectorExpr "context" "Context")
              "&\x7bcontext Context\x7d"),
            some (fieldOf [some "info"] (.SelectorExpr "mycontext" "Info")
              "&\x7bmycontext Info\x7d"),
            some (fieldOf [some "id"] (.Ident "string") "string") ]
        Results := some [some (fieldOf [] (.Ident "error") "error")] } }

/-- The callback of `contextInfoDecl`: it is marked `hasCtx`, and its argument types are
the types of `info` and `id`. -/
def contextInfoCb : callback :=
  { fn := ⟨"main.(*Service).Get", "service.go", 52⟩
    rcvr := "<*main.Service Value>"
    argTypes := [.Named "example.com/mycontext" "Info" (.Struct "ID string"), .Basic .string]
    retTypes := [errorType]
    hasCtx := true
    isSubscribe := false }

/-- A registry with the method `datadir` in the modules `eth` and `admin`, enumerated
in that order. -/
def ethFirstRegistry : List (String × List (String × callback)) :=
  [ ("eth", [("datadir",
      stringCb "github.com/ethereum/go-ethereum/eth.(*PrivateAdminAPI).Datadir"
        "eth/api.go" "<*eth.PrivateAdminAPI Value>" false)]),
    ("admin", [("datadir", datadirCb)]) ]

/-- The registry `ethFirstRegistry`, enumerated in the other order. -/
def adminFirstRegistry : List (String × List (String × callback)) :=
  [ ("admin", [("datadir", datadirCb)]),
    ("eth", [("datadir",
      stringCb "github.com/ethereum/go-ethereum/eth.(*PrivateAdminAPI).Datadir"
        "eth/api.go" "<*eth.PrivateAdminAPI Value>" false)]) ]

/-- A declaration `func (s *Service) Ping() Err`, in a package that declares
`type Err = error`: the one result is of the error type, written `Err`. -/
def pingDecl : FuncDecl :=
  { pairDecl with
    Name := some "Ping"
    Type_ :=
      { Params := some []
        Results := some [some (fieldOf [] (.Ident "Err") "Err")] } }

/-- A declaration `func (s *Service) Errors() chan error`: the one result is a channel,
and its type text contains `error`. -/
def chanErrorDecl : FuncDecl :=
  { pairDecl with
    Name := some "Errors"
    Type_ :=
      { Params := some []
        Results := some [some (fieldOf [] .Other
          "&\x7b%!s(token.Pos=36) %!s(token.Pos=0) %!s(ast.ChanDir=3) error\x7d")] } }

/-! # Theorems -/

/-! ## Lemmas: the traversals of `Clean` -/

mutual
theorem Traverse_removeDefinitions (st : CleanState) :
    ∀ s : Schema, Traverse removeDefinitions s st = (stripDefinitions s, st, none)
  | .mk t ty p d e props items oneOf defs r => by
    simp only [Traverse, TraverseList_removeDefinitions st oneOf,
      TraverseProps_removeDefinitions st props, TraverseList_removeDefinitions st items,
      removeDefinitions, Schema.setDefinitions, stripDefinitions]
theorem TraverseList_removeDefinitions (st : CleanState) :
    ∀ l : List Schema, TraverseList removeDefinitions l st = (stripDefinitionsList l, st, none)
  | [] => by simp [TraverseList, stripDefinitionsList]
  | s :: rest => by
    simp only [TraverseList, Traverse_removeDefinitions st s,
      TraverseList_removeDefinitions st rest, stripDefinitionsList]
theorem TraverseProps_removeDefinitions (st : CleanState) :
    ∀ l : List (String × Schema),
      TraverseProps removeDefinitions l st = (stripDefinitionsProps l, st, none)
  | [] => by simp [TraverseProps, stripDefinitionsProps]
  | (k, s) :: rest => by
    simp only [TraverseProps, Traverse_removeDefinitions st s,
      TraverseProps_removeDefinitions st rest, stripDefinitionsProps]
end

/-- The closure `referencer` never fails: the schema it asks a reference for is the
one it has just registered. -/
theorem referencer_eq (E : Externals) (sch : Schema) (a : AnalysisT)
    (tbl : List (String × Schema)) :
    referencer E sch (a, tbl) =
      (refSchema (uniqueKeyFn E sch),
        (⟨titleOf E (uniqueKeyFn E sch, sch) :: a.schemaTitles⟩, (uniqueKeyFn E sch, sch) :: tbl),
        none) := by
  simp [referencer, registerSchema, AnalysisT.RegisterSchema, AnalysisT.SchemaAsReferenceSchema,
    List.lookup, titleOf]

mutual
theorem Traverse_referencer (E : Externals) :
    ∀ (s : Schema) (a : AnalysisT) (tbl : List (String × Schema)),
      Traverse (referencer E) s (a, tbl) =
        (referenced E s,
          (⟨(tableEntries E s).map (titleOf E) ++ a.schemaTitles⟩, tableEntries E s ++ tbl), none)
  | .mk t ty p d e props items oneOf defs r, a, tbl => by
    simp only [Traverse, TraverseList_referencer E oneOf, TraverseProps_referencer E props,
      TraverseList_referencer E items, referencer_eq, referenced, tableEntries,
      List.map_cons, List.map_append, List.cons_append, List.append_assoc]
theorem TraverseList_referencer (E : Externals) :
    ∀ (l : List Schema) (a : AnalysisT) (tbl : List (String × Schema)),
      TraverseList (referencer E) l (a, tbl) =
        (referencedList E l,
          (⟨(tableEntriesList E l).map (titleOf E) ++ a.schemaTitles⟩,
            tableEntriesList E l ++ tbl), none)
  | [], a, tbl => by simp [TraverseList, referencedList, tableEntriesList]
  | s :: rest, a, tbl => by
    simp only [TraverseList, Traverse_referencer E s, TraverseList_referencer E rest,
      referencedList, tableEntriesList, List.map_append, List.append_assoc]
theorem TraverseProps_referencer (E : Externals) :
    ∀ (l : List (String × Schema)) (a : AnalysisT) (tbl : List (String × Schema)),
      TraverseProps (referencer E) l (a, tbl) =
        (referencedProps E l,
          (⟨(tableEntriesProps E l).map (titleOf E) ++ a.schemaTitles⟩,
            tableEntriesProps E l ++ tbl), none)
  | [], a, tbl => by simp [TraverseProps, referencedProps, tableEntriesProps]
  | (k, s) :: rest, a, tbl => by
    simp only [TraverseProps, Traverse_referencer E s, TraverseProps_referencer E rest,
      referencedProps, tableEntriesProps, List.map_append, List.append_assoc]
end

theorem cleanSchema_eq (E : Externals) (sch : Schema) (a : AnalysisT)
    (tbl : List (String × Schema)) :
    cleanSchema E sch (a, tbl) =
      (cleaned E sch,
        (⟨(tableEntries E (stripDefinitions sch)).map (titleOf E) ++ a.schemaTitles⟩,
          tableEntries E (stripDefinitions sch) ++ tbl)) := by
  simp only [cleanSchema, Traverse_removeDefinitions, Traverse_referencer, cleaned]

theorem cleanParams_eq (E : Externals) :
    ∀ (ps : List ContentDescriptor) (a : AnalysisT) (tbl : List (String × Schema)),
      cleanParams E ps (a, tbl) =
        (ps.map (cleanedDescriptor E),
          (⟨(descriptorEntries E ps).map (titleOf E) ++ a.schemaTitles⟩,
            descriptorEntries E ps ++ tbl))
  | [], a, tbl => by simp [cleanParams, descriptorEntries]
  | p :: rest, a, tbl => by
    simp only [cleanParams, cleanSchema_eq, cleanParams_eq E rest, descriptorEntries,
      List.map_cons, List.map_append, List.append_assoc, cleanedDescriptor]

theorem descriptorEntries_append (E : Externals) (xs ys : List ContentDescriptor) :
    descriptorEntries E (xs ++ ys) = descriptorEntries E ys ++ descriptorEntries E xs := by
  induction xs with
  | nil => simp [descriptorEntries]
  | cons x xs ih => simp [descriptorEntries, ih, List.append_assoc]

theorem cleanMethods_eq (E : Externals) :
    ∀ (ms : List Method) (a : AnalysisT) (tbl : List (String × Schema)),
      cleanMethods E ms (a, tbl) =
        (ms.map (cleanedMethod E),
          (⟨(methodEntries E ms).map (titleOf E) ++ a.schemaTitles⟩, methodEntries E ms ++ tbl))
  | [], a, tbl => by simp [cleanMethods, methodEntries]
  | m :: rest, a, tbl => by
    simp only [cleanMethods, cleanParams_eq, cleanSchema_eq, cleanMethods_eq E rest,
      methodEntries, Method.descriptors, descriptorEntries_append, descriptorEntries,
      List.map_cons, List.map_append, List.append_assoc, cleanedMethod, cleanedDescriptor,
      List.nil_append]

/-- The function `Clean` in closed form. -/
theorem Clean_eq (E : Externals) (doc : OpenRPCSpec1) :
    Clean E doc =
      ({ doc with Methods := doc.Methods.map (cleanedMethod E),
                  Schemas := methodEntries E doc.Methods }, none) := by
  simp only [Clean, NewAnalysisT, cleanMethods_eq, List.append_nil]

/-! ## Lemmas: a second run of `Clean` -/

theorem cleaned_is_reference (E : Externals) (sch : Schema) :
    ∃ key, cleaned E sch = refSchema key := by
  cases sch
  exact ⟨_, rfl⟩

theorem tableEntries_refSchema (E : Externals) (key : String) :
    tableEntries E (stripDefinitions (refSchema key)) =
      [(uniqueKeyFn E (refSchema key), refSchema key)] := by
  simp [refSchema, stripDefinitions, stripDefinitionsProps, stripDefinitionsList,
    tableEntries, tableEntriesProps, tableEntriesList, referencedProps, referencedList]

theorem refSchema_isReference (key : String) : (refSchema key).isReference = true := by
  have h : ("#/components/schemas/" ++ key) ≠ "" := by
    intro h
    have := congrArg String.length h
    rw [String.length_append] at this
    have h0 : "#/components/schemas/".length = 21 := by decide
    have h1 : "".length = 0 := by decide
    omega
  simp [refSchema, Schema.isReference, h]

/-- A traversal that passes over pure references leaves a pure reference as it is. -/
theorem Traverse_reference (onNode : Schema → CleanState → Schema × CleanState × Option Err)
    (sch : Schema) (st : CleanState) (h : sch.isReference = true) :
    Traverse (unlessReference onNode) sch st = (sch, st, none) := by
  obtain ⟨t, ty, p, d, e, props, items, oneOf, defs, r⟩ := sch
  simp only [Schema.isReference, Bool.and_eq_true, List.isEmpty_iff] at h
  obtain ⟨⟨⟨⟨⟨⟨⟨⟨⟨ht, hty⟩, hp⟩, hd⟩, he⟩, hprops⟩, hitems⟩, honeOf⟩, hdefs⟩, hr⟩ := h
  subst hprops hitems honeOf
  simp only [Traverse, TraverseList, TraverseProps, unlessReference, Schema.isReference, ht, hty,
    hp, hd, he, hdefs, hr, List.isEmpty_nil, Bool.and_self, if_true]

mutual
theorem Traverse_referencer_skipping (E : Externals) :
    ∀ (s : Schema) (st : CleanState),
      ∃ x st1, Traverse (unlessReference (referencer E)) s st = (x, st1, none) ∧
        x.isReference = true
  | .mk t ty p d e props items oneOf defs r, st => by
    obtain ⟨o1, st1, h1⟩ := TraverseList_referencer_skipping E oneOf st
    obtain ⟨p2, st2, h2⟩ := TraverseProps_referencer_skipping E props st1
    obtain ⟨i3, st3, h3⟩ := TraverseList_referencer_skipping E items st2
    simp only [Traverse, h1, h2, h3, unlessReference]
    split
    · rename_i href
      exact ⟨_, _, rfl, href⟩
    · obtain ⟨a, tbl⟩ := st3
      rw [referencer_eq]
      exact ⟨_, _, rfl, refSchema_isReference _⟩
theorem TraverseList_referencer_skipping (E : Externals) :
    ∀ (l : List Schema) (st : CleanState),
      ∃ l1 st1, TraverseList (unlessReference (referencer E)) l st = (l1, st1, none)
  | [], st => ⟨[], st, rfl⟩
  | s :: rest, st => by
    obtain ⟨x, st1, h1, _⟩ := Traverse_referencer_skipping E s st
    obtain ⟨l2, st2, h2⟩ := TraverseList_referencer_skipping E rest st1
    simp only [TraverseList, h1, h2]
    exact ⟨_, _, rfl⟩
theorem TraverseProps_referencer_skipping (E : Externals) :
    ∀ (l : List (String × Schema)) (st : CleanState),
      ∃ l1 st1, TraverseProps (unlessReference (referencer E)) l st = (l1, st1, none)
  | [], st => ⟨[], st, rfl⟩
  | (k, s) :: rest, st => by
    obtain ⟨x, st1, h1, _⟩ := Traverse_referencer_skipping E s st
    obtain ⟨l2, st2, h2⟩ := TraverseProps_referencer_skipping E rest st1
    simp only [TraverseProps, h1, h2]
    exact ⟨_, _, rfl⟩
end

theorem cleanSchemaSkipping_isReference (E : Externals) (sch : Schema) (st : CleanState) :
    (cleanSchemaSkipping E sch st).1.isReference = true := by
  unfold cleanSchemaSkipping
  obtain ⟨x, st1, h1, hx⟩ := Traverse_referencer_skipping E
    (Traverse (unlessReference removeDefinitions) sch st).1
    (Traverse (unlessReference removeDefinitions) sch st).2.1
  simp only [h1]
  exact hx

theorem cleanSchemaSkipping_reference (E : Externals) (sch : Schema) (st : CleanState)
    (h : sch.isReference = true) : cleanSchemaSkipping E sch st = (sch, st) := by
  simp only [cleanSchemaSkipping, Traverse_reference _ sch st h]

theorem cleanParamsSkipping_isReference (E : Externals) :
    ∀ (ps : List ContentDescriptor) (st : CleanState),
      ∀ cd ∈ (cleanParamsSkipping E ps st).1, cd.Schema.isReference = true
  | [], _ => by simp [cleanParamsSkipping]
  | p :: rest, st => by
    intro cd hcd
    simp only [cleanParamsSkipping, List.mem_cons] at hcd
    rcases hcd with rfl | hcd
    · exact cleanSchemaSkipping_isReference E p.Schema st
    · exact cleanParamsSkipping_isReference E rest _ cd hcd

theorem cleanParamsSkipping_reference (E : Externals) :
    ∀ (ps : List ContentDescriptor) (st : CleanState),
      (∀ cd ∈ ps, cd.Schema.isReference = true) → cleanParamsSkipping E ps st = (ps, st)
  | [], _, _ => rfl
  | p :: rest, st, h => by
    simp only [cleanParamsSkipping,
      cleanSchemaSkipping_reference E p.Schema st (h p (List.mem_cons_self _ _)),
      cleanParamsSkipping_reference E rest st (fun cd hcd => h cd (List.mem_cons_of_mem _ hcd))]

theorem cleanMethodsSkipping_allReferences (E : Externals) :
    ∀ (ms : List Method) (st : CleanState), allReferences (cleanMethodsSkipping E ms st).1
  | [], _ => by simp [cleanMethodsSkipping, allReferences]
  | m :: rest, st => by
    intro m1 hm1 cd hcd
    simp only [cleanMethodsSkipping, List.mem_cons] at hm1
    rcases hm1 with rfl | hm1
    · simp only [Method.descriptors, List.mem_append, List.mem_singleton] at hcd
      rcases hcd with hcd | rfl
      · exact cleanParamsSkipping_isReference E m.Params st cd hcd
      · exact cleanSchemaSkipping_isReference E _ _
    · exact cleanMethodsSkipping_allReferences E rest _ m1 hm1 cd hcd

theorem cleanMethodsSkipping_reference (E : Externals) :
    ∀ (ms : List Method) (st : CleanState),
      allReferences ms → cleanMethodsSkipping E ms st = (ms, st)
  | [], _, _ => rfl
  | m :: rest, st, h => by
    have hp : ∀ cd ∈ m.Params, cd.Schema.isReference = true := fun cd hcd =>
      h m (List.mem_cons_self _ _) cd (by simp [Method.descriptors, hcd])
    have hr : m.Result.Schema.isReference = true :=
      h m (List.mem_cons_self _ _) m.Result (by simp [Method.descriptors])
    simp only [cleanMethodsSkipping, cleanParamsSkipping_reference E m.Params st hp,
      cleanSchemaSkipping_reference E m.Result.Schema st hr,
      cleanMethodsSkipping_reference E rest st
        (fun m1 hm1 => h m1 (List.mem_cons_of_mem _ hm1))]

theorem CleanSkipping_allReferences (E : Externals) (doc : OpenRPCSpec1) :
    allReferences (CleanSkipping E doc).1.Methods := by
  simp only [CleanSkipping]
  exact cleanMethodsSkipping_allReferences E doc.Methods _

theorem CleanSkipping_reference (E : Externals) (doc : OpenRPCSpec1)
    (h : allReferences doc.Methods) :
    CleanSkipping E doc = ({ doc with Schemas := [] }, none) := by
  simp only [CleanSkipping, cleanMethodsSkipping_reference E doc.Methods _ h]

theorem Clean_allReferences (E : Externals) (doc : OpenRPCSpec1) :
    allReferences (Clean E doc).1.Methods := by
  intro m hm cd hcd
  simp only [Clean_eq, List.mem_map] at hm
  obtain ⟨m0, _, rfl⟩ := hm
  simp only [cleanedMethod, Method.descriptors, List.mem_append, List.mem_map,
    List.mem_singleton] at hcd
  rcases hcd with ⟨cd0, _, rfl⟩ | rfl
  · obtain ⟨key, hkey⟩ := cleaned_is_reference E cd0.Schema
    simp only [cleanedDescriptor, hkey, refSchema_isReference]
  · obtain ⟨key, hkey⟩ := cleaned_is_reference E m0.Result.Schema
    simp only [cleanedDescriptor, hkey, refSchema_isReference]

theorem tableEntries_reference (E : Externals) (sch : Schema) (h : sch.isReference = true) :
    tableEntries E (stripDefinitions sch) = [(uniqueKeyFn E sch, sch)] := by
  obtain ⟨t, ty, p, d, e, props, items, oneOf, defs, r⟩ := sch
  simp only [Schema.isReference, Bool.and_eq_true, List.isEmpty_iff] at h
  obtain ⟨⟨⟨⟨⟨⟨⟨⟨⟨_, _⟩, _⟩, _⟩, _⟩, hprops⟩, hitems⟩, honeOf⟩, hdefs⟩, _⟩ := h
  subst hprops hitems honeOf hdefs
  simp [stripDefinitions, stripDefinitionsProps, stripDefinitionsList,
    tableEntries, tableEntriesProps, tableEntriesList, referencedProps, referencedList]

theorem descriptorEntries_references (E : Externals) :
    ∀ cds : List ContentDescriptor, (∀ cd ∈ cds, cd.Schema.isReference = true) →
      ∀ kv ∈ descriptorEntries E cds, kv.2.isReference = true
  | [], _ => by simp [descriptorEntries]
  | cd :: rest, h => by
    intro kv hkv
    simp only [descriptorEntries, List.mem_append,
      tableEntries_reference E cd.Schema (h cd (List.mem_cons_self _ _)),
      List.mem_singleton] at hkv
    rcases hkv with hkv | rfl
    · exact descriptorEntries_references E rest
        (fun cd hcd => h cd (List.mem_cons_of_mem _ hcd)) kv hkv
    · exact h cd (List.mem_cons_self _ _)

/-- The table a run of `Clean` on methods whose schemas are pure references builds
binds pure references only. -/
theorem methodEntries_references (E : Externals) :
    ∀ ms : List Method, allReferences ms →
      ∀ kv ∈ methodEntries E ms, kv.2.isReference = true
  | [], _ => by simp [methodEntries]
  | m :: rest, h => by
    intro kv hkv
    simp only [methodEntries, List.mem_append] at hkv
    rcases hkv with hkv | hkv
    · exact methodEntries_references E rest
        (fun m1 hm1 => h m1 (List.mem_cons_of_mem _ hm1)) kv hkv
    · exact descriptorEntries_references E m.descriptors (h m (List.mem_cons_self _ _)) kv hkv

theorem mem_of_lookup {α β : Type} [BEq α] [LawfulBEq α] (k : α) (v : β) :
    ∀ l : List (α × β), l.lookup k = some v → (k, v) ∈ l
  | [], h => by simp at h
  | (a, b) :: rest, h => by
    simp only [List.lookup_cons] at h
    split at h
    · rename_i heq
      have hk : k = a := by simpa using heq
      simp only [Option.some.injEq] at h
      subst hk h
      exact List.mem_cons_self _ _
    · exact List.mem_cons_of_mem _ (mem_of_lookup k v rest h)

/-! ## Lemmas: `makeContentDescriptor` and the loops of `makeMethod` -/

theorem makeContentDescriptor_name (E : Externals) (ty : GoType) (field : Field)
    (ident : argIdent) (cd : ContentDescriptor)
    (h : makeContentDescriptor E ty field ident = some (cd, none)) : cd.Name = ident.Name := by
  unfold makeContentDescriptor at h
  split at h
  · simp at h
  · split at h
    · simp at h
    · split at h
      · simp at h
      · simp only [Option.some.injEq, Prod.mk.injEq, and_true] at h
        rw [← h]

theorem paramFields_unnamed (E : Externals) (name : String) (cb : callback) :
    ∀ (fields : List (Option Field)) (j : Nat) (ps : List ContentDescriptor) (j' : Nat)
      (ps' : List ContentDescriptor) (err : Option Err),
      (∀ fd, some fd ∈ fields → fd.Names = []) →
      paramFields E name cb fields j ps = some (j', ps', err) →
      ∃ new, ps' = ps ++ new ∧ j' = j + new.length ∧
        (∀ i cd, new[i]? = some cd →
          ∃ fd ty, (declaredParams cb fields)[i]? = some fd ∧ cb.argTypes[j + i]? = some ty ∧
            makeContentDescriptor E ty fd ⟨none, name ++ "Parameter" ++ toString (j + i)⟩ =
              some (cd, none)) ∧
        (err = none → new.length = (declaredParams cb fields).length)
  | [], j, ps, j', ps', err, _, h => by
    simp only [paramFields, Option.some.injEq, Prod.mk.injEq] at h
    obtain ⟨rfl, rfl, rfl⟩ := h
    exact ⟨[], by simp, by simp, by simp, by simp [declaredParams]⟩
  | none :: rest, j, ps, j', ps', err, hU, h => by
    simp only [paramFields] at h
    obtain ⟨new, h1, h2, h3, h4⟩ := paramFields_unnamed E name cb rest j ps j' ps' err
      (fun fd hfd => hU fd (List.mem_cons_of_mem _ hfd)) h
    exact ⟨new, h1, h2, by simpa [declaredParams] using h3, by simpa [declaredParams] using h4⟩
  | some field :: rest, j, ps, j', ps', err, hU, h => by
    have hN : field.Names = [] := hU field (List.mem_cons_self _ _)
    have hrest : ∀ fd, some fd ∈ rest → fd.Names = [] :=
      fun fd hfd => hU fd (List.mem_cons_of_mem _ hfd)
    simp only [paramFields, hN, List.length_nil, gt_iff_lt, lt_self_iff_false, if_false] at h
    by_cases hc : isContextField cb field = true
    · have hc' : (cb.hasCtx && strContains field.typeText "context") = true := hc
      simp only [hc', if_true] at h
      obtain ⟨new, h1, h2, h3, h4⟩ := paramFields_unnamed E name cb rest j ps j' ps' err hrest h
      exact ⟨new, h1, h2, by simpa [declaredParams, hc] using h3,
        by simpa [declaredParams, hc] using h4⟩
    · have hc' : ¬ (cb.hasCtx && strContains field.typeText "context") = true := hc
      simp only [hc', if_false] at h
      cases hty : cb.argTypes[j]? with
      | none => simp [hty] at h
      | some ty =>
        simp only [hty] at h
        cases hcd : makeContentDescriptor E ty field ⟨none, name ++ "Parameter" ++ toString j⟩ with
        | none => simp [hcd] at h
        | some r =>
          obtain ⟨cd, e⟩ := r
          cases e with
          | some e0 =>
            simp only [hcd, Option.some.injEq, Prod.mk.injEq] at h
            obtain ⟨rfl, rfl, rfl⟩ := h
            exact ⟨[], by simp, by simp, by simp, by simp⟩
          | none =>
            simp only [hcd] at h
            obtain ⟨new, h1, h2, h3, h4⟩ :=
              paramFields_unnamed E name cb rest (j + 1) (ps ++ [cd]) j' ps' err hrest h
            refine ⟨cd :: new, by simp [h1], by simp [h2]; omega, ?_, ?_⟩
            · intro i cd' hi
              cases i with
              | zero =>
                simp only [List.getElem?_cons_zero, Option.some.injEq] at hi
                subst hi
                exact ⟨field, ty, by simp [declaredParams, hc], by simpa using hty,
                  by simpa using hcd⟩
              | succ i =>
                simp only [List.getElem?_cons_succ] at hi
                obtain ⟨fd, ty', g1, g2, g3⟩ := h3 i cd' hi
                refine ⟨fd, ty', by simp [declaredParams, hc, g1], ?_, ?_⟩
                · rw [← g2]; congr 1; omega
                · rw [← g3]; congr 4; omega
            · intro he
              simp [declaredParams, hc, h4 he]

theorem paramFields_unnamed_total (E : Externals) (name : String) (cb : callback) :
    ∀ (fields : List (Option Field)) (j : Nat) (ps : List ContentDescriptor),
      (∀ fd, some fd ∈ fields → fd.Names = []) →
      (∀ i fd, (declaredParams cb fields)[i]? = some fd →
        ∃ ty cd, cb.argTypes[j + i]? = some ty ∧
          makeContentDescriptor E ty fd ⟨none, name ++ "Parameter" ++ toString (j + i)⟩ =
            some (cd, none)) →
      ∃ ps', paramFields E name cb fields j ps =
        some (j + (declaredParams cb fields).length, ps', none)
  | [], j, ps, _, _ => ⟨ps, by simp [paramFields, declaredParams]⟩
  | none :: rest, j, ps, hU, hA => by
    obtain ⟨ps', h⟩ := paramFields_unnamed_total E name cb rest j ps
      (fun fd hfd => hU fd (List.mem_cons_of_mem _ hfd)) (by simpa [declaredParams] using hA)
    exact ⟨ps', by simpa [paramFields, declaredParams] using h⟩
  | some field :: rest, j, ps, hU, hA => by
    have hN : field.Names = [] := hU field (List.mem_cons_self _ _)
    have hrest : ∀ fd, some fd ∈ rest → fd.Names = [] :=
      fun fd hfd => hU fd (List.mem_cons_of_mem _ hfd)
    by_cases hc : isContextField cb field = true
    · have hc' : (cb.hasCtx && strContains field.typeText "context") = true := hc
      obtain ⟨ps', h⟩ := paramFields_unnamed_total E name cb rest j ps hrest
        (by simpa [declaredParams, hc] using hA)
      exact ⟨ps', by simpa [paramFields, declaredParams, hc, hc'] using h⟩
    · have hc' : ¬ (cb.hasCtx && strContains field.typeText "context") = true := hc
      obtain ⟨ty, cd, hty, hcd⟩ := hA 0 field (by simp [declaredParams, hc])
      simp only [Nat.add_zero] at hty hcd
      obtain ⟨ps', h⟩ := paramFields_unnamed_total E name cb rest (j + 1) (ps ++ [cd]) hrest
        (by
          intro i fd hi
          obtain ⟨ty', cd', g1, g2⟩ := hA (i + 1) fd (by simpa [declaredParams, hc] using hi)
          refine ⟨ty', cd', ?_, ?_⟩
          · rw [← g1]; congr 1; omega
          · rw [← g2]; congr 4; omega)
      refine ⟨ps', ?_⟩
      simp only [paramFields, hN, List.length_nil, gt_iff_lt, lt_self_iff_false, if_false,
        hc', hty, hcd, h, declaredParams, hc, Bool.false_eq_true, List.length_cons]
      have hlen : j + 1 + (declaredParams cb rest).length =
          j + ((declaredParams cb rest).length + 1) := by omega
      rw [hlen]

theorem resultFields_error_only (E : Externals) (name : String) (cb : callback) :
    ∀ (fields : List (Option Field)) (j : Nat) (res : ContentDescriptor),
      (∀ fd, some fd ∈ fields → strContains fd.typeText "error" = true) →
      resultFields E name cb fields j res = some (j, res, none)
  | [], j, res, _ => by simp [resultFields]
  | none :: rest, j, res, h => by
    simp only [resultFields]
    exact resultFields_error_only E name cb rest j res
      (fun fd hfd => h fd (List.mem_cons_of_mem _ hfd))
  | some field :: rest, j, res, h => by
    simp only [resultFields, h field (List.mem_cons_self _ _), if_true]
    exact resultFields_error_only E name cb rest j res
      (fun fd hfd => h fd (List.mem_cons_of_mem _ hfd))

theorem deferredNullResult_Params (m : Method) :
    (deferredNullResult m).Params = m.Params := by
  unfold deferredNullResult
  split <;> rfl

theorem deferredNullResult_Name (m : Method) : (deferredNullResult m).Name = m.Name := by
  unfold deferredNullResult
  split <;> rfl

/-- What a run of `makeMethod` that returns has done: the parameter block ended with
the list `m.Params`, and either with the error returned, or without error and the result
block ended with the error returned. -/
theorem makeMethod_returns (E : Externals) (name : String) (cb : callback) (rt : runtimeFunc)
    (fn : FuncDecl) (m : Method) (err : Option Err)
    (h : makeMethod E name cb rt fn = some (m, err)) :
    m.Name = name ∧
    ∃ j e, makeMethodParams E name cb fn = some (j, m.Params, e) ∧
      ((e.isSome ∧ err = e ∧ m = deferredNullResult { newMethod name rt fn with Params := m.Params })
        ∨ (e = none ∧ ∃ j2 res, makeMethodResults E name cb fn = some (j2, res, err) ∧
            m = deferredNullResult
              { newMethod name rt fn with Params := m.Params, Result := res })) := by
  unfold makeMethod at h
  cases hp : makeMethodParams E name cb fn with
  | none => simp [hp] at h
  | some r =>
    obtain ⟨j, ps, e⟩ := r
    cases e with
    | some e0 =>
      simp only [hp, Option.some.injEq, Prod.mk.injEq] at h
      obtain ⟨rfl, rfl⟩ := h
      refine ⟨by simp [deferredNullResult_Name, newMethod], j, some e0, ?_, ?_⟩
      · simp [deferredNullResult_Params]
      · left
        simp [deferredNullResult_Params]
    | none =>
      simp only [hp] at h
      cases hr : makeMethodResults E name cb fn with
      | none => simp [hr] at h
      | some r2 =>
        obtain ⟨j2, res, e2⟩ := r2
        have hm : m = deferredNullResult
            { newMethod name rt fn with Params := ps, Result := res } ∧ err = e2 := by
          cases e2 with
          | some e0 =>
            simp only [hr, Option.some.injEq, Prod.mk.injEq] at h
            exact ⟨h.1.symm, h.2.symm⟩
          | none =>
            simp only [hr, Option.some.injEq, Prod.mk.injEq] at h
            exact ⟨h.1.symm, h.2.symm⟩
        obtain ⟨rfl, rfl⟩ := hm
        refine ⟨by simp [deferredNullResult_Name, newMethod], j, none, ?_, ?_⟩
        · simp [deferredNullResult_Params]
        · right
          exact ⟨rfl, j2, res, rfl, by simp [deferredNullResult_Params]⟩

/-! ## Lemmas: `sort.Slice` and `RegisterMethod` -/

theorem nameLess_iff (a b : Method) : nameLess a b = true ↔ a.Name < b.Name := by
  simp [nameLess, String.lt_iff_toList_lt]

theorem insertByName_perm (x : Method) : ∀ l : List Method, List.Perm (insertByName x l) (x :: l)
  | [] => List.Perm.refl _
  | y :: ys => by
    unfold insertByName
    split
    · exact ((insertByName_perm x ys).cons y).trans (List.Perm.swap x y ys)
    · exact List.Perm.refl _

theorem insertByName_sorted (x : Method) :
    ∀ l : List Method, List.Sorted (fun a b : Method => a.Name ≤ b.Name) l →
      List.Sorted (fun a b : Method => a.Name ≤ b.Name) (insertByName x l)
  | [], _ => by simp [insertByName]
  | y :: ys, h => by
    unfold insertByName
    have hy := List.rel_of_sorted_cons h
    have hys := List.Sorted.of_cons h
    split
    · rename_i hlt
      rw [nameLess_iff] at hlt
      apply List.Pairwise.cons
      · intro z hz
        rcases List.mem_cons.1 ((insertByName_perm x ys).mem_iff.1 hz) with rfl | hz
        · exact le_of_lt hlt
        · exact hy z hz
      · exact insertByName_sorted x ys hys
    · rename_i hlt
      rw [nameLess_iff, not_lt] at hlt
      apply List.Pairwise.cons
      · intro z hz
        rcases List.mem_cons.1 hz with rfl | hz
        · exact hlt
        · exact le_trans hlt (hy z hz)
      · exact h

theorem sortSlice_perm : ∀ l : List Method, List.Perm (sortSlice l) l
  | [] => List.Perm.refl _
  | x :: xs => (insertByName_perm x (sortSlice xs)).trans ((sortSlice_perm xs).cons x)

theorem sortSlice_sorted :
    ∀ l : List Method, List.Sorted (fun a b : Method => a.Name ≤ b.Name) (sortSlice l)
  | [] => List.sorted_nil
  | x :: xs => insertByName_sorted x (sortSlice xs) (sortSlice_sorted xs)

/-- What a call of `RegisterMethod` that returns without error has done. -/
theorem RegisterMethod_ok (E : Externals) (d d' : OpenRPCDescription) (name : String)
    (cb : callback) (h : RegisterMethod E d name cb = some (d', none)) :
    ∃ astFile fn method, E.ParseFile cb.fn.File = .ok astFile ∧
      getAstFunc cb astFile cb.fn = some (some fn) ∧
      makeMethod E name cb cb.fn fn = some (method, none) ∧
      d' = { d with Doc := { d.Doc with Methods := sortSlice (d.Doc.Methods ++ [method]) } } := by
  unfold RegisterMethod at h
  cases hpf : E.ParseFile cb.fn.File with
  | error e => simp [hpf] at h
  | ok astFile =>
    simp only [hpf] at h
    cases hg : getAstFunc cb astFile cb.fn with
    | none => simp [hg] at h
    | some r =>
      cases r with
      | none => simp [hg] at h
      | some fn =>
        simp only [hg] at h
        cases hm : makeMethod E name cb cb.fn fn with
        | none => simp [hm] at h
        | some r2 =>
          obtain ⟨method, e⟩ := r2
          cases e with
          | some e0 => simp [hm] at h
          | none =>
            simp only [hm, Option.some.injEq, Prod.mk.injEq, and_true] at h
            exact ⟨astFile, fn, method, rfl, hg, hm, h.symm⟩

/-- A call of `RegisterMethod` that returns an error leaves the description as it was. -/
theorem RegisterMethod_error (E : Externals) (d d' : OpenRPCDescription) (name : String)
    (cb : callback) (err : Err) (h : RegisterMethod E d name cb = some (d', some err)) :
    d' = d := by
  unfold RegisterMethod at h
  cases hpf : E.ParseFile cb.fn.File with
  | error e =>
    simp only [hpf, Option.some.injEq, Prod.mk.injEq] at h
    exact h.1.symm
  | ok astFile =>
    simp only [hpf] at h
    cases hg : getAstFunc cb astFile cb.fn with
    | none => simp [hg] at h
    | some r =>
      cases r with
      | none =>
        simp only [hg, Option.some.injEq, Prod.mk.injEq] at h
        exact h.1.symm
      | some fn =>
        simp only [hg] at h
        cases hm : makeMethod E name cb cb.fn fn with
        | none => simp [hm] at h
        | some r2 =>
          obtain ⟨method, e⟩ := r2
          cases e with
          | some e0 =>
            simp only [hm, Option.some.injEq, Prod.mk.injEq] at h
            exact h.1.symm
          | none => simp [hm] at h

/-! ## Lemmas: the loops of `Describe` -/

/-- A property of the description that every successful registration of a method that
`Describe` does not skip preserves holds after the inner loop, however the loop ends. -/
theorem describeList_invariant (E : Externals) (module : String)
    (P : OpenRPCDescription → Prop) :
    ∀ (list : List (String × callback)) (d d' : OpenRPCDescription) (err : Option Err),
      (∀ methodName cb d0 d1, (methodName, cb) ∈ list → cb.isSubscribe = false →
        strContains (module ++ E.serviceMethodSeparator ++ methodName)
          E.subscribeMethodSuffix = false →
        (d0.Doc.Methods.any fun m => m.Name == module ++ E.serviceMethodSeparator ++ methodName)
          = false →
        P d0 →
        RegisterMethod E d0 (module ++ E.serviceMethodSeparator ++ methodName) cb
          = some (d1, none) → P d1) →
      P d → describeList E module list d = some (d', err) → P d'
  | [], d, d', err, _, hd, h => by
    simp only [describeList, Option.some.injEq, Prod.mk.injEq] at h
    rw [← h.1]; exact hd
  | (methodName, method) :: rest, d, d', err, step, hd, h => by
    have step' : ∀ methodName cb d0 d1, (methodName, cb) ∈ rest → cb.isSubscribe = false →
        strContains (module ++ E.serviceMethodSeparator ++ methodName)
          E.subscribeMethodSuffix = false →
        (d0.Doc.Methods.any fun m => m.Name == module ++ E.serviceMethodSeparator ++ methodName)
          = false →
        P d0 →
        RegisterMethod E d0 (module ++ E.serviceMethodSeparator ++ methodName) cb
          = some (d1, none) → P d1 :=
      fun mn cb d0 d1 hmem => step mn cb d0 d1 (List.mem_cons_of_mem _ hmem)
    simp only [describeList] at h
    split at h
    · exact describeList_invariant E module P rest d d' err step' hd h
    · rename_i hskip
      split at h
      · exact describeList_invariant E module P rest d d' err step' hd h
      · rename_i hdup
        simp only [Bool.or_eq_true, not_or, Bool.not_eq_true] at hskip
        simp only [Bool.not_eq_true] at hdup
        cases hr : RegisterMethod E d (module ++ E.serviceMethodSeparator ++ methodName) method with
        | none => simp [hr] at h
        | some r =>
          obtain ⟨d1, e⟩ := r
          cases e with
          | some e0 =>
            simp only [hr, Option.some.injEq, Prod.mk.injEq] at h
            rw [← h.1, RegisterMethod_error E d d1 _ method e0 hr]
            exact hd
          | none =>
            simp only [hr] at h
            exact describeList_invariant E module P rest d1 d' err step'
              (step methodName method d d1 (List.mem_cons_self _ _) hskip.1 hskip.2 hdup hd hr) h

/-- The same for the outer loop of `Describe`. -/
theorem describeModules_invariant (E : Externals) (P : OpenRPCDescription → Prop) :
    ∀ (methods : List (String × List (String × callback))) (d d' : OpenRPCDescription)
      (err : Option Err),
      (∀ module list methodName cb d0 d1, (module, list) ∈ methods → module ≠ "rpc" →
        (methodName, cb) ∈ list → cb.isSubscribe = false →
        strContains (module ++ E.serviceMethodSeparator ++ methodName)
          E.subscribeMethodSuffix = false →
        (d0.Doc.Methods.any fun m => m.Name == module ++ E.serviceMethodSeparator ++ methodName)
          = false →
        P d0 →
        RegisterMethod E d0 (module ++ E.serviceMethodSeparator ++ methodName) cb
          = some (d1, none) → P d1) →
      P d → describeModules E methods d = some (d', err) → P d'
  | [], d, d', err, _, hd, h => by
    simp only [describeModules, Option.some.injEq, Prod.mk.injEq] at h
    rw [← h.1]; exact hd
  | (module, list) :: rest, d, d', err, step, hd, h => by
    have step' : ∀ module list methodName cb d0 d1, (module, list) ∈ rest → module ≠ "rpc" →
        (methodName, cb) ∈ list → cb.isSubscribe = false →
        strContains (module ++ E.serviceMethodSeparator ++ methodName)
          E.subscribeMethodSuffix = false →
        (d0.Doc.Methods.any fun m => m.Name == module ++ E.serviceMethodSeparator ++ methodName)
          = false →
        P d0 →
        RegisterMethod E d0 (module ++ E.serviceMethodSeparator ++ methodName) cb
          = some (d1, none) → P d1 :=
      fun mo li mn cb d0 d1 hmem => step mo li mn cb d0 d1 (List.mem_cons_of_mem _ hmem)
    simp only [describeModules] at h
    split at h
    · exact describeModules_invariant E P rest d d' err step' hd h
    · rename_i hrpc
      have hne : module ≠ "rpc" := by simpa using hrpc
      cases hl : describeList E module list d with
      | none => simp [hl] at h
      | some r =>
        obtain ⟨d1, e⟩ := r
        have hd1 : P d1 := describeList_invariant E module P list d d1 e
          (fun mn cb d0 d2 hmem => step module list mn cb d0 d2 (List.mem_cons_self _ _) hne hmem)
          hd hl
        cases e with
        | some e0 =>
          simp only [hl, Option.some.injEq, Prod.mk.injEq] at h
          rw [← h.1]; exact hd1
        | none =>
          simp only [hl] at h
          exact describeModules_invariant E P rest d1 d' err step' hd1 h

theorem cleanedMethod_Name (E : Externals) (m : Method) : (cleanedMethod E m).Name = m.Name :=
  rfl

theorem Clean_names (E : Externals) (doc : OpenRPCSpec1) :
    (Clean E doc).1.Methods.map (fun m => m.Name) = doc.Methods.map (fun m => m.Name) := by
  simp [Clean_eq, Function.comp_def, cleanedMethod_Name]

/-- What a call of `Describe` that does not panic has done: either its loops ended
without error, and it returns and retains the document `Clean` leaves, or they ended
with an error, and it returns the error and retains the description as the loops left
it. -/
theorem Describe_cases (E : Externals) (s s' : RPCService) (r : Option OpenRPCSpec1)
    (err : Option Err) (h : Describe E s = some (s', r, err)) :
    ∃ d e, describeModules E s.methods (s.doc.getD NewOpenRPCDescription) = some (d, e) ∧
      ((e = none ∧ err = none ∧ r = some (Clean E d.Doc).1 ∧
          s' = { s with doc := some ⟨(Clean E d.Doc).1⟩ }) ∨
        (e.isSome ∧ err = e ∧ r = none ∧ s' = { s with doc := some d })) := by
  unfold Describe at h
  have hd : (match s.doc with | none => NewOpenRPCDescription | some d => d) =
      s.doc.getD NewOpenRPCDescription := by cases s.doc <;> rfl
  simp only [hd] at h
  cases hm : describeModules E s.methods (s.doc.getD NewOpenRPCDescription) with
  | none => simp [hm] at h
  | some res =>
    obtain ⟨d, e⟩ := res
    refine ⟨d, e, rfl, ?_⟩
    cases e with
    | some e0 =>
      simp only [hm, Option.some.injEq, Prod.mk.injEq] at h
      obtain ⟨h1, h2, h3⟩ := h
      exact Or.inr ⟨rfl, h3.symm, h2.symm, h1.symm⟩
    | none =>
      simp only [hm, Clean_eq, Option.some.injEq, Prod.mk.injEq] at h
      obtain ⟨h1, h2, h3⟩ := h
      exact Or.inl ⟨rfl, h3.symm, by rw [← h2, Clean_eq], by rw [← h1, Clean_eq]⟩

theorem retainedMethods_getD (s : RPCService) :
    (s.doc.getD NewOpenRPCDescription).Doc.Methods = s.retainedMethods := by
  unfold RPCService.retainedMethods
  cases s.doc <;> rfl

/-- A property of the list of methods that holds for the retained methods before a call
of `Describe`, that every successful registration of a method `Describe` does not skip
preserves, and that `Clean` preserves, holds for the retained methods after the call,
however it ends, and for the methods of the document it returns. -/
theorem Describe_invariant (E : Externals) (P : List Method → Prop)
    (s s' : RPCService) (r : Option OpenRPCSpec1) (err : Option Err)
    (h : Describe E s = some (s', r, err))
    (step : ∀ module list methodName cb d0 d1, (module, list) ∈ s.methods → module ≠ "rpc" →
      (methodName, cb) ∈ list → cb.isSubscribe = false →
      strContains (module ++ E.serviceMethodSeparator ++ methodName)
        E.subscribeMethodSuffix = false →
      (d0.Doc.Methods.any fun m => m.Name == module ++ E.serviceMethodSeparator ++ methodName)
        = false →
      P d0.Doc.Methods →
      RegisterMethod E d0 (module ++ E.serviceMethodSeparator ++ methodName) cb
        = some (d1, none) → P d1.Doc.Methods)
    (hclean : ∀ ms, P ms → P (ms.map (cleanedMethod E)))
    (h0 : P s.retainedMethods) :
    P s'.retainedMethods ∧ ∀ doc, r = some doc → P doc.Methods := by
  obtain ⟨d, e, hd, hcase⟩ := Describe_cases E s s' r err h
  have hPd : P d.Doc.Methods :=
    describeModules_invariant E (fun d => P d.Doc.Methods) s.methods _ d e step
      (by show P (s.doc.getD NewOpenRPCDescription).Doc.Methods
          rw [retainedMethods_getD]; exact h0) hd
  rcases hcase with ⟨_, _, rfl, rfl⟩ | ⟨_, _, rfl, rfl⟩
  · have hc : P (Clean E d.Doc).1.Methods := by
      simp only [Clean_eq]
      exact hclean _ hPd
    exact ⟨hc, fun doc hdoc => by rw [← Option.some.inj hdoc]; exact hc⟩
  · exact ⟨hPd, fun doc hdoc => by simp at hdoc⟩

/-! ## Lemmas: substrings -/

theorem containsChars_iff (sub : List Char) :
    ∀ s : List Char, containsChars s sub = true ↔ sub <:+: s
  | [] => by
    cases sub <;> simp [containsChars]
  | c :: cs => by
    simp only [containsChars, Bool.or_eq_true, List.isPrefixOf_iff_prefix,
      containsChars_iff sub cs, List.infix_cons_iff]

theorem strContains_of_strHasSuffix (s suffix : String) (h : strHasSuffix s suffix = true) :
    strContains s suffix = true := by
  unfold strHasSuffix at h
  unfold strContains
  rw [containsChars_iff]
  exact (List.isSuffixOf_iff_suffix.1 h).isInfix

/-! ## Lemmas: what a registration keeps -/

theorem mem_of_RegisterMethod (E : Externals) (d d' : OpenRPCDescription) (name : String)
    (cb : callback) (h : RegisterMethod E d name cb = some (d', none)) :
    ∃ method, method.Name = name ∧
      ∀ m, m ∈ d'.Doc.Methods ↔ m ∈ d.Doc.Methods ∨ m = method := by
  obtain ⟨_, fn, method, _, _, hm, rfl⟩ := RegisterMethod_ok E d d' name cb h
  refine ⟨method, (makeMethod_returns E name cb cb.fn fn method none hm).1, ?_⟩
  intro m
  simp [(sortSlice_perm (d.Doc.Methods ++ [method])).mem_iff]

theorem describeList_keeps (E : Externals) (module : String)
    (list : List (String × callback)) (d d' : OpenRPCDescription) (err : Option Err)
    (h : describeList E module list d = some (d', err)) :
    ∀ m ∈ d.Doc.Methods, m ∈ d'.Doc.Methods := by
  intro m hm
  refine describeList_invariant E module (fun d => m ∈ d.Doc.Methods) list d d' err ?_ hm h
  intro methodName cb d0 d1 _ _ _ _ hP hr
  obtain ⟨method, _, hiff⟩ := mem_of_RegisterMethod E d0 d1 _ cb hr
  exact (hiff m).2 (Or.inl hP)

theorem describeModules_keeps (E : Externals)
    (methods : List (String × List (String × callback))) (d d' : OpenRPCDescription)
    (err : Option Err) (h : describeModules E methods d = some (d', err)) :
    ∀ m ∈ d.Doc.Methods, m ∈ d'.Doc.Methods := by
  intro m hm
  refine describeModules_invariant E (fun d => m ∈ d.Doc.Methods) methods d d' err ?_ hm h
  intro _ _ methodName cb d0 d1 _ _ _ _ _ _ hP hr
  obtain ⟨method, _, hiff⟩ := mem_of_RegisterMethod E d0 d1 _ cb hr
  exact (hiff m).2 (Or.inl hP)

/-! ## Lemmas: the errors of `makeMethod` -/

theorem makeContentDescriptor_error (E : Externals) (ty : GoType) (field : Field)
    (ident : argIdent) (cd : ContentDescriptor) (err : Err)
    (h : makeContentDescriptor E ty field ident = some (cd, some err)) :
    err.isUnsupportedIface := by
  unfold makeContentDescriptor at h
  split at h
  · rename_i hs
    simp only [Option.some.injEq, Prod.mk.injEq] at h
    refine ⟨ty, field, ident, h.2.symm, ?_⟩
    simpa using hs
  · split at h
    · simp at h
    · split at h
      · simp at h
      · simp at h

theorem paramNames_error (E : Externals) (name : String) (cb : callback) (field : Field) :
    ∀ (names : List (Option String)) (j : Nat) (ps : List ContentDescriptor) (j' : Nat)
      (ps' : List ContentDescriptor) (err : Err),
      paramNames E name cb field names j ps = some (j', ps', some err) → err.isUnsupportedIface
  | [], j, ps, j', ps', err, h => by simp [paramNames] at h
  | none :: rest, j, ps, j', ps', err, h => by
    simp only [paramNames] at h
    exact paramNames_error E name cb field rest j ps j' ps' err h
  | some ident :: rest, j, ps, j', ps', err, h => by
    simp only [paramNames] at h
    split at h
    · exact paramNames_error E name cb field rest j ps j' ps' err h
    · cases hty : cb.argTypes[j]? with
      | none => simp [hty] at h
      | some ty =>
        simp only [hty] at h
        cases hcd : makeContentDescriptor E ty field
            ⟨some ident, name ++ "Parameter" ++ toString j⟩ with
        | none => simp [hcd] at h
        | some r =>
          obtain ⟨cd, e⟩ := r
          cases e with
          | some e0 =>
            simp only [hcd, Option.some.injEq, Prod.mk.injEq] at h
            rw [← h.2.2]
            exact makeContentDescriptor_error E ty field _ cd e0 hcd
          | none =>
            simp only [hcd] at h
            exact paramNames_error E name cb field rest (j + 1) (ps ++ [cd]) j' ps' err h

theorem paramFields_error (E : Externals) (name : String) (cb : callback) :
    ∀ (fields : List (Option Field)) (j : Nat) (ps : List ContentDescriptor) (j' : Nat)
      (ps' : List ContentDescriptor) (err : Err),
      paramFields E name cb fields j ps = some (j', ps', some err) → err.isUnsupportedIface
  | [], j, ps, j', ps', err, h => by simp [paramFields] at h
  | none :: rest, j, ps, j', ps', err, h => by
    simp only [paramFields] at h
    exact paramFields_error E name cb rest j ps j' ps' err h
  | some field :: rest, j, ps, j', ps', err, h => by
    simp only [paramFields] at h
    split at h
    · exact paramFields_error E name cb rest j ps j' ps' err h
    · split at h
      · cases hn : paramNames E name cb field field.Names j ps with
        | none => simp [hn] at h
        | some r =>
          obtain ⟨j1, ps1, e⟩ := r
          cases e with
          | some e0 =>
            simp only [hn, Option.some.injEq, Prod.mk.injEq] at h
            rw [← h.2.2]
            exact paramNames_error E name cb field field.Names j ps j1 ps1 e0 hn
          | none =>
            simp only [hn] at h
            exact paramFields_error E name cb rest j1 ps1 j' ps' err h
      · cases hty : cb.argTypes[j]? with
        | none => simp [hty] at h
        | some ty =>
          simp only [hty] at h
          cases hcd : makeContentDescriptor E ty field
              ⟨none, name ++ "Parameter" ++ toString j⟩ with
          | none => simp [hcd] at h
          | some r =>
            obtain ⟨cd, e⟩ := r
            cases e with
            | some e0 =>
              simp only [hcd, Option.some.injEq, Prod.mk.injEq] at h
              rw [← h.2.2]
              exact makeContentDescriptor_error E ty field _ cd e0 hcd
            | none =>
              simp only [hcd] at h
              exact paramFields_error E name cb rest (j + 1) (ps ++ [cd]) j' ps' err h

theorem resultNames_error (E : Externals) (name : String) (cb : callback) (field : Field) :
    ∀ (names : List (Option String)) (j : Nat) (res : ContentDescriptor) (j' : Nat)
      (res' : ContentDescriptor) (err : Err),
      resultNames E name cb field names j res = some (j', res', some err) →
      err.isUnsupportedIface
  | [], j, res, j', res', err, h => by simp [resultNames] at h
  | ident :: rest, j, res, j', res', err, h => by
    simp only [resultNames] at h
    cases hty : cb.retTypes[j]? with
    | none => simp [hty] at h
    | some ty =>
      simp only [hty] at h
      cases hcd : makeContentDescriptor E ty field
          ⟨ident, name ++ "Result" ++ toString j⟩ with
      | none => simp [hcd] at h
      | some r =>
        obtain ⟨cd, e⟩ := r
        cases e with
        | some e0 =>
          simp only [hcd, Option.some.injEq, Prod.mk.injEq] at h
          rw [← h.2.2]
          exact makeContentDescriptor_error E ty field _ cd e0 hcd
        | none =>
          simp only [hcd] at h
          exact resultNames_error E name cb field rest (j + 1) cd j' res' err h

theorem resultFields_error (E : Externals) (name : String) (cb : callback) :
    ∀ (fields : List (Option Field)) (j : Nat) (res : ContentDescriptor) (j' : Nat)
      (res' : ContentDescriptor) (err : Err),
      resultFields E name cb fields j res = some (j', res', some err) → err.isUnsupportedIface
  | [], j, res, j', res', err, h => by simp [resultFields] at h
  | none :: rest, j, res, j', res', err, h => by
    simp only [resultFields] at h
    exact resultFields_error E name cb rest j res j' res' err h
  | some field :: rest, j, res, j', res', err, h => by
    simp only [resultFields] at h
    split at h
    · exact resultFields_error E name cb rest j res j' res' err h
    · split at h
      · cases hn : resultNames E name cb field field.Names j res with
        | none => simp [hn] at h
        | some r =>
          obtain ⟨j1, res1, e⟩ := r
          cases e with
          | some e0 =>
            simp only [hn, Option.some.injEq, Prod.mk.injEq] at h
            rw [← h.2.2]
            exact resultNames_error E name cb field field.Names j res j1 res1 e0 hn
          | none =>
            simp only [hn] at h
            exact resultFields_error E name cb rest j1 res1 j' res' err h
      · cases hty : cb.retTypes[j]? with
        | none => simp [hty] at h
        | some ty =>
          simp only [hty] at h
          cases hcd : makeContentDescriptor E ty field ⟨none, name ++ "Result"⟩ with
          | none => simp [hcd] at h
          | some r =>
            obtain ⟨cd, e⟩ := r
            cases e with
            | some e0 =>
              simp only [hcd, Option.some.injEq, Prod.mk.injEq] at h
              rw [← h.2.2]
              exact makeContentDescriptor_error E ty field _ cd e0 hcd
            | none =>
              simp only [hcd] at h
              exact resultFields_error E name cb rest (j + 1) cd j' res' err h

theorem makeMethod_error (E : Externals) (name : String) (cb : callback) (rt : runtimeFunc)
    (fn : FuncDecl) (m : Method) (err : Err)
    (h : makeMethod E name cb rt fn = some (m, some err)) : err.isUnsupportedIface := by
  obtain ⟨_, j, e, hp, hcase⟩ := makeMethod_returns E name cb rt fn m (some err) h
  rcases hcase with ⟨_, he, _⟩ | ⟨_, j2, res, hr, _⟩
  · subst he
    unfold makeMethodParams at hp
    cases hf : fn.Type_.Params with
    | none => simp [hf] at hp
    | some fields =>
      simp only [hf] at hp
      exact paramFields_error E name cb fields 0 [] j m.Params err hp
  · unfold makeMethodResults at hr
    cases hf : fn.Type_.Results with
    | none => simp [hf] at hr
    | some fields =>
      simp only [hf] at hr
      exact resultFields_error E name cb fields 0 _ j2 res err hr

theorem paramNames_surplus (E : Externals) (name : String) (cb : callback) (field : Field) :
    ∀ (names : List (Option String)) (j : Nat) (ps : List ContentDescriptor),
      cb.argTypes.length ≤ j → paramNames E name cb field names j ps = some (j, ps, none)
  | [], j, ps, _ => by simp [paramNames]
  | none :: rest, j, ps, h => by
    simp only [paramNames]
    exact paramNames_surplus E name cb field rest j ps h
  | some ident :: rest, j, ps, h => by
    have hgt : (j : Int) > (cb.argTypes.length : Int) - 1 := by omega
    simp only [paramNames, hgt, if_true]
    exact paramNames_surplus E name cb field rest j ps h

/-! ## Lemmas: schemas, keys and references -/

/-- What a call of `makeContentDescriptor` that returns without error has built. -/
theorem makeContentDescriptor_ok (E : Externals) (ty : GoType) (field : Field)
    (ident : argIdent) (cd : ContentDescriptor)
    (h : makeContentDescriptor E ty field ident = some (cd, none)) :
    jsonschemaPkgSupport ty = true ∧
    ∃ schemaType sch, schemaTypeOf ty field.Type_ = some schemaType ∧
      ReflectFromType E ty = some sch ∧
      cd.Schema = (if schemaType != ":" then sch.setDescription schemaType else sch) := by
  unfold makeContentDescriptor at h
  split at h
  · simp at h
  · rename_i hs
    refine ⟨by simpa using hs, ?_⟩
    cases hst : schemaTypeOf ty field.Type_ with
    | none => simp [hst] at h
    | some schemaType =>
      simp only [hst] at h
      cases hr : ReflectFromType E ty with
      | none => simp [hr] at h
      | some sch =>
        simp only [hr, Option.some.injEq, Prod.mk.injEq, and_true] at h
        refine ⟨schemaType, sch, rfl, rfl, ?_⟩
        rw [← h]
        simp [ContentDescriptor.zero, Schema.zero, Schema.Description]

theorem cleaned_eq (E : Externals) (sch : Schema) :
    cleaned E sch = refSchema (uniqueKeyFn E (canonicalNode E (stripDefinitions sch))) := by
  cases sch
  rfl

theorem tableEntries_head (E : Externals) (sch : Schema) :
    ∃ rest, tableEntries E sch =
      (uniqueKeyFn E (canonicalNode E sch), canonicalNode E sch) :: rest := by
  cases sch
  exact ⟨_, rfl⟩

theorem lastColonToken_common :
    lastColonToken "github.com/ethereum/go-ethereum/common:common.Hash" = "common.Hash" := by
  decide

theorem lastColonToken_ethcommon :
    lastColonToken "github.com/ethereum/go-ethereum/common:ethcommon.Hash" = "ethcommon.Hash" := by
  decide

/-! ## Lemmas: a call of `Describe` that succeeds -/

/-- A call of `Describe` whose loops end without error returns the document `Clean`
leaves. -/
theorem Describe_ok (E : Externals) (s : RPCService) (d : OpenRPCDescription)
    (h : describeModules E s.methods (s.doc.getD NewOpenRPCDescription) = some (d, none)) :
    Describe E s =
      some ({ s with doc := some ⟨(Clean E d.Doc).1⟩ }, some (Clean E d.Doc).1, none) := by
  unfold Describe
  have hd : (match s.doc with | none => NewOpenRPCDescription | some d => d) =
      s.doc.getD NewOpenRPCDescription := by cases s.doc <;> rfl
  simp only [hd, h, Clean_eq]

/-! ## Lemmas: the key of a schema -/

theorem hexDigit_mem (n : Nat) : hexDigit n ∈ "0123456789abcdef".toList := by
  unfold hexDigit
  rcases Nat.lt_or_ge n 16 with h | h
  · interval_cases n <;> decide
  · rw [List.getD_eq_default _ _ (by simpa using h)]
    decide

theorem hexBytes_four (a b c d : Fin 256) :
    (hexBytes [a, b, c, d]).length = 8 ∧
    ∀ ch ∈ hexBytes [a, b, c, d], ch ∈ "0123456789abcdef".toList := by
  refine ⟨rfl, ?_⟩
  intro ch hch
  simp only [hexBytes, List.mem_cons, List.mem_nil_iff, or_false] at hch
  rcases hch with rfl | rfl | rfl | rfl | rfl | rfl | rfl | rfl <;> exact hexDigit_mem _

theorem uniqueKeyFn_eq_keyBody (E : Externals) (sch : Schema) :
    uniqueKeyFn E sch =
      if (lastColonToken sch.Description != "" &&
          !strContains (lastColonToken sch.Description) " ") = true
      then lastColonToken sch.Description ++ "_" ++ keyBody E sch else keyBody E sch := rfl

theorem splitChars_ne_nil (sep : Char) : ∀ l : List Char, splitChars sep l ≠ []
  | [] => by simp [splitChars]
  | c :: cs => by
    unfold splitChars
    split
    · simp
    · split <;> simp

theorem splitChars_not_mem (sep : Char) :
    ∀ l : List Char, sep ∉ l → splitChars sep l = [l]
  | [], _ => rfl
  | c :: cs, h => by
    have hc : ¬ c = sep := fun e => h (by simp [e])
    have hcs : sep ∉ cs := fun e => h (List.mem_cons_of_mem _ e)
    simp [splitChars, hc, splitChars_not_mem sep cs hcs]

theorem splitChars_append (sep : Char) (tok : List Char) :
    ∀ pre : List Char,
      splitChars sep (pre ++ sep :: tok) = splitChars sep pre ++ splitChars sep tok
  | [] => by simp [splitChars]
  | c :: p => by
    have ih := splitChars_append sep tok p
    by_cases hc : c = sep
    · simp [splitChars, hc, ih]
    · cases hp : splitChars sep p with
      | nil => exact absurd hp (splitChars_ne_nil sep p)
      | cons h t =>
        simp only [List.cons_append, splitChars, hc, if_false]
        rw [show p.append (sep :: tok) = p ++ sep :: tok from rfl, ih, hp]
        rfl

theorem getLastD_append_of_ne_nil {α : Type} (d : α) :
    ∀ (l₁ l₂ : List α), l₂ ≠ [] → (l₁ ++ l₂).getLastD d = l₂.getLastD d
  | [], _, _ => rfl
  | a :: l₁, l₂, h => by
    have ih := getLastD_append_of_ne_nil d l₁ l₂ h
    cases hl : l₁ ++ l₂ with
    | nil =>
      have : l₂ = [] := (List.append_eq_nil.1 hl).2
      exact absurd this h
    | cons b t =>
      rw [hl] at ih
      simp only [List.cons_append, hl, List.getLastD_cons] at ih ⊢
      exact ih

theorem lastColonToken_no_colon (desc : String) (h : ':' ∉ desc.toList) :
    lastColonToken desc = desc := by
  unfold lastColonToken
  rw [splitChars_not_mem ':' desc.toList h]
  rfl

theorem lastColonToken_after_colon (pre tok : List Char) (h : ':' ∉ tok) :
    lastColonToken (String.mk (pre ++ ':' :: tok)) = String.mk tok := by
  unfold lastColonToken
  show String.mk ((splitChars ':' (pre ++ ':' :: tok)).getLastD []) = String.mk tok
  rw [splitChars_append, getLastD_append_of_ne_nil _ _ _ (splitChars_ne_nil ':' tok),
    splitChars_not_mem ':' tok h]
  rfl

theorem strContains_space (s : String) : strContains s " " = true ↔ ' ' ∈ s.toList := by
  unfold strContains
  rw [containsChars_iff]
  constructor
  · rintro ⟨pre, post, h⟩
    rw [← h]
    simp
  · intro h
    obtain ⟨pre, post, h⟩ := List.mem_iff_append.1 h
    exact ⟨pre, post, by rw [h]; simp⟩

/-! ## Lemmas: the loops of `makeMethod` as loops over slots -/

theorem paramNames_slots (E : Externals) (name : String) (cb : callback) (field : Field)
    (restSlots : List (Field × Option String)) :
    ∀ (names : List (Option String)) (j : Nat) (ps : List ContentDescriptor),
      (match paramNames E name cb field names j ps with
        | none => none
        | some (j, ps, some err) => some (j, ps, some err)
        | some (j, ps, none) => runParamSlots E name cb restSlots j ps) =
      runParamSlots E name cb
        ((names.filterMap id).map (fun ident => (field, some ident)) ++ restSlots) j ps
  | [], j, ps => by simp [paramNames]
  | none :: rest, j, ps => by
    simp only [paramNames, List.filterMap_cons_none, id]
    exact paramNames_slots E name cb field restSlots rest j ps
  | some ident :: rest, j, ps => by
    have ih := paramNames_slots E name cb field restSlots rest
    by_cases hg : (j : Int) > (cb.argTypes.length : Int) - 1
    · simp only [paramNames, hg, if_true, List.filterMap_cons_some, id, List.map_cons,
        List.cons_append, runParamSlots, Option.isSome_some, Bool.true_and, decide_True]
      exact ih j ps
    · simp only [paramNames, hg, if_false, List.filterMap_cons_some, id, List.map_cons,
        List.cons_append, runParamSlots, Option.isSome_some, Bool.true_and, decide_False,
        Bool.false_eq_true]
      cases hty : cb.argTypes[j]? with
      | none => rfl
      | some ty =>
        simp only []
        cases hcd : makeContentDescriptor E ty field
            ⟨some ident, name ++ "Parameter" ++ toString j⟩ with
        | none => rfl
        | some r =>
          obtain ⟨cd, e⟩ := r
          cases e with
          | some e0 => rfl
          | none => exact ih (j + 1) (ps ++ [cd])

theorem paramFields_slots (E : Externals) (name : String) (cb : callback) :
    ∀ (fields : List (Option Field)) (j : Nat) (ps : List ContentDescriptor),
      paramFields E name cb fields j ps = runParamSlots E name cb (paramSlots cb fields) j ps
  | [], j, ps => by simp [paramFields, paramSlots, runParamSlots]
  | none :: rest, j, ps => by
    simp only [paramFields, paramSlots]
    exact paramFields_slots E name cb rest j ps
  | some field :: rest, j, ps => by
    have ih := paramFields_slots E name cb rest
    by_cases hc : isContextField cb field = true
    · have hc' : (cb.hasCtx && strContains field.typeText "context") = true := hc
      simp only [paramFields, paramSlots, hc, hc', if_true]
      exact ih j ps
    · have hc' : ¬ (cb.hasCtx && strContains field.typeText "context") = true := hc
      by_cases hn : field.Names.length > 0
      · simp only [paramFields, paramSlots, hc, hc', hn, if_true, if_false, Bool.false_eq_true]
        rw [← paramNames_slots E name cb field (paramSlots cb rest) field.Names j ps]
        cases paramNames E name cb field field.Names j ps with
        | none => rfl
        | some r =>
          obtain ⟨j1, ps1, e⟩ := r
          cases e with
          | some e0 => rfl
          | none => exact ih j1 ps1
      · simp only [paramFields, paramSlots, hc, hc', hn, if_false, runParamSlots,
          Option.isSome_none, Bool.false_and, Bool.false_eq_true]
        cases hty : cb.argTypes[j]? with
        | none => rfl
        | some ty =>
          simp only []
          cases hcd : makeContentDescriptor E ty field
              ⟨none, name ++ "Parameter" ++ toString j⟩ with
          | none => rfl
          | some r =>
            obtain ⟨cd, e⟩ := r
            cases e with
            | some e0 => rfl
            | none => exact ih (j + 1) (ps ++ [cd])

theorem resultNames_slots (E : Externals) (name : String) (cb : callback) (field : Field)
    (restSlots : List (Field × Option (Option String))) :
    ∀ (names : List (Option String)) (j : Nat) (res : ContentDescriptor),
      (match resultNames E name cb field names j res with
        | none => none
        | some (j, res, some err) => some (j, res, some err)
        | some (j, res, none) => runResultSlots E name cb restSlots j res) =
      runResultSlots E name cb (names.map (fun ident => (field, some ident)) ++ restSlots) j res
  | [], j, res => by simp [resultNames]
  | ident :: rest, j, res => by
    have ih := resultNames_slots E name cb field restSlots rest
    simp only [resultNames, List.map_cons, List.cons_append, runResultSlots, resultIdent]
    cases hty : cb.retTypes[j]? with
    | none => rfl
    | some ty =>
      simp only []
      cases hcd : makeContentDescriptor E ty field ⟨ident, name ++ "Result" ++ toString j⟩ with
      | none => rfl
      | some r =>
        obtain ⟨cd, e⟩ := r
        cases e with
        | some e0 => rfl
        | none => exact ih (j + 1) cd

theorem resultFields_slots (E : Externals) (name : String) (cb : callback) :
    ∀ (fields : List (Option Field)) (j : Nat) (res : ContentDescriptor),
      resultFields E name cb fields j res = runResultSlots E name cb (resultSlots fields) j res
  | [], j, res => by simp [resultFields, resultSlots, runResultSlots]
  | none :: rest, j, res => by
    simp only [resultFields, resultSlots]
    exact resultFields_slots E name cb rest j res
  | some field :: rest, j, res => by
    have ih := resultFields_slots E name cb rest
    by_cases hc : strContains field.typeText "error" = true
    · simp only [resultFields, resultSlots, hc, if_true]
      exact ih j res
    · by_cases hn : field.Names.length > 0
      · simp only [resultFields, resultSlots, hc, hn, if_true, if_false, Bool.false_eq_true]
        rw [← resultNames_slots E name cb field (resultSlots rest) field.Names j res]
        cases resultNames E name cb field field.Names j res with
        | none => rfl
        | some r =>
          obtain ⟨j1, res1, e⟩ := r
          cases e with
          | some e0 => rfl
          | none => exact ih j1 res1
      · simp only [resultFields, resultSlots, hc, hn, if_false, runResultSlots, resultIdent,
          Bool.false_eq_true]
        cases hty : cb.retTypes[j]? with
        | none => rfl
        | some ty =>
          simp only []
          cases hcd : makeContentDescriptor E ty field ⟨none, name ++ "Result"⟩ with
          | none => rfl
          | some r =>
            obtain ⟨cd, e⟩ := r
            cases e with
            | some e0 => rfl
            | none => exact ih (j + 1) cd

theorem makeContentDescriptor_unsupported (E : Externals) (ty : GoType) (field : Field)
    (ident : argIdent) (h : jsonschemaPkgSupport ty = false) :
    makeContentDescriptor E ty field ident =
      some (ContentDescriptor.zero, some (.unsupportedIface ty field ident)) := by
  simp [makeContentDescriptor, h]

theorem makeContentDescriptor_supported (E : Externals) (ty : GoType) (field : Field)
    (ident : argIdent) (cd : ContentDescriptor) (err : Option Err)
    (hs : jsonschemaPkgSupport ty = true)
    (h : makeContentDescriptor E ty field ident = some (cd, err)) : err = none := by
  cases err with
  | none => rfl
  | some e =>
    obtain ⟨ty', _, _, he, hty⟩ := makeContentDescriptor_error E ty field ident cd e h
    have h' := h
    unfold makeContentDescriptor at h'
    simp [hs] at h'
    split at h' <;> [simp at h'; (split at h' <;> simp at h')]

theorem runParamSlots_reject (E : Externals) (name : String) (cb : callback) :
    ∀ (slots : List (Field × Option String)) (j : Nat) (ps : List ContentDescriptor) (k : Nat)
      (field : Field) (ident : Option String) (ty : GoType),
      (∀ i, i < k → ∀ f id, slots[i]? = some (f, id) →
        ∃ ty' cd, cb.argTypes[j + i]? = some ty' ∧
          makeContentDescriptor E ty' f ⟨id, name ++ "Parameter" ++ toString (j + i)⟩ =
            some (cd, none)) →
      slots[k]? = some (field, ident) → cb.argTypes[j + k]? = some ty →
      jsonschemaPkgSupport ty = false →
      ∃ ps', runParamSlots E name cb slots j ps =
          some (j + k, ps',
            some (.unsupportedIface ty field ⟨ident, name ++ "Parameter" ++ toString (j + k)⟩)) ∧
        ps'.length = ps.length + k
  | [], j, ps, k, field, ident, ty, _, hk, _, _ => by simp at hk
  | (f0, id0) :: rest, j, ps, k, field, ident, ty, hok, hk, hty, hs => by
    cases k with
    | zero =>
      simp only [List.getElem?_cons_zero, Option.some.injEq, Prod.mk.injEq] at hk
      obtain ⟨rfl, rfl⟩ := hk
      simp only [Nat.add_zero] at hty ⊢
      have hlt : j < cb.argTypes.length := by
        rcases List.getElem?_eq_some.1 hty with ⟨h, _⟩
        exact h
      have hg : ¬ ((j : Int) > (cb.argTypes.length : Int) - 1) := by omega
      refine ⟨ps, ?_, rfl⟩
      simp only [runParamSlots, hg, decide_False, Bool.and_false, Bool.false_eq_true, if_false,
        hty, makeContentDescriptor_unsupported E ty f0 _ hs]
    | succ k =>
      obtain ⟨ty0, cd0, hty0, hcd0⟩ := hok 0 (Nat.succ_pos k) f0 id0 (by simp)
      simp only [Nat.add_zero] at hty0 hcd0
      have hlt : j < cb.argTypes.length := by
        rcases List.getElem?_eq_some.1 hty0 with ⟨h, _⟩
        exact h
      have hg : ¬ ((j : Int) > (cb.argTypes.length : Int) - 1) := by omega
      obtain ⟨ps', hrun, hlen⟩ := runParamSlots_reject E name cb rest (j + 1) (ps ++ [cd0]) k
        field ident ty
        (by
          intro i hi f id hslot
          obtain ⟨ty', cd, g1, g2⟩ := hok (i + 1) (Nat.succ_lt_succ hi) f id (by simpa using hslot)
          refine ⟨ty', cd, ?_, ?_⟩
          · rw [← g1]; congr 1; omega
          · rw [← g2]; congr 4; omega)
        (by simpa using hk)
        (by rw [← hty]; congr 1; omega) hs
      refine ⟨ps', ?_, by rw [hlen]; simp; omega⟩
      simp only [runParamSlots, hg, decide_False, Bool.and_false, Bool.false_eq_true, if_false,
        hty0, hcd0, hrun]
      have e : j + 1 + k = j + (k + 1) := by omega
      rw [e]

theorem runResultSlots_reject (E : Externals) (name : String) (cb : callback) :
    ∀ (slots : List (Field × Option (Option String))) (j : Nat) (res : ContentDescriptor)
      (k : Nat) (field : Field) (slot : Option (Option String)) (ty : GoType),
      (∀ i, i < k → ∀ f s, slots[i]? = some (f, s) →
        ∃ ty' cd, cb.retTypes[j + i]? = some ty' ∧
          makeContentDescriptor E ty' f (resultIdent name s (j + i)) = some (cd, none)) →
      slots[k]? = some (field, slot) → cb.retTypes[j + k]? = some ty →
      jsonschemaPkgSupport ty = false →
      ∃ res', runResultSlots E name cb slots j res =
          some (j + k, res',
            some (.unsupportedIface ty field (resultIdent name slot (j + k))))
  | [], j, res, k, field, slot, ty, _, hk, _, _ => by simp at hk
  | (f0, s0) :: rest, j, res, k, field, slot, ty, hok, hk, hty, hs => by
    cases k with
    | zero =>
      simp only [List.getElem?_cons_zero, Option.some.injEq, Prod.mk.injEq] at hk
      obtain ⟨rfl, rfl⟩ := hk
      simp only [Nat.add_zero] at hty ⊢
      exact ⟨res, by simp only [runResultSlots, hty,
        makeContentDescriptor_unsupported E ty f0 _ hs]⟩
    | succ k =>
      obtain ⟨ty0, cd0, hty0, hcd0⟩ := hok 0 (Nat.succ_pos k) f0 s0 (by simp)
      simp only [Nat.add_zero] at hty0 hcd0
      obtain ⟨res', hrun⟩ := runResultSlots_reject E name cb rest (j + 1) cd0 k field slot ty
        (by
          intro i hi f s hslot
          obtain ⟨ty', cd, g1, g2⟩ := hok (i + 1) (Nat.succ_lt_succ hi) f s (by simpa using hslot)
          have e : j + 1 + i = j + (i + 1) := by omega
          exact ⟨ty', cd, by rw [e]; exact g1, by rw [e]; exact g2⟩)
        (by simpa using hk)
        (by rw [← hty]; congr 1; omega) hs
      refine ⟨res', ?_⟩
      simp only [runResultSlots, hty0, hcd0, hrun]
      have e : j + 1 + k = j + (k + 1) := by omega
      rw [e]

theorem runResultSlots_ok (E : Externals) (name : String) (cb : callback) :
    ∀ (slots : List (Field × Option (Option String))) (j : Nat) (res : ContentDescriptor)
      (j' : Nat) (res' : ContentDescriptor),
      runResultSlots E name cb slots j res = some (j', res', none) →
      j' = j + slots.length ∧ (slots = [] → res' = res) ∧
      ∀ i f s, slots[i]? = some (f, s) →
        ∃ ty cd, cb.retTypes[j + i]? = some ty ∧
          makeContentDescriptor E ty f (resultIdent name s (j + i)) = some (cd, none) ∧
          (i + 1 = slots.length → res' = cd)
  | [], j, res, j', res', h => by
    simp only [runResultSlots, Option.some.injEq, Prod.mk.injEq, and_true] at h
    exact ⟨by simp [h.1], fun _ => h.2.symm, by simp⟩
  | (f0, s0) :: rest, j, res, j', res', h => by
    simp only [runResultSlots] at h
    cases hty : cb.retTypes[j]? with
    | none => simp [hty] at h
    | some ty =>
      simp only [hty] at h
      cases hcd : makeContentDescriptor E ty f0 (resultIdent name s0 j) with
      | none => simp [hcd] at h
      | some r =>
        obtain ⟨cd, e⟩ := r
        cases e with
        | some e0 => simp [hcd] at h
        | none =>
          simp only [hcd] at h
          obtain ⟨h1, h2, h3⟩ := runResultSlots_ok E name cb rest (j + 1) cd j' res' h
          refine ⟨by simp [h1]; omega, by simp, ?_⟩
          intro i f s hslot
          cases i with
          | zero =>
            simp only [List.getElem?_cons_zero, Option.some.injEq, Prod.mk.injEq] at hslot
            obtain ⟨rfl, rfl⟩ := hslot
            refine ⟨ty, cd, by simpa using hty, by simpa using hcd, ?_⟩
            intro hlen
            have : rest = [] := by
              simp only [List.length_cons, Nat.zero_add] at hlen
              exact List.eq_nil_of_length_eq_zero (by omega)
            exact h2 this
          | succ i =>
            obtain ⟨ty', cd', g1, g2, g3⟩ := h3 i f s (by simpa using hslot)
            have e : j + (i + 1) = j + 1 + i := by omega
            refine ⟨ty', cd', by rw [e]; exact g1, by rw [e]; exact g2, ?_⟩
            intro hlen
            exact g3 (by simp only [List.length_cons] at hlen; omega)

/-! ## Lemmas: what `makeMethod` takes from the declaration -/

theorem makeMethod_Summary (E : Externals) (name : String) (cb : callback) (rt : runtimeFunc)
    (fn : FuncDecl) (m : Method) (err : Option Err)
    (h : makeMethod E name cb rt fn = some (m, err)) : m.Summary = fn.Doc := by
  obtain ⟨_, j, e, _, hcase⟩ := makeMethod_returns E name cb rt fn m err h
  rcases hcase with ⟨_, _, hm⟩ | ⟨_, _, _, _, hm⟩ <;>
  · rw [hm]
    unfold deferredNullResult
    split <;> rfl

/-! ## Lemmas: a call of `Describe` that fails -/

/-- The inner loop on a list that is continued: when the loop ends without error on the
first part, it goes on with the second part from the description the first part left. -/
theorem describeList_append (E : Externals) (module : String)
    (list2 : List (String × callback)) :
    ∀ (list1 : List (String × callback)) (d d1 : OpenRPCDescription),
      describeList E module list1 d = some (d1, none) →
      describeList E module (list1 ++ list2) d = describeList E module list2 d1
  | [], d, d1, h => by
    simp only [describeList, Option.some.injEq, Prod.mk.injEq, and_true] at h
    simp [h]
  | (methodName, method) :: rest, d, d1, h => by
    simp only [describeList, List.cons_append] at h ⊢
    split
    · rename_i hskip
      rw [if_pos hskip] at h
      exact describeList_append E module list2 rest d d1 h
    · rename_i hskip
      rw [if_neg hskip] at h
      split
      · rename_i hdup
        rw [if_pos hdup] at h
        exact describeList_append E module list2 rest d d1 h
      · rename_i hdup
        rw [if_neg hdup] at h
        cases hr : RegisterMethod E d (module ++ E.serviceMethodSeparator ++ methodName)
            method with
        | none => simp [hr] at h
        | some r =>
          obtain ⟨d2, e1⟩ := r
          cases e1 with
          | some e0 => simp [hr] at h
          | none =>
            simp only [hr] at h ⊢
            exact describeList_append E module list2 rest d2 d1 h

/-- The outer loop on a list that is continued. -/
theorem describeModules_append (E : Externals)
    (methods2 : List (String × List (String × callback))) :
    ∀ (methods1 : List (String × List (String × callback))) (d d1 : OpenRPCDescription),
      describeModules E methods1 d = some (d1, none) →
      describeModules E (methods1 ++ methods2) d = describeModules E methods2 d1
  | [], d, d1, h => by
    simp only [describeModules, Option.some.injEq, Prod.mk.injEq, and_true] at h
    simp [h]
  | (module, list) :: rest, d, d1, h => by
    simp only [describeModules, List.cons_append] at h ⊢
    split
    · rename_i hrpc
      rw [if_pos hrpc] at h
      exact describeModules_append E methods2 rest d d1 h
    · rename_i hrpc
      rw [if_neg hrpc] at h
      cases hl : describeList E module list d with
      | none => simp [hl] at h
      | some r =>
        obtain ⟨d2, e1⟩ := r
        cases e1 with
        | some e0 => simp [hl] at h
        | none =>
          simp only [hl] at h ⊢
          exact describeModules_append E methods2 rest d2 d1 h

/-- The inner loop at a method it does not skip and whose registration fails: it ends
with the error, whatever follows in the list. -/
theorem describeList_fails (E : Externals) (module methodName : String) (cb : callback)
    (rest : List (String × callback)) (d : OpenRPCDescription) (e : Err)
    (hsub : cb.isSubscribe = false)
    (hsuf : strContains (module ++ E.serviceMethodSeparator ++ methodName)
      E.subscribeMethodSuffix = false)
    (hdup : (d.Doc.Methods.any fun m =>
      m.Name == module ++ E.serviceMethodSeparator ++ methodName) = false)
    (hr : RegisterMethod E d (module ++ E.serviceMethodSeparator ++ methodName) cb =
      some (d, some e)) :
    describeList E module ((methodName, cb) :: rest) d = some (d, some e) := by
  simp [describeList, hsub, hsuf, hdup, hr]

/-- An inner loop that ends with an error: the list splits at the method whose
registration failed. -/
theorem describeList_error (E : Externals) (module : String) :
    ∀ (list : List (String × callback)) (d d' : OpenRPCDescription) (e : Err),
      describeList E module list d = some (d', some e) →
      ∃ l1 methodName cb l2, list = l1 ++ (methodName, cb) :: l2 ∧
        describeList E module l1 d = some (d', none) ∧
        cb.isSubscribe = false ∧
        strContains (module ++ E.serviceMethodSeparator ++ methodName)
          E.subscribeMethodSuffix = false ∧
        (d'.Doc.Methods.any fun m =>
          m.Name == module ++ E.serviceMethodSeparator ++ methodName) = false ∧
        RegisterMethod E d' (module ++ E.serviceMethodSeparator ++ methodName) cb =
          some (d', some e)
  | [], d, d', e, h => by simp [describeList] at h
  | (methodName, method) :: rest, d, d', e, h => by
    simp only [describeList] at h
    by_cases hskip : (method.isSubscribe ||
        strContains (module ++ E.serviceMethodSeparator ++ methodName)
          E.subscribeMethodSuffix) = true
    · rw [if_pos hskip] at h
      obtain ⟨l1, mn, cb, l2, hl, h1, hrest⟩ := describeList_error E module rest d d' e h
      refine ⟨(methodName, method) :: l1, mn, cb, l2, by rw [hl]; rfl, ?_, hrest⟩
      simp only [describeList]
      rw [if_pos hskip]
      exact h1
    · rw [if_neg hskip] at h
      by_cases hdup : (d.Doc.Methods.any fun m =>
          m.Name == module ++ E.serviceMethodSeparator ++ methodName) = true
      · rw [if_pos hdup] at h
        obtain ⟨l1, mn, cb, l2, hl, h1, hrest⟩ := describeList_error E module rest d d' e h
        refine ⟨(methodName, method) :: l1, mn, cb, l2, by rw [hl]; rfl, ?_, hrest⟩
        simp only [describeList]
        rw [if_neg hskip, if_pos hdup]
        exact h1
      · rw [if_neg hdup] at h
        cases hr : RegisterMethod E d (module ++ E.serviceMethodSeparator ++ methodName)
            method with
        | none => simp [hr] at h
        | some r =>
          obtain ⟨d1, e1⟩ := r
          cases e1 with
          | some e0 =>
            simp only [hr, Option.some.injEq, Prod.mk.injEq] at h
            obtain ⟨rfl, rfl⟩ := h
            have hd := RegisterMethod_error E d d1 _ method e0 hr
            subst hd
            simp only [Bool.or_eq_true, not_or, Bool.not_eq_true] at hskip
            exact ⟨[], methodName, method, rest, rfl, rfl, hskip.1, hskip.2,
              by simpa using hdup, hr⟩
          | none =>
            simp only [hr] at h
            obtain ⟨l1, mn, cb, l2, hl, h1, hrest⟩ :=
              describeList_error E module rest d1 d' e h
            refine ⟨(methodName, method) :: l1, mn, cb, l2, by rw [hl]; rfl, ?_, hrest⟩
            simp only [describeList]
            rw [if_neg hskip, if_neg hdup]
            simp only [hr]
            exact h1

/-- An outer loop that ends with an error: the modules split at the module whose inner
loop failed. -/
theorem describeModules_error (E : Externals) :
    ∀ (methods : List (String × List (String × callback))) (d d' : OpenRPCDescription)
      (e : Err), describeModules E methods d = some (d', some e) →
      ∃ pre module list post d0, methods = pre ++ (module, list) :: post ∧
        module ≠ "rpc" ∧ describeModules E pre d = some (d0, none) ∧
        describeList E module list d0 = some (d', some e)
  | [], d, d', e, h => by simp [describeModules] at h
  | (module, list) :: rest, d, d', e, h => by
    simp only [describeModules] at h
    by_cases hrpc : (module == "rpc") = true
    · rw [if_pos hrpc] at h
      obtain ⟨pre, mo, li, post, d0, hl, hne, h1, h2⟩ :=
        describeModules_error E rest d d' e h
      refine ⟨(module, list) :: pre, mo, li, post, d0, by rw [hl]; rfl, hne, ?_, h2⟩
      simp only [describeModules]
      rw [if_pos hrpc]
      exact h1
    · rw [if_neg hrpc] at h
      cases hl : describeList E module list d with
      | none => simp [hl] at h
      | some r =>
        obtain ⟨d1, e1⟩ := r
        cases e1 with
        | some e0 =>
          simp only [hl, Option.some.injEq, Prod.mk.injEq] at h
          obtain ⟨rfl, rfl⟩ := h
          exact ⟨[], module, list, rest, d, rfl, by simpa using hrpc, rfl, hl⟩
        | none =>
          simp only [hl] at h
          obtain ⟨pre, mo, li, post, d0, hl2, hne, h1, h2⟩ :=
            describeModules_error E rest d1 d' e h
          refine ⟨(module, list) :: pre, mo, li, post, d0, by rw [hl2]; rfl, hne, ?_, h2⟩
          simp only [describeModules]
          rw [if_neg hrpc]
          simp only [hl]
          exact h1

/-! ## Lemmas: a second call of `Describe` -/

theorem any_of_subset {α : Type} (p : α → Bool) (l1 l2 : List α)
    (hsub : ∀ a ∈ l1, a ∈ l2) (h : l1.any p = true) : l2.any p = true := by
  rw [List.any_eq_true] at h ⊢
  obtain ⟨a, ha, hp⟩ := h
  exact ⟨a, hsub a ha, hp⟩

/-- The inner loop on a list all of whose methods it skips leaves the description as it
is and returns no error. -/
theorem describeList_skip_all (E : Externals) (module : String) (d : OpenRPCDescription) :
    ∀ list : List (String × callback),
      (∀ methodName cb, (methodName, cb) ∈ list →
        (cb.isSubscribe || strContains (module ++ E.serviceMethodSeparator ++ methodName)
          E.subscribeMethodSuffix) = true ∨
        (d.Doc.Methods.any fun m =>
          m.Name == module ++ E.serviceMethodSeparator ++ methodName) = true) →
      describeList E module list d = some (d, none)
  | [], _ => rfl
  | (methodName, method) :: rest, h => by
    have ih := describeList_skip_all E module d rest
      (fun mn cb hmem => h mn cb (List.mem_cons_of_mem _ hmem))
    simp only [describeList]
    rcases h methodName method (List.mem_cons_self _ _) with h1 | h1
    · rw [if_pos h1]
      exact ih
    · by_cases hskip : (method.isSubscribe ||
          strContains (module ++ E.serviceMethodSeparator ++ methodName)
            E.subscribeMethodSuffix) = true
      · rw [if_pos hskip]
        exact ih
      · rw [if_neg hskip, if_pos h1]
        exact ih

/-- The outer loop on a registry all of whose methods are skipped. -/
theorem describeModules_skip_all (E : Externals) (d : OpenRPCDescription) :
    ∀ methods : List (String × List (String × callback)),
      (∀ module list, (module, list) ∈ methods → module ≠ "rpc" →
        ∀ methodName cb, (methodName, cb) ∈ list →
          (cb.isSubscribe || strContains (module ++ E.serviceMethodSeparator ++ methodName)
            E.subscribeMethodSuffix) = true ∨
          (d.Doc.Methods.any fun m =>
            m.Name == module ++ E.serviceMethodSeparator ++ methodName) = true) →
      describeModules E methods d = some (d, none)
  | [], _ => rfl
  | (module, list) :: rest, h => by
    have ih := describeModules_skip_all E d rest
      (fun mo li hmem => h mo li (List.mem_cons_of_mem _ hmem))
    simp only [describeModules]
    split
    · exact ih
    · rename_i hrpc
      rw [describeList_skip_all E module d list
        (h module list (List.mem_cons_self _ _) (by simpa using hrpc))]
      exact ih

/-- After an inner loop that ends without error every method of the list was skipped
as a subscription or has its qualified name in the description. -/
theorem describeList_registered (E : Externals) (module : String) :
    ∀ (list : List (String × callback)) (d d' : OpenRPCDescription),
      describeList E module list d = some (d', none) →
      ∀ methodName cb, (methodName, cb) ∈ list →
        (cb.isSubscribe || strContains (module ++ E.serviceMethodSeparator ++ methodName)
          E.subscribeMethodSuffix) = true ∨
        (d'.Doc.Methods.any fun m =>
          m.Name == module ++ E.serviceMethodSeparator ++ methodName) = true
  | [], _, _, _ => by simp
  | (methodName, method) :: rest, d, d', h => by
    intro mn cb hmem
    simp only [describeList] at h
    by_cases hskip : (method.isSubscribe ||
        strContains (module ++ E.serviceMethodSeparator ++ methodName)
          E.subscribeMethodSuffix) = true
    · rw [if_pos hskip] at h
      rcases List.mem_cons.1 hmem with heq | hmem
      · obtain ⟨rfl, rfl⟩ := Prod.mk.inj heq
        exact Or.inl hskip
      · exact describeList_registered E module rest d d' h mn cb hmem
    · rw [if_neg hskip] at h
      by_cases hdup : (d.Doc.Methods.any fun m =>
          m.Name == module ++ E.serviceMethodSeparator ++ methodName) = true
      · rw [if_pos hdup] at h
        rcases List.mem_cons.1 hmem with heq | hmem
        · obtain ⟨rfl, rfl⟩ := Prod.mk.inj heq
          exact Or.inr (any_of_subset _ _ _ (describeList_keeps E module rest d d' none h) hdup)
        · exact describeList_registered E module rest d d' h mn cb hmem
      · rw [if_neg hdup] at h
        cases hr : RegisterMethod E d (module ++ E.serviceMethodSeparator ++ methodName)
            method with
        | none => simp [hr] at h
        | some r =>
          obtain ⟨d2, e1⟩ := r
          cases e1 with
          | some e0 => simp [hr] at h
          | none =>
            simp only [hr] at h
            rcases List.mem_cons.1 hmem with heq | hmem
            · obtain ⟨rfl, rfl⟩ := Prod.mk.inj heq
              obtain ⟨m0, hname, hiff⟩ := mem_of_RegisterMethod E d d2 _ _ hr
              refine Or.inr (any_of_subset _ _ _
                (describeList_keeps E module rest d2 d' none h) ?_)
              rw [List.any_eq_true]
              exact ⟨m0, (hiff m0).2 (Or.inr rfl), by simp [hname]⟩
            · exact describeList_registered E module rest d2 d' h mn cb hmem

/-- After an outer loop that ends without error every method of a module other than
`rpc` was skipped as a subscription or has its qualified name in the description. -/
theorem describeModules_registered (E : Externals) :
    ∀ (methods : List (String × List (String × callback))) (d d' : OpenRPCDescription),
      describeModules E methods d = some (d', none) →
      ∀ module list, (module, list) ∈ methods → module ≠ "rpc" →
        ∀ methodName cb, (methodName, cb) ∈ list →
          (cb.isSubscribe || strContains (module ++ E.serviceMethodSeparator ++ methodName)
            E.subscribeMethodSuffix) = true ∨
          (d'.Doc.Methods.any fun m =>
            m.Name == module ++ E.serviceMethodSeparator ++ methodName) = true
  | [], _, _, _ => by simp
  | (module, list) :: rest, d, d', h => by
    intro mo li hmem hne mn cb hmn
    simp only [describeModules] at h
    by_cases hrpc : (module == "rpc") = true
    · rw [if_pos hrpc] at h
      rcases List.mem_cons.1 hmem with heq | hmem
      · obtain ⟨rfl, rfl⟩ := Prod.mk.inj heq
        exact absurd (by simpa using hrpc) hne
      · exact describeModules_registered E rest d d' h mo li hmem hne mn cb hmn
    · rw [if_neg hrpc] at h
      cases hl : describeList E module list d with
      | none => simp [hl] at h
      | some r =>
        obtain ⟨d2, e1⟩ := r
        cases e1 with
        | some e0 => simp [hl] at h
        | none =>
          simp only [hl] at h
          rcases List.mem_cons.1 hmem with heq | hmem
          · obtain ⟨rfl, rfl⟩ := Prod.mk.inj heq
            rcases describeList_registered E mo li d d2 hl mn cb hmn with h1 | h1
            · exact Or.inl h1
            · exact Or.inr (any_of_subset _ _ _
                (describeModules_keeps E rest d2 d' none h) h1)
          · exact describeModules_registered E rest d2 d' h mo li hmem hne mn cb hmn

/-- A second call of `Describe`, after a call that returned the document `doc1`: the
service retains `doc1`; the loops of a call on a registry that holds no method the
first did not hold skip every method and leave the description as it is; and the call returns the document a
run of `Clean` on `doc1` leaves. -/
theorem Describe_again (E : Externals) (s s1 : RPCService) (doc1 : OpenRPCSpec1)
    (h : Describe E s = some (s1, some doc1, none))
    (methods2 : List (String × List (String × callback)))
    (hsub : ∀ module list, (module, list) ∈ methods2 → ∀ x ∈ list,
      ∃ list1, (module, list1) ∈ s.methods ∧ x ∈ list1) :
    s1 = { s with doc := some ⟨doc1⟩ } ∧
    describeModules E methods2 ⟨doc1⟩ = some (⟨doc1⟩, none) ∧
    Describe E { s1 with methods := methods2 } =
      some ({ doc := some ⟨(Clean E doc1).1⟩, methods := methods2 },
        some (Clean E doc1).1, none) := by
  obtain ⟨d, e, hd, hcase⟩ := Describe_cases E s s1 (some doc1) none h
  rcases hcase with ⟨rfl, _, hr, hs⟩ | ⟨_, _, hr, _⟩
  swap
  · simp at hr
  have hdoc : doc1 = (Clean E d.Doc).1 := Option.some.inj hr
  have hreg := describeModules_registered E s.methods _ d hd
  have hskip : describeModules E methods2 ⟨doc1⟩ = some (⟨doc1⟩, none) := by
    apply describeModules_skip_all
    intro module list hmem hne mn cb hmn
    obtain ⟨list1, hl1, hx⟩ := hsub module list hmem (mn, cb) hmn
    rcases hreg module list1 hl1 hne mn cb hx with h1 | h1
    · exact Or.inl h1
    · right
      rw [List.any_eq_true] at h1 ⊢
      obtain ⟨m, hm, hp⟩ := h1
      refine ⟨cleanedMethod E m, ?_, by rw [cleanedMethod_Name]; exact hp⟩
      rw [hdoc]
      simp only [Clean_eq]
      exact List.mem_map_of_mem _ hm
  refine ⟨by rw [hs, hdoc], hskip, ?_⟩
  have hs1 : s1.doc = some ⟨doc1⟩ := by rw [hs, hdoc]
  have h2 := Describe_ok E { s1 with methods := methods2 } ⟨doc1⟩
    (by simp only [hs1, Option.getD_some]; exact hskip)
  rw [h2, hs1]

/-! ## Lemmas: `getAstFunc` -/

theorem matchLitSpace_iff (lit : List Char) :
    ∀ s : List Char, matchLitSpace lit s = true ↔
      ∃ pre c post, s = pre ++ lit ++ c :: post ∧ isSpaceChar c = true
  | [] => by
    simp only [matchLitSpace, Bool.false_eq_true, false_iff]
    rintro ⟨pre, c, post, h, _⟩
    have := congrArg List.length h
    simp at this
    omega
  | x :: xs => by
    simp only [matchLitSpace, Bool.or_eq_true, Bool.and_eq_true, List.isPrefixOf_iff_prefix,
      matchLitSpace_iff lit xs]
    constructor
    · rintro (⟨⟨t, ht⟩, hd⟩ | ⟨pre, c, post, h, hc⟩)
      · rw [← ht, List.drop_left] at hd
        cases t with
        | nil => simp at hd
        | cons c post =>
          simp only [List.head?_cons, Option.any_some] at hd
          exact ⟨[], c, post, by simp [ht], hd⟩
      · exact ⟨x :: pre, c, post, by simp [h], hc⟩
    · rintro ⟨pre, c, post, h, hc⟩
      cases pre with
      | nil =>
        left
        simp only [List.nil_append] at h
        refine ⟨⟨c :: post, h.symm⟩, ?_⟩
        rw [h, List.drop_left]
        simpa using hc
      | cons p pre =>
        right
        simp only [List.cons_append, List.cons.injEq] at h
        exact ⟨pre, c, post, h.2, hc⟩

/-- What `getAstFunc` has checked of a declaration it returns. -/
theorem getAstFuncLoop_returns (cb : callback) (rfName : String) (fn : FuncDecl) :
    ∀ decls : List Decl, getAstFuncLoop cb rfName decls = some (some fn) →
      Decl.FuncDecl fn ∈ decls ∧ fn.Name = some rfName ∧
      ∃ list fnRecName, fn.Recv = some list ∧ recvName list "" = some fnRecName ∧
        reRecMatch fnRecName cb.rcvr = true
  | [], h => by simp [getAstFuncLoop] at h
  | .GenDecl :: rest, h => by
    simp only [getAstFuncLoop] at h
    obtain ⟨h1, h2⟩ := getAstFuncLoop_returns cb rfName fn rest h
    exact ⟨List.mem_cons_of_mem _ h1, h2⟩
  | .FuncDecl fn0 :: rest, h => by
    have ih : getAstFuncLoop cb rfName rest = some (some fn) →
        Decl.FuncDecl fn ∈ Decl.FuncDecl fn0 :: rest ∧ fn.Name = some rfName ∧
        ∃ list fnRecName, fn.Recv = some list ∧ recvName list "" = some fnRecName ∧
          reRecMatch fnRecName cb.rcvr = true := by
      intro h0
      obtain ⟨h1, h2⟩ := getAstFuncLoop_returns cb rfName fn rest h0
      exact ⟨List.mem_cons_of_mem _ h1, h2⟩
    simp only [getAstFuncLoop] at h
    by_cases hn : (fn0.Name == none || fn0.Name != some rfName) = true
    · rw [if_pos hn] at h
      exact ih h
    · rw [if_neg hn] at h
      cases hr : fn0.Recv with
      | none => simp [hr] at h
      | some list =>
        simp only [hr] at h
        cases hrn : recvName list "" with
        | none => simp [hrn] at h
        | some fnRecName =>
          simp only [hrn] at h
          by_cases hm : reRecMatch fnRecName cb.rcvr = true
          · simp only [hm, Bool.not_true, Bool.false_eq_true, if_false, Option.some.injEq] at h
            subst h
            simp only [Bool.or_eq_true, not_or, Bool.not_eq_true, bne_eq_false_iff_eq,
              beq_eq_false_iff_ne, ne_eq] at hn
            exact ⟨List.mem_cons_self _ _, hn.2, list, fnRecName, hr, hrn, hm⟩
          · simp only [hm, Bool.not_false, if_true] at h
            exact ih h

/-! ## Lemmas: when `makeMethod` returns -/

theorem resultSlots_append :
    ∀ l1 l2 : List (Option Field), resultSlots (l1 ++ l2) = resultSlots l1 ++ resultSlots l2
  | [], l2 => rfl
  | none :: rest, l2 => by
    show resultSlots (none :: (rest ++ l2)) = _
    simp only [resultSlots]
    exact resultSlots_append rest l2
  | some field :: rest, l2 => by
    have ih := resultSlots_append rest l2
    show resultSlots (some field :: (rest ++ l2)) = _
    simp only [resultSlots]
    split
    · exact ih
    · split
      · rw [ih, List.append_assoc]
      · rw [ih]
        rfl

/-- The result loops return without error when every slot has a return type at its
index from which `makeContentDescriptor` builds a descriptor. -/
theorem runResultSlots_total (E : Externals) (name : String) (cb : callback) :
    ∀ (slots : List (Field × Option (Option String))) (j : Nat) (res : ContentDescriptor),
      (∀ i f s, slots[i]? = some (f, s) →
        ∃ ty cd, cb.retTypes[j + i]? = some ty ∧
          makeContentDescriptor E ty f (resultIdent name s (j + i)) = some (cd, none)) →
      ∃ res', runResultSlots E name cb slots j res = some (j + slots.length, res', none)
  | [], j, res, _ => ⟨res, by simp [runResultSlots]⟩
  | (f0, s0) :: rest, j, res, h => by
    obtain ⟨ty, cd, hty, hcd⟩ := h 0 f0 s0 (by simp)
    simp only [Nat.add_zero] at hty hcd
    obtain ⟨res', hrest⟩ := runResultSlots_total E name cb rest (j + 1) cd (by
      intro i f s hslot
      obtain ⟨ty', cd', g1, g2⟩ := h (i + 1) f s (by simpa using hslot)
      have e : j + (i + 1) = j + 1 + i := by omega
      exact ⟨ty', cd', by rw [← e]; exact g1, by rw [← e]; exact g2⟩)
    refine ⟨res', ?_⟩
    simp only [runResultSlots, hty, hcd, hrest, List.length_cons]
    have e : j + 1 + rest.length = j + (rest.length + 1) := by omega
    rw [e]

/-- The function `makeMethod` panics exactly when its parameter block panics, or ends
without error and its result block panics. -/
theorem makeMethod_none_iff (E : Externals) (name : String) (cb : callback)
    (rt : runtimeFunc) (fn : FuncDecl) :
    makeMethod E name cb rt fn = none ↔
      makeMethodParams E name cb fn = none ∨
      ((∃ j ps, makeMethodParams E name cb fn = some (j, ps, none)) ∧
        makeMethodResults E name cb fn = none) := by
  unfold makeMethod
  cases hp : makeMethodParams E name cb fn with
  | none => simp
  | some r =>
    obtain ⟨j, ps, e⟩ := r
    cases e with
    | some e0 => simp
    | none =>
      cases hr : makeMethodResults E name cb fn with
      | none => simp
      | some r2 =>
        obtain ⟨j2, res, e2⟩ := r2
        cases e2 <;> simp

/-! ## Lemmas: the parameter slots -/

/-- The slots of a parameter list: the names that are not nil of the fields that are not
skipped as the context argument, and those fields themselves when they have no names. -/
theorem mem_paramSlots (cb : callback) (f : Field) (id : Option String) :
    ∀ fields : List (Option Field),
      (f, id) ∈ paramSlots cb fields ↔
        some f ∈ fields ∧ isContextField cb f = false ∧
          ((id = none ∧ f.Names = []) ∨ ∃ p, id = some p ∧ some p ∈ f.Names)
  | [] => by simp [paramSlots]
  | none :: rest => by
    simp only [paramSlots, mem_paramSlots cb f id rest, List.mem_cons, reduceCtorEq, false_or]
  | some field :: rest => by
    simp only [paramSlots, List.mem_cons, Option.some.injEq]
    by_cases hctx : isContextField cb field = true
    · rw [if_pos hctx, mem_paramSlots cb f id rest]
      constructor
      · rintro ⟨h1, h2⟩
        exact ⟨Or.inr h1, h2⟩
      · rintro ⟨h1 | h1, h2, h3⟩
        · rw [h1, hctx] at h2
          exact absurd h2 (by simp)
        · exact ⟨h1, h2, h3⟩
    · rw [if_neg hctx]
      have hctx' : isContextField cb field = false := by simpa using hctx
      by_cases hn : field.Names.length > 0
      · rw [if_pos hn, List.mem_append, mem_paramSlots cb f id rest]
        have hne : field.Names ≠ [] := by
          intro h0
          rw [h0] at hn
          simp at hn
        constructor
        · rintro (h | ⟨h1, h2⟩)
          · simp only [List.mem_map, List.mem_filterMap, id_eq, exists_eq_right,
              Prod.mk.injEq] at h
            obtain ⟨p, hp, rfl, rfl⟩ := h
            exact ⟨Or.inl rfl, hctx', Or.inr ⟨p, rfl, hp⟩⟩
          · exact ⟨Or.inr h1, h2⟩
        · rintro ⟨h1 | h1, h2, h3⟩
          · subst h1
            rcases h3 with ⟨_, h3⟩ | ⟨p, rfl, hp⟩
            · exact absurd h3 hne
            · left
              exact List.mem_map.2 ⟨p, List.mem_filterMap.2 ⟨some p, hp, rfl⟩, rfl⟩
          · exact Or.inr ⟨h1, h2, h3⟩
      · rw [if_neg hn, List.mem_cons, mem_paramSlots cb f id rest]
        have hnil : field.Names = [] := by
          cases hN : field.Names with
          | nil => rfl
          | cons a l =>
            rw [hN] at hn
            simp at hn
        constructor
        · rintro (h | ⟨h1, h2⟩)
          · obtain ⟨rfl, rfl⟩ := Prod.mk.inj h
            exact ⟨Or.inl rfl, hctx', Or.inl ⟨rfl, hnil⟩⟩
          · exact ⟨Or.inr h1, h2⟩
        · rintro ⟨h1 | h1, h2, h3⟩
          · subst h1
            rcases h3 with ⟨rfl, _⟩ | ⟨p, _, hp⟩
            · exact Or.inl rfl
            · rw [hnil] at hp
              simp at hp
          · exact Or.inr ⟨h1, h2, h3⟩

/-- Without a field that is skipped as the context argument the slots are those of a
callback that is not marked `hasCtx`. -/
theorem paramSlots_no_context (cb : callback) :
    ∀ fields : List (Option Field),
      (∀ field, some field ∈ fields → isContextField cb field = false) →
      paramSlots cb fields = paramSlots { cb with hasCtx := false } fields
  | [], _ => rfl
  | none :: rest, h => by
    simp only [paramSlots]
    exact paramSlots_no_context cb rest (fun f hf => h f (List.mem_cons_of_mem _ hf))
  | some field :: rest, h => by
    have ih := paramSlots_no_context cb rest (fun f hf => h f (List.mem_cons_of_mem _ hf))
    have h0 : isContextField { cb with hasCtx := false } field = false := by
      simp [isContextField]
    simp only [paramSlots, h field (List.mem_cons_self _ _), h0, ih, Bool.false_eq_true,
      if_false]

/-- The parameter loops on slots that are not more than the argument types left, each
with an argument type from which `makeContentDescriptor` builds a descriptor: they
return without error, with one descriptor for each slot, in order. -/
theorem runParamSlots_total (E : Externals) (name : String) (cb : callback) :
    ∀ (slots : List (Field × Option String)) (j : Nat) (ps : List ContentDescriptor),
      j + slots.length ≤ cb.argTypes.length →
      (∀ i f id ty, slots[i]? = some (f, id) → cb.argTypes[j + i]? = some ty →
        ∃ cd, makeContentDescriptor E ty f ⟨id, name ++ "Parameter" ++ toString (j + i)⟩ =
          some (cd, none)) →
      ∃ new, runParamSlots E name cb slots j ps = some (j + slots.length, ps ++ new, none) ∧
        new.length = slots.length ∧
        ∀ i f id, slots[i]? = some (f, id) →
          ∃ ty cd, cb.argTypes[j + i]? = some ty ∧
            makeContentDescriptor E ty f ⟨id, name ++ "Parameter" ++ toString (j + i)⟩ =
              some (cd, none) ∧
            new[i]? = some cd
  | [], j, ps, _, _ => ⟨[], by simp [runParamSlots]⟩
  | (f0, id0) :: rest, j, ps, hlen, hok => by
    simp only [List.length_cons] at hlen
    have hj : j < cb.argTypes.length := by omega
    have hg : ¬ ((j : Int) > (cb.argTypes.length : Int) - 1) := by omega
    obtain ⟨ty, hty⟩ : ∃ ty, cb.argTypes[j]? = some ty :=
      ⟨cb.argTypes[j], List.getElem?_eq_getElem hj⟩
    obtain ⟨cd, hcd⟩ := hok 0 f0 id0 ty (by simp) (by simpa using hty)
    simp only [Nat.add_zero] at hcd
    obtain ⟨new, hrun, hnl, hnew⟩ := runParamSlots_total E name cb rest (j + 1) (ps ++ [cd])
      (by omega) (by
        intro i f id ty' hslot hty'
        have e : j + 1 + i = j + (i + 1) := by omega
        rw [e] at hty' ⊢
        exact hok (i + 1) f id ty' (by simpa using hslot) hty')
    refine ⟨cd :: new, ?_, by simp [hnl], ?_⟩
    · simp only [runParamSlots, hg, decide_False, Bool.and_false, Bool.false_eq_true, if_false,
        hty, hcd, hrun, List.length_cons, List.append_assoc, List.singleton_append]
      have e : j + 1 + rest.length = j + (rest.length + 1) := by omega
      rw [e]
    · intro i f id hslot
      cases i with
      | zero =>
        simp only [List.getElem?_cons_zero, Option.some.injEq, Prod.mk.injEq] at hslot
        obtain ⟨rfl, rfl⟩ := hslot
        exact ⟨ty, cd, by simpa using hty, by simpa using hcd, by simp⟩
      | succ i =>
        obtain ⟨ty', cd', g1, g2, g3⟩ := hnew i f id (by simpa using hslot)
        have e : j + 1 + i = j + (i + 1) := by omega
        rw [e] at g1 g2
        exact ⟨ty', cd', g1, g2, by simpa using g3⟩

/-! ## Lemmas: the loops of `Describe` as one loop over entries -/

theorem RegisterMethod_built (E : Externals) (d d' : OpenRPCDescription) (name : String)
    (cb : callback) :
    RegisterMethod E d name cb = some (d', none) ↔
      ∃ m, builtMethod E name cb = some m ∧
        d' = ⟨{ d.Doc with Methods := sortSlice (d.Doc.Methods ++ [m]) }⟩ := by
  constructor
  · intro h
    obtain ⟨astFile, fn, method, hpf, hg, hm, hd⟩ := RegisterMethod_ok E d d' name cb h
    refine ⟨method, ?_, hd⟩
    unfold builtMethod
    simp only [hpf, hg, hm]
  · rintro ⟨m, h, rfl⟩
    unfold builtMethod at h
    unfold RegisterMethod
    cases hpf : E.ParseFile cb.fn.File with
    | error e => simp [hpf] at h
    | ok astFile =>
      simp only [hpf] at h ⊢
      cases hg : getAstFunc cb astFile cb.fn with
      | none => simp [hg] at h
      | some r =>
        cases r with
        | none => simp [hg] at h
        | some fn =>
          simp only [hg] at h ⊢
          cases hm : makeMethod E name cb cb.fn fn with
          | none => simp [hm] at h
          | some r2 =>
            obtain ⟨method, e⟩ := r2
            cases e with
            | some e0 => simp [hm] at h
            | none =>
              simp only [hm, Option.some.injEq] at h ⊢
              rw [h]

theorem builtMethod_Name (E : Externals) (name : String) (cb : callback) (m : Method)
    (h : builtMethod E name cb = some m) : m.Name = name := by
  have hr := (RegisterMethod_built E NewOpenRPCDescription _ name cb).2 ⟨m, h, rfl⟩
  obtain ⟨_, fn, method, _, _, hm, hd⟩ := RegisterMethod_ok E _ _ name cb hr
  obtain ⟨m', hname, hiff⟩ := mem_of_RegisterMethod E _ _ name cb hr
  have hmem : m ∈ sortSlice (NewOpenRPCDescription.Doc.Methods ++ [m]) :=
    (sortSlice_perm _).mem_iff.2 (by simp)
  rcases (hiff m).1 hmem with h0 | h0
  · simp [NewOpenRPCDescription] at h0
  · rw [h0]
    exact hname

theorem describeEntry_rpc (E : Externals) (module : String) (h : (module == "rpc") = true) :
    ∀ list : List (String × callback),
      (list.map (fun e => (module, e.1, e.2))).filterMap (describeEntry E) = []
  | [] => rfl
  | e :: rest => by
    simp only [List.map_cons, List.filterMap_cons, describeEntry, h, if_true]
    exact describeEntry_rpc E module h rest

theorem describeList_entries (E : Externals) (module : String)
    (hrpc : ¬ (module == "rpc") = true) (restEntries : List (String × callback)) :
    ∀ (list : List (String × callback)) (d : OpenRPCDescription),
      (match describeList E module list d with
        | none => none
        | some (d, some err) => some (d, some err)
        | some (d, none) => registerAll E restEntries d) =
      registerAll E
        ((list.map (fun e => (module, e.1, e.2))).filterMap (describeEntry E) ++ restEntries) d
  | [], d => by simp [describeList]
  | (methodName, method) :: rest, d => by
    have ih := describeList_entries E module hrpc restEntries rest
    simp only [describeList, List.map_cons, List.filterMap_cons, describeEntry, qualifiedName,
      if_neg hrpc]
    by_cases hskip : (method.isSubscribe ||
        strContains (module ++ E.serviceMethodSeparator ++ methodName)
          E.subscribeMethodSuffix) = true
    · simp only [if_pos hskip]
      exact ih d
    · simp only [if_neg hskip, List.cons_append, registerAll]
      by_cases hdup : (d.Doc.Methods.any fun m =>
          m.Name == module ++ E.serviceMethodSeparator ++ methodName) = true
      · simp only [if_pos hdup]
        exact ih d
      · simp only [if_neg hdup]
        cases hr : RegisterMethod E d (module ++ E.serviceMethodSeparator ++ methodName)
            method with
        | none => rfl
        | some r =>
          obtain ⟨d1, e1⟩ := r
          cases e1 with
          | some e0 => rfl
          | none => exact ih d1

/-- The loops of `Describe` are the loop `registerAll` over the entries of the
registry that are not skipped. -/
theorem describeModules_entries (E : Externals) :
    ∀ (methods : List (String × List (String × callback))) (d : OpenRPCDescription),
      describeModules E methods d =
        registerAll E ((registryEntries methods).filterMap (describeEntry E)) d
  | [], d => rfl
  | (module, list) :: rest, d => by
    have ih := describeModules_entries E rest
    simp only [describeModules, registryEntries, List.filterMap_append]
    by_cases hrpc : (module == "rpc") = true
    · rw [if_pos hrpc, describeEntry_rpc E module hrpc list, List.nil_append]
      exact ih d
    · rw [if_neg hrpc, ← describeList_entries E module hrpc _ list d]
      simp only [ih]

/-! ## Lemmas: the order of the registrations -/

theorem filterMap_map_sublist {α β γ : Type} (g : α → Option β) (p : β → γ) (q : α → γ)
    (h : ∀ a b, g a = some b → p b = q a) :
    ∀ l : List α, ((l.filterMap g).map p).Sublist (l.map q)
  | [] => List.Sublist.slnil
  | a :: l => by
    cases hg : g a with
    | none =>
      simp only [List.filterMap_cons, hg, List.map_cons]
      exact (filterMap_map_sublist g p q h l).cons _
    | some b =>
      simp only [List.filterMap_cons, hg, List.map_cons, h a b hg]
      exact (filterMap_map_sublist g p q h l).cons₂ _

/-- What a run of `registerAll` without error has done when the names of the entries are
pairwise distinct and none of them is in the description: every entry was registered,
and the methods are those of the description and those built for the entries. -/
theorem registerAll_ok (E : Externals) :
    ∀ (entries : List (String × callback)) (d d' : OpenRPCDescription),
      (entries.map Prod.fst).Nodup →
      (∀ e ∈ entries, ∀ m ∈ d.Doc.Methods, m.Name ≠ e.1) →
      registerAll E entries d = some (d', none) →
      (∀ e ∈ entries, ∃ m, builtMethod E e.1 e.2 = some m) ∧
      List.Perm d'.Doc.Methods
        (d.Doc.Methods ++ entries.filterMap (fun e => builtMethod E e.1 e.2)) ∧
      (List.Sorted (fun a b : Method => a.Name ≤ b.Name) d.Doc.Methods →
        List.Sorted (fun a b : Method => a.Name ≤ b.Name) d'.Doc.Methods) ∧
      d' = ⟨{ d.Doc with Methods := d'.Doc.Methods }⟩
  | [], d, d', _, _, h => by
    simp only [registerAll, Option.some.injEq, Prod.mk.injEq, and_true] at h
    subst h
    exact ⟨by simp, by simp, fun hs => hs, rfl⟩
  | (name, cb) :: rest, d, d', hnd, hdis, h => by
    have hdup : ¬ (d.Doc.Methods.any fun m => m.Name == name) = true := by
      rw [List.any_eq_true]
      rintro ⟨m, hm, hn⟩
      exact hdis (name, cb) (List.mem_cons_self _ _) m hm (by simpa using hn)
    simp only [registerAll, if_neg hdup] at h
    cases hr : RegisterMethod E d name cb with
    | none => simp [hr] at h
    | some r =>
      obtain ⟨d1, e1⟩ := r
      cases e1 with
      | some e0 => simp [hr] at h
      | none =>
        simp only [hr] at h
        obtain ⟨m, hb, hd1⟩ := (RegisterMethod_built E d d1 name cb).1 hr
        have hname := builtMethod_Name E name cb m hb
        have hperm1 : List.Perm d1.Doc.Methods (d.Doc.Methods ++ [m]) := by
          rw [hd1]
          exact sortSlice_perm _
        simp only [List.map_cons, List.nodup_cons, List.mem_map, Prod.exists,
          exists_and_right, exists_eq_right, not_exists] at hnd
        obtain ⟨g1, g2, g3, g4⟩ := registerAll_ok E rest d1 d' hnd.2 (by
          intro e he m' hm'
          rcases List.mem_append.1 (hperm1.mem_iff.1 hm') with h0 | h0
          · exact hdis e (List.mem_cons_of_mem _ he) m' h0
          · rw [List.mem_singleton.1 h0, hname]
            intro heq
            exact hnd.1 e.2 (by rw [heq]; exact he)) h
        refine ⟨?_, ?_, ?_, ?_⟩
        · intro e he
          rcases List.mem_cons.1 he with rfl | he
          · exact ⟨m, hb⟩
          · exact g1 e he
        · simp only [List.filterMap_cons, hb]
          refine g2.trans ?_
          refine (hperm1.append_right _).trans ?_
          simp
        · intro _
          exact g3 (by rw [hd1]; exact sortSlice_sorted _)
        · rw [g4, hd1]

/-- The loop `registerAll` returns without error when every entry can be registered,
the names of the entries are pairwise distinct and none of them is in the description. -/
theorem registerAll_total (E : Externals) :
    ∀ (entries : List (String × callback)) (d : OpenRPCDescription),
      (entries.map Prod.fst).Nodup →
      (∀ e ∈ entries, ∀ m ∈ d.Doc.Methods, m.Name ≠ e.1) →
      (∀ e ∈ entries, ∃ m, builtMethod E e.1 e.2 = some m) →
      ∃ d', registerAll E entries d = some (d', none)
  | [], d, _, _, _ => ⟨d, rfl⟩
  | (name, cb) :: rest, d, hnd, hdis, hall => by
    have hdup : ¬ (d.Doc.Methods.any fun m => m.Name == name) = true := by
      rw [List.any_eq_true]
      rintro ⟨m, hm, hn⟩
      exact hdis (name, cb) (List.mem_cons_self _ _) m hm (by simpa using hn)
    obtain ⟨m, hb⟩ := hall (name, cb) (List.mem_cons_self _ _)
    have hname := builtMethod_Name E name cb m hb
    have hr := (RegisterMethod_built E d _ name cb).2 ⟨m, hb, rfl⟩
    simp only [List.map_cons, List.nodup_cons, List.mem_map, Prod.exists,
      exists_and_right, exists_eq_right, not_exists] at hnd
    obtain ⟨d', hd'⟩ := registerAll_total E rest
      ⟨{ d.Doc with Methods := sortSlice (d.Doc.Methods ++ [m]) }⟩ hnd.2 (by
        intro e he m' hm'
        rcases List.mem_append.1 ((sortSlice_perm _).mem_iff.1 hm') with h0 | h0
        · exact hdis e (List.mem_cons_of_mem _ he) m' h0
        · rw [List.mem_singleton.1 h0, hname]
          intro heq
          exact hnd.1 e.2 (by rw [heq]; exact he))
      (fun e he => hall e (List.mem_cons_of_mem _ he))
    exact ⟨d', by simp only [registerAll, if_neg hdup, hr, hd']⟩

/-- Two lists of methods with the same members, both in ascending order of `Name`, with
pairwise distinct names, are equal. -/
theorem sorted_methods_unique (l1 l2 : List Method) (hp : List.Perm l1 l2)
    (h1 : List.Sorted (fun a b : Method => a.Name ≤ b.Name) l1)
    (h2 : List.Sorted (fun a b : Method => a.Name ≤ b.Name) l2)
    (hn : (l1.map fun m => m.Name).Nodup) : l1 = l2 := by
  have hn2 : (l2.map fun m => m.Name).Nodup := (hp.map _).nodup_iff.1 hn
  have strict : ∀ l : List Method, List.Sorted (fun a b : Method => a.Name ≤ b.Name) l →
      (l.map fun m => m.Name).Nodup → List.Sorted (fun a b : Method => a.Name < b.Name) l := by
    intro l hs hnd
    have hne : l.Pairwise (fun a b : Method => a.Name ≠ b.Name) := List.pairwise_map.1 hnd
    exact (List.Pairwise.and hs hne).imp (fun h => lt_of_le_of_ne h.1 h.2)
  haveI : IsAntisymm Method (fun a b : Method => a.Name < b.Name) :=
    ⟨fun a b hab hba => absurd hba (lt_asymm hab)⟩
  exact List.eq_of_perm_of_sorted hp (strict l1 h1 hn) (strict l2 h2 hn2)

/-- From a description without methods, the loop `registerAll` over entries with
pairwise distinct names ends with the same description for every order of the entries. -/
theorem registerAll_perm (E : Externals) (entries1 entries2 : List (String × callback))
    (d d1 : OpenRPCDescription) (hd : d.Doc.Methods = [])
    (hperm : List.Perm entries1 entries2) (hnd : (entries1.map Prod.fst).Nodup)
    (h1 : registerAll E entries1 d = some (d1, none)) :
    registerAll E entries2 d = some (d1, none) := by
  have hdis : ∀ entries : List (String × callback),
      ∀ e ∈ entries, ∀ m ∈ d.Doc.Methods, m.Name ≠ e.1 := by
    intro _ e _ m hm
    rw [hd] at hm
    simp at hm
  have hnd2 : (entries2.map Prod.fst).Nodup := (hperm.map _).nodup_iff.1 hnd
  obtain ⟨a1, a2, a3, a4⟩ := registerAll_ok E entries1 d d1 hnd (hdis entries1) h1
  obtain ⟨d2, h2⟩ := registerAll_total E entries2 d hnd2 (hdis entries2)
    (fun e he => a1 e (hperm.mem_iff.2 he))
  obtain ⟨_, b2, b3, b4⟩ := registerAll_ok E entries2 d d2 hnd2 (hdis entries2) h2
  have hs0 : List.Sorted (fun a b : Method => a.Name ≤ b.Name) d.Doc.Methods := by
    rw [hd]
    exact List.sorted_nil
  have hp12 : List.Perm d1.Doc.Methods d2.Doc.Methods :=
    a2.trans (((hperm.filterMap _).append_left _).trans b2.symm)
  have hnames : (d1.Doc.Methods.map fun m => m.Name).Nodup := by
    rw [(a2.map _).nodup_iff, hd, List.nil_append]
    exact (filterMap_map_sublist (fun e : String × callback => builtMethod E e.1 e.2)
      (fun m => m.Name) Prod.fst (fun e m h => builtMethod_Name E e.1 e.2 m h)
      entries1).nodup hnd
  have heq := sorted_methods_unique _ _ hp12 (a3 hs0) (b3 hs0) hnames
  rw [h2, b4, a4, heq]

/-! ## Lemmas: the result slots -/

/-- No slot belongs to a result field whose type text contains `error`. -/
theorem mem_resultSlots (f : Field) (s : Option (Option String)) :
    ∀ fields : List (Option Field), (f, s) ∈ resultSlots fields →
      some f ∈ fields ∧ strContains f.typeText "error" = false
  | [], h => by simp [resultSlots] at h
  | none :: rest, h => by
    simp only [resultSlots] at h
    obtain ⟨h1, h2⟩ := mem_resultSlots f s rest h
    exact ⟨List.mem_cons_of_mem _ h1, h2⟩
  | some field :: rest, h => by
    have ih : (f, s) ∈ resultSlots rest →
        some f ∈ some field :: rest ∧ strContains f.typeText "error" = false := by
      intro h0
      obtain ⟨h1, h2⟩ := mem_resultSlots f s rest h0
      exact ⟨List.mem_cons_of_mem _ h1, h2⟩
    simp only [resultSlots] at h
    by_cases herr : strContains field.typeText "error" = true
    · rw [if_pos herr] at h
      exact ih h
    · rw [if_neg herr] at h
      have herr' : strContains field.typeText "error" = false := by simpa using herr
      by_cases hn : field.Names.length > 0
      · rw [if_pos hn, List.mem_append] at h
        rcases h with h | h
        · simp only [List.mem_map, Prod.mk.injEq] at h
          obtain ⟨_, _, rfl, _⟩ := h
          exact ⟨List.mem_cons_self _ _, herr'⟩
        · exact ih h
      · rw [if_neg hn, List.mem_cons] at h
        rcases h with h | h
        · obtain ⟨rfl, _⟩ := Prod.mk.inj h
          exact ⟨List.mem_cons_self _ _, herr'⟩
        · exact ih h

/-! # The claims -/

/-! ## C1 -/

/-- C1, counterexample: `Clean` is not idempotent. On the document `integerDoc`, whatever
the serializer and the digest are, the components table after two runs of `Clean` is not
the table after one run: the first run binds the key of the integer schema to that
schema, the second run empties the table and finds only the reference the first run
left in the descriptor. This holds when the traversal runs the callback on that
reference, and it holds when the traversal passes over it. -/
theorem Clean_not_idempotent :
    (¬ ∃ E : Externals, ∀ key : String,
        (Clean E (Clean E integerDoc).1).1.Schemas.lookup key =
          (Clean E integerDoc).1.Schemas.lookup key) ∧
    (¬ ∃ E : Externals, ∀ key : String,
        (CleanSkipping E (CleanSkipping E integerDoc).1).1.Schemas.lookup key =
          (CleanSkipping E integerDoc).1.Schemas.lookup key) := by
  constructor
  · rintro ⟨E, h⟩
    have h1 := h (uniqueKeyFn E integerD)
    simp only [Clean_eq, integerDoc, methodEntries, descriptorEntries, Method.descriptors,
      List.map_cons, List.map_nil, List.nil_append, List.append_nil, cleanedMethod,
      cleanedDescriptor] at h1
    obtain ⟨key, hkey⟩ := cleaned_is_reference E integerD
    rw [hkey, tableEntries_refSchema] at h1
    simp only [integerD, stripDefinitions, stripDefinitionsProps, stripDefinitionsList,
      tableEntries, tableEntriesProps, tableEntriesList, referencedProps, referencedList,
      List.nil_append, List.lookup_cons, List.lookup_nil, beq_self_eq_true] at h1
    split at h1
    · simp [refSchema] at h1
    · simp at h1
  · rintro ⟨E, h⟩
    have h1 := h (uniqueKeyFn E integerD)
    rw [CleanSkipping_reference E _ (CleanSkipping_allReferences E integerDoc)] at h1
    have hT1 : ∀ st, Traverse (unlessReference removeDefinitions) integerD st =
        (integerD, st, none) := fun _ => rfl
    have hT2 : ∀ st, Traverse (unlessReference (referencer E)) integerD st =
        referencer E integerD st := fun _ => rfl
    have h2 : (CleanSkipping E integerDoc).1.Schemas = [(uniqueKeyFn E integerD, integerD)] := by
      simp only [CleanSkipping, integerDoc, cleanMethodsSkipping, cleanParamsSkipping,
        cleanSchemaSkipping, hT1, hT2, NewAnalysisT, referencer_eq]
    rw [h2] at h1
    simp at h1

/-- C1, as amended: every run of `Clean` discards the components table it is given and
builds the table from the schemas the descriptors hold at that time. After one run every
schema of a descriptor is a pure reference, so the table a second run leaves binds no
schema that is not a pure reference: the schemas the first run had put there are gone.
This holds when the traversal runs the callback on a pure reference, and it holds when
the traversal passes over a pure reference, the reading under which the second run
leaves the methods as they are and the table empty. No run reports an error. -/
theorem Clean_second_run (E : Externals) (doc : OpenRPCSpec1) :
    (∀ t, Clean E { doc with Schemas := t } = Clean E doc ∧
      CleanSkipping E { doc with Schemas := t } = CleanSkipping E doc) ∧
    (allReferences (Clean E doc).1.Methods ∧
      allReferences (CleanSkipping E doc).1.Methods) ∧
    (∀ key sch, (Clean E (Clean E doc).1).1.Schemas.lookup key = some sch →
      sch.isReference = true) ∧
    CleanSkipping E (CleanSkipping E doc).1 =
      ({ (CleanSkipping E doc).1 with Schemas := [] }, none) ∧
    (Clean E doc).2 = none ∧ (Clean E (Clean E doc).1).2 = none ∧
    (CleanSkipping E doc).2 = none := by
  refine ⟨fun t => ⟨rfl, rfl⟩, ⟨Clean_allReferences E doc, CleanSkipping_allReferences E doc⟩,
    ?_, CleanSkipping_reference E _ (CleanSkipping_allReferences E doc), ?_, ?_, rfl⟩
  · intro key sch h
    have hmem := mem_of_lookup key sch _ h
    rw [Clean_eq E (Clean E doc).1] at hmem
    exact methodEntries_references E _ (Clean_allReferences E doc) _ hmem
  · simp only [Clean_eq]
  · simp only [Clean_eq]

/-! ## C2 -/

/-- C2, counterexample: the content key depends on how the type is written. For the one
Go type `common.Hash`, a parameter written `common.Hash` gets the description
`github.com/ethereum/go-ethereum/common:common.Hash` and one written `ethcommon.Hash`
the description `github.com/ethereum/go-ethereum/common:ethcommon.Hash`, and in no
environment does `uniqueKeyFn` give the two schemas the same key: the keys start with
`common.Hash_` and `ethcommon.Hash_`. -/
theorem same_type_different_keys :
    (fun E : Externals =>
        (makeContentDescriptor E commonHash hashFieldCommon ⟨some "hash", ""⟩).map
          fun r => (r.1.Schema.Description, r.2)) =
      (fun _ => some ("github.com/ethereum/go-ethereum/common:common.Hash", none)) ∧
    (fun E : Externals =>
        (makeContentDescriptor E commonHash hashFieldEthcommon ⟨some "hash", ""⟩).map
          fun r => (r.1.Schema.Description, r.2)) =
      (fun _ => some ("github.com/ethereum/go-ethereum/common:ethcommon.Hash", none)) ∧
    ¬ ∃ (E : Externals) (cd1 cd2 : ContentDescriptor),
        makeContentDescriptor E commonHash hashFieldCommon ⟨some "hash", ""⟩ = some (cd1, none) ∧
        makeContentDescriptor E commonHash hashFieldEthcommon ⟨some "hash", ""⟩
          = some (cd2, none) ∧
        uniqueKeyFn E cd1.Schema = uniqueKeyFn E cd2.Schema := by
  refine ⟨rfl, rfl, ?_⟩
  rintro ⟨E, cd1, cd2, h1, h2, hk⟩
  have e1 : cd1.Schema =
      commonHashD.setDescription "github.com/ethereum/go-ethereum/common:common.Hash" := by
    have : makeContentDescriptor E commonHash hashFieldCommon ⟨some "hash", ""⟩ =
        some (⟨"hash", "", "",
          commonHashD.setDescription "github.com/ethereum/go-ethereum/common:common.Hash"⟩,
          none) := rfl
    rw [this] at h1
    simp only [Option.some.injEq, Prod.mk.injEq, and_true] at h1
    rw [← h1]
  have e2 : cd2.Schema =
      commonHashD.setDescription "github.com/ethereum/go-ethereum/common:ethcommon.Hash" := by
    have : makeContentDescriptor E commonHash hashFieldEthcommon ⟨some "hash", ""⟩ =
        some (⟨"hash", "", "",
          commonHashD.setDescription "github.com/ethereum/go-ethereum/common:ethcommon.Hash"⟩,
          none) := rfl
    rw [this] at h2
    simp only [Option.some.injEq, Prod.mk.injEq, and_true] at h2
    rw [← h2]
  rw [e1, e2] at hk
  simp only [uniqueKeyFn, commonHashD, Schema.setDescription, Schema.Description,
    lastColonToken_common, lastColonToken_ethcommon] at hk
  have c1 : ("common.Hash" != "" && !strContains "common.Hash" " ") = true := by decide
  have c2 : ("ethcommon.Hash" != "" && !strContains "ethcommon.Hash" " ") = true := by decide
  rw [if_pos c1, if_pos c2] at hk
  have hd := congrArg String.data hk
  simp only [String.data_append] at hd
  have hh := congrArg List.head? hd
  simp at hh

/-- C2, as amended: two descriptors that `makeContentDescriptor` builds from the same Go
type get the same schema whenever it derives the same description text from the two
declarations, which it does when the type is written as the same selector expression in
both, as a pointer in both, or as an expression of another form in both. `Clean` then
computes the same content key for the two at the root and leaves the same reference in
the place of both, in whatever state of the analysis and of the components table each
is reached, and the table holds the node under that key afterwards. -/
theorem same_type_same_key (E : Externals) (ty : GoType) (field1 field2 : Field)
    (ident1 ident2 : argIdent) (cd1 cd2 : ContentDescriptor)
    (h1 : makeContentDescriptor E ty field1 ident1 = some (cd1, none))
    (h2 : makeContentDescriptor E ty field2 ident2 = some (cd2, none))
    (hform : schemaTypeOf ty field1.Type_ = schemaTypeOf ty field2.Type_) :
    cd1.Schema = cd2.Schema ∧
    uniqueKeyFn E (canonicalNode E (stripDefinitions cd1.Schema)) =
      uniqueKeyFn E (canonicalNode E (stripDefinitions cd2.Schema)) ∧
    ∀ st1 st2 : CleanState,
      (cleanSchema E cd1.Schema st1).1 = (cleanSchema E cd2.Schema st2).1 ∧
      (cleanSchema E cd1.Schema st1).1 =
        refSchema (uniqueKeyFn E (canonicalNode E (stripDefinitions cd1.Schema))) ∧
      (uniqueKeyFn E (canonicalNode E (stripDefinitions cd1.Schema)),
        canonicalNode E (stripDefinitions cd1.Schema)) ∈ (cleanSchema E cd1.Schema st1).2.2 := by
  obtain ⟨_, st1, sch1, a1, b1, c1⟩ := makeContentDescriptor_ok E ty field1 ident1 cd1 h1
  obtain ⟨_, st2, sch2, a2, b2, c2⟩ := makeContentDescriptor_ok E ty field2 ident2 cd2 h2
  have hst : st1 = st2 := by
    rw [hform, a2] at a1
    exact (Option.some.inj a1).symm
  have hsch : sch1 = sch2 := by
    rw [b2] at b1
    exact (Option.some.inj b1).symm
  have heq : cd1.Schema = cd2.Schema := by rw [c1, c2, hst, hsch]
  refine ⟨heq, by rw [heq], ?_⟩
  rintro ⟨a1, t1⟩ ⟨a2, t2⟩
  simp only [cleanSchema_eq, cleaned_eq, heq, true_and]
  obtain ⟨rest, hrest⟩ := tableEntries_head E (stripDefinitions cd2.Schema)
  rw [hrest]
  simp

/-- C2 as amended, at a concrete input: the parameter `a *big.Int` and the unnamed
result `*big.Int` of `Add` get the same schema, key and reference. -/
theorem same_type_same_key_witness :
    makeContentDescriptor versionExternals (.Ptr bigInt) (bigIntField [some "a"])
        ⟨some "a", "math_addParameter0"⟩ = some (⟨"a", "", "", bigIntSchema⟩, none) ∧
    makeContentDescriptor versionExternals (.Ptr bigInt) (bigIntField [])
        ⟨none, "math_addResult"⟩ = some (⟨"math_addResult", "", "", bigIntSchema⟩, none) ∧
    uniqueKeyFn versionExternals (canonicalNode versionExternals (stripDefinitions bigIntSchema)) =
      uniqueKeyFn versionExternals
        (canonicalNode versionExternals (stripDefinitions bigIntSchema)) ∧
    ∀ st1 st2 : CleanState,
      (cleanSchema versionExternals bigIntSchema st1).1 =
        (cleanSchema versionExternals bigIntSchema st2).1 ∧
      (cleanSchema versionExternals bigIntSchema st1).1 =
        refSchema (uniqueKeyFn versionExternals
          (canonicalNode versionExternals (stripDefinitions bigIntSchema))) ∧
      (uniqueKeyFn versionExternals
          (canonicalNode versionExternals (stripDefinitions bigIntSchema)),
        canonicalNode versionExternals (stripDefinitions bigIntSchema)) ∈
          (cleanSchema versionExternals bigIntSchema st1).2.2 :=
  ⟨rfl, rfl,
    (same_type_same_key versionExternals (.Ptr bigInt) (bigIntField [some "a"]) (bigIntField [])
      ⟨some "a", "math_addParameter0"⟩ ⟨none, "math_addResult"⟩
      ⟨"a", "", "", bigIntSchema⟩ ⟨"math_addResult", "", "", bigIntSchema⟩ rfl rfl rfl).2⟩

/-! ## C3 -/

/-- C3: overrides dominate structural reflection. For every entry of the override table
`OpenRPCJSONSchemaTypeMapper` returns that entry's schema, never `nil` and never the
answer of the kind switch: the 256-bit hash type (an array, for which the switch answers
`nil`) yields the string schema with the pattern of 64 hexadecimal digits, and the block
number type (an `int64`, for which the switch answers the integer schema) yields its
union schema. -/
theorem overrides_dominate :
    dict.map (fun d => OpenRPCJSONSchemaTypeMapper d.t) = dict.map (fun d => some (some d.j)) ∧
    OpenRPCJSONSchemaTypeMapper commonHash =
      some (some (Schema.mk "keccak" ["string"] "^0x[a-fA-F\\d]{64}$"
        "Hex representation of a Keccak 256 hash" [] [] [] [] [] "")) ∧
    kindSwitch commonHash.Kind = some none ∧
    OpenRPCJSONSchemaTypeMapper blockNumber = some (some blockNumberOrTagD) ∧
    kindSwitch blockNumber.Kind = some (some integerD) :=
  ⟨rfl, rfl, rfl, rfl, rfl⟩

/-! ## C4 -/

/-- C4: when the declared parameters of a method are unnamed, every parameter
descriptor of the method `makeMethod` returns has the synthetic name: the descriptor at
index `i` is the one `makeContentDescriptor` builds from argument type `i` and the
`i`-th declared field that is not skipped as the context argument, under the name
`<name>Parameter<i>`; without error there is one descriptor for each such field. And
`makeMethod` does return such a method when every such field has an argument type that
`makeContentDescriptor` accepts and the declaration has no result list. -/
theorem synthetic_parameter_names (E : Externals) (name : String) (cb : callback)
    (rt : runtimeFunc) (fn : FuncDecl) (fields : List (Option Field))
    (hP : fn.Type_.Params = some fields) (hU : ∀ fd, some fd ∈ fields → fd.Names = []) :
    (∀ m err, makeMethod E name cb rt fn = some (m, err) →
      (∀ (i : Nat) cd, m.Params[i]? = some cd →
        cd.Name = name ++ "Parameter" ++ toString i ∧
        ∃ fd ty, (declaredParams cb fields)[i]? = some fd ∧ cb.argTypes[i]? = some ty ∧
          makeContentDescriptor E ty fd ⟨none, name ++ "Parameter" ++ toString i⟩ =
            some (cd, none)) ∧
      (err = none → m.Params.length = (declaredParams cb fields).length)) ∧
    ((∀ (i : Nat) fd, (declaredParams cb fields)[i]? = some fd →
        ∃ ty cd, cb.argTypes[i]? = some ty ∧
          makeContentDescriptor E ty fd ⟨none, name ++ "Parameter" ++ toString i⟩ =
            some (cd, none)) →
      fn.Type_.Results = none →
      ∃ m, makeMethod E name cb rt fn = some (m, none) ∧
        m.Params.length = (declaredParams cb fields).length) := by
  constructor
  · intro m err h
    obtain ⟨_, j, e, hp, hcase⟩ := makeMethod_returns E name cb rt fn m err h
    simp only [makeMethodParams, hP] at hp
    obtain ⟨new, h1, _, h3, h4⟩ := paramFields_unnamed E name cb fields 0 [] j m.Params e hU hp
    simp only [List.nil_append] at h1
    subst h1
    constructor
    · intro i cd hi
      obtain ⟨fd, ty, g1, g2, g3⟩ := h3 i cd hi
      simp only [Nat.zero_add] at g2 g3
      refine ⟨?_, fd, ty, g1, g2, g3⟩
      have := makeContentDescriptor_name E ty fd _ cd g3
      simpa [argIdent.Name] using this
    · intro herr
      rcases hcase with ⟨he, h5, _⟩ | ⟨he, _⟩
      · subst herr
        rw [← h5] at he
        simp at he
      · exact h4 he
  · intro hA hR
    obtain ⟨ps', h⟩ := paramFields_unnamed_total E name cb fields 0 [] hU
      (by simpa using hA)
    have hlen := paramFields_unnamed E name cb fields 0 [] _ ps' none hU h
    obtain ⟨new, h1, _, _, h4⟩ := hlen
    simp only [List.nil_append] at h1
    refine ⟨deferredNullResult
      { newMethod name rt fn with Params := ps', Result := ContentDescriptor.zero }, ?_, ?_⟩
    · simp [makeMethod, makeMethodParams, makeMethodResults, hP, hR, h]
    · rw [deferredNullResult_Params, h1]
      exact h4 rfl

/-- C4, at a concrete input: the two unnamed parameters of `versionDecl`, built under
the name `web3_version`, are named `web3_versionParameter0` and `web3_versionParameter1`. -/
theorem synthetic_parameter_names_witness :
    versionDecl.Type_.Params =
        some [some (fieldOf [] (.Ident "uint64") "uint64"),
              some (fieldOf [] (.Ident "string") "string")] ∧
    (makeMethod (externalsWith fun _ => .ok []) "web3_version" versionCb versionCb.fn
        versionDecl).map (fun r => (r.1.Params.map (fun cd => cd.Name), r.2)) =
      some (["web3_versionParameter0", "web3_versionParameter1"], none) ∧
    ∀ m err, makeMethod (externalsWith fun _ => .ok []) "web3_version" versionCb versionCb.fn
        versionDecl = some (m, err) →
      (∀ (i : Nat) cd, m.Params[i]? = some cd →
        cd.Name = "web3_version" ++ "Parameter" ++ toString i ∧
        ∃ fd ty, (declaredParams versionCb
            [some (fieldOf [] (.Ident "uint64") "uint64"),
             some (fieldOf [] (.Ident "string") "string")])[i]? = some fd ∧
          versionCb.argTypes[i]? = some ty ∧
          makeContentDescriptor (externalsWith fun _ => .ok []) ty fd
            ⟨none, "web3_version" ++ "Parameter" ++ toString i⟩ = some (cd, none)) ∧
      (err = none → m.Params.length = (declaredParams versionCb
            [some (fieldOf [] (.Ident "uint64") "uint64"),
             some (fieldOf [] (.Ident "string") "string")]).length) :=
  ⟨rfl, rfl,
    (synthetic_parameter_names (externalsWith fun _ => .ok []) "web3_version" versionCb
      versionCb.fn versionDecl _ rfl (by
        intro fd hfd
        simp only [List.mem_cons, Option.some.injEq, List.mem_singleton, List.mem_nil_iff,
          or_false] at hfd
        rcases hfd with rfl | rfl <;> rfl)).1⟩

/-! ## C5 -/

/-- C5, counterexample: an error-typed result is not always skipped. The declaration
`pingDecl` has the one result `Err`, where `Err` is an alias of `error`: its return type
is the error type, its type text does not contain `error`. It is not skipped: in no
environment does `makeMethod` return a method with the result `null` for it, and with
the structural reflection `reflectByKind` it returns the result `eth_pingResult` with
an object schema. -/
theorem aliased_error_result :
    (resultsCb [errorType]).retTypes = [errorType] ∧ errorType.Name = "error" ∧
    strContains "Err" "error" = false ∧
    (makeMethod versionExternals "eth_ping" (resultsCb [errorType]) (resultsCb []).fn
        pingDecl).map (fun r => (r.1.Result.Name, r.1.Result.Schema.Type_, r.2)) =
      some ("eth_pingResult", ["object"], none) ∧
    ¬ ∃ (E : Externals) (m : Method) (err : Option Err),
      makeMethod E "eth_ping" (resultsCb [errorType]) (resultsCb []).fn pingDecl =
        some (m, err) ∧ m.Result.Name = "null" := by
  refine ⟨rfl, rfl, by decide, rfl, ?_⟩
  rintro ⟨E, m, err, h, hn⟩
  obtain ⟨_, j, e, hp, hcase⟩ := makeMethod_returns E _ _ _ _ m err h
  have hp0 : makeMethodParams E "eth_ping" (resultsCb [errorType]) pingDecl =
      some (0, [], none) := rfl
  have hR : makeMethodResults E "eth_ping" (resultsCb [errorType]) pingDecl =
      match makeContentDescriptor E errorType (fieldOf [] (.Ident "Err") "Err")
          ⟨none, "eth_pingResult"⟩ with
      | none => none
      | some (_, some err) => some (0, ContentDescriptor.zero, some err)
      | some (cd, none) => some (1, cd, none) := rfl
  rw [hp0] at hp
  rcases hcase with ⟨he, _, _⟩ | ⟨_, j2, res, hr, hm⟩
  · simp only [Option.some.injEq, Prod.mk.injEq] at hp
    rw [← hp.2.2] at he
    simp at he
  · rw [hR] at hr
    cases hcd : makeContentDescriptor E errorType (fieldOf [] (.Ident "Err") "Err")
        ⟨none, "eth_pingResult"⟩ with
    | none => simp [hcd] at hr
    | some r =>
      obtain ⟨cd, e1⟩ := r
      have he1 := makeContentDescriptor_supported E errorType
        (fieldOf [] (.Ident "Err") "Err") ⟨none, "eth_pingResult"⟩ cd e1 rfl hcd
      subst he1
      have hname := makeContentDescriptor_name E _ _ _ cd hcd
      simp only [hcd, Option.some.injEq, Prod.mk.injEq] at hr
      obtain ⟨_, rfl, _⟩ := hr
      have hres : cd.Name = "eth_pingResult" := hname
      rw [hm] at hn
      unfold deferredNullResult at hn
      simp [hres] at hn

/-- C5, as amended: when the result list of the declaration is absent, empty or holds only results
whose type text contains `error`, the result block of `makeMethod` cannot panic or fail,
so `makeMethod` returns whenever its parameter block does not panic, and the method it
returns has the one result descriptor named `null` with the schema type `["null"]` and
the description `Null`: what the deferred function writes through `m.Result` is in the
returned method. -/
theorem null_result (E : Externals) (name : String) (cb : callback) (rt : runtimeFunc)
    (fn : FuncDecl)
    (hR : ∀ fields, fn.Type_.Results = some fields →
      ∀ fd, some fd ∈ fields → strContains fd.typeText "error" = true) :
    (makeMethod E name cb rt fn = none ↔ makeMethodParams E name cb fn = none) ∧
    ∀ m err, makeMethod E name cb rt fn = some (m, err) →
      m.Result.Name = "null" ∧ m.Result.Schema.Type_ = ["null"] ∧
      m.Result.Schema.Description = "Null" ∧
      m.Result = { ContentDescriptor.zero with
        Name := "null"
        Schema := (Schema.zero.setType ["null"]).setDescription "Null" } := by
  have hres : makeMethodResults E name cb fn = some (0, ContentDescriptor.zero, none) := by
    unfold makeMethodResults
    cases hr : fn.Type_.Results with
    | none => rfl
    | some fields => exact resultFields_error_only E name cb fields 0 _ (hR fields hr)
  constructor
  · unfold makeMethod
    cases hp : makeMethodParams E name cb fn with
    | none => simp
    | some r =>
      obtain ⟨j, ps, e⟩ := r
      cases e <;> simp [hres]
  · intro m err h
    obtain ⟨_, j, e, _, hcase⟩ := makeMethod_returns E name cb rt fn m err h
    have hm : m.Result = { ContentDescriptor.zero with
        Name := "null"
        Schema := (Schema.zero.setType ["null"]).setDescription "Null" } := by
      rcases hcase with ⟨_, _, hm⟩ | ⟨_, j2, res, hr, hm⟩
      · rw [hm]; rfl
      · rw [hres] at hr
        simp only [Option.some.injEq, Prod.mk.injEq] at hr
        obtain ⟨_, rfl, _⟩ := hr
        rw [hm]; rfl
    rw [hm]
    exact ⟨rfl, rfl, rfl, rfl⟩

/-- C5, at a concrete input: `versionDecl` returns only an error, and the method built
from it has the result descriptor `null`. -/
theorem null_result_witness :
    (makeMethod (externalsWith fun _ => .ok []) "web3_version" versionCb versionCb.fn
        versionDecl).map (fun r => (r.1.Result.Name, r.1.Result.Schema.Type_, r.2)) =
      some ("null", ["null"], none) ∧
    ((makeMethod (externalsWith fun _ => .ok []) "web3_version" versionCb versionCb.fn
        versionDecl = none ↔
      makeMethodParams (externalsWith fun _ => .ok []) "web3_version" versionCb versionDecl
        = none) ∧
    ∀ m err, makeMethod (externalsWith fun _ => .ok []) "web3_version" versionCb versionCb.fn
        versionDecl = some (m, err) →
      m.Result.Name = "null" ∧ m.Result.Schema.Type_ = ["null"] ∧
      m.Result.Schema.Description = "Null" ∧
      m.Result = { ContentDescriptor.zero with
        Name := "null"
        Schema := (Schema.zero.setType ["null"]).setDescription "Null" }) :=
  ⟨rfl,
    null_result (externalsWith fun _ => .ok []) "web3_version" versionCb versionCb.fn
      versionDecl (by
        intro fields hf fd hfd
        have hf' : fields = [some (fieldOf [] (.Ident "error") "error")] := by
          simpa [versionDecl] using hf.symm
        subst hf'
        simp only [List.mem_singleton, Option.some.injEq] at hfd
        subst hfd
        decide)⟩

/-! ## C6 -/

/-- C6, counterexample: the result of `math_add` is not named `mathResult`. In every
environment with the separator `_`, `Describe` on the registry with the one method
`add` of the module `math` returns the one method `math_add` with the parameters `a`,
`b` and the result named `math_addResult`. -/
theorem math_add_result_name :
    (fun (jsonMarshal : Schema → String) (sha1Sum : String → Fin 20 → Fin 256)
        (reflectStructural : GoType → Option Schema) =>
      (Describe (mathExternals jsonMarshal sha1Sum reflectStructural) mathService).map
        fun r => (r.2.1.map fun doc => doc.Methods.map fun m =>
          (m.Name, m.Params.map (fun cd => cd.Name), m.Result.Name), r.2.2)) =
      (fun _ _ _ => some (some [("math_add", ["a", "b"], "math_addResult")], none)) :=
  rfl

/-- C6, as amended: for the registry with the one method `add` of the module `math`, two
parameters `a`, `b` of type `*big.Int`, a `*big.Int` and an error as results, and the
separator `_`, `Describe` returns, whatever the serializer, the digest and the
structural reflection are, a document with exactly one method, named `math_add`, with
the parameters `a` and `b` in that order and the single result `math_addResult`; the
schemas of the three descriptors are one and the same reference, to the content key of
the integer override schema under the description `*math/big:Int`, and the components
table binds that key to that schema and holds no other schema. -/
theorem math_add_document (jsonMarshal : Schema → String)
    (sha1Sum : String → Fin 20 → Fin 256) (reflectStructural : GoType → Option Schema) :
    ∃ s' doc m,
      Describe (mathExternals jsonMarshal sha1Sum reflectStructural) mathService =
        some (s', some doc, none) ∧
      doc.Methods = [m] ∧ m.Name = "math_add" ∧
      m.Params.map (fun cd => cd.Name) = ["a", "b"] ∧ m.Result.Name = "math_addResult" ∧
      (∀ cd ∈ m.descriptors, cd.Schema =
        refSchema (uniqueKeyFn (mathExternals jsonMarshal sha1Sum reflectStructural)
          bigIntSchema)) ∧
      doc.Schemas.lookup
          (uniqueKeyFn (mathExternals jsonMarshal sha1Sum reflectStructural) bigIntSchema) =
        some bigIntSchema ∧
      (∀ kv ∈ doc.Schemas, kv =
        (uniqueKeyFn (mathExternals jsonMarshal sha1Sum reflectStructural) bigIntSchema,
          bigIntSchema)) ∧
      bigIntSchema = Schema.mk "integer" ["string"] "^0x[a-fA-F0-9]+$" "*math/big:Int"
        [] [] [] [] [] "" := by
  have hd : describeModules (mathExternals jsonMarshal sha1Sum reflectStructural)
      mathService.methods (mathService.doc.getD NewOpenRPCDescription) =
        some (⟨{ NewOpenRPCDescription.Doc with Methods := [mathMethod] }⟩, none) := rfl
  refine ⟨_, _, cleanedMethod (mathExternals jsonMarshal sha1Sum reflectStructural) mathMethod,
    Describe_ok _ mathService _ hd, ?_, rfl, rfl, rfl, ?_, ?_, ?_, rfl⟩
  · simp only [Clean_eq, List.map_cons, List.map_nil]
  · intro cd hcd
    simp only [Method.descriptors, cleanedMethod, mathMethod, List.map_cons, List.map_nil,
      List.mem_append, List.mem_cons, List.mem_singleton, List.not_mem_nil, or_false] at hcd
    rcases hcd with (rfl | rfl) | rfl <;> rfl
  · simp only [Clean_eq]
    have he : methodEntries (mathExternals jsonMarshal sha1Sum reflectStructural) [mathMethod] =
        [(uniqueKeyFn (mathExternals jsonMarshal sha1Sum reflectStructural) bigIntSchema,
            bigIntSchema),
          (uniqueKeyFn (mathExternals jsonMarshal sha1Sum reflectStructural) bigIntSchema,
            bigIntSchema),
          (uniqueKeyFn (mathExternals jsonMarshal sha1Sum reflectStructural) bigIntSchema,
            bigIntSchema)] := rfl
    rw [he]
    simp [List.lookup]
  · intro kv hkv
    simp only [Clean_eq] at hkv
    have he : methodEntries (mathExternals jsonMarshal sha1Sum reflectStructural) [mathMethod] =
        [(uniqueKeyFn (mathExternals jsonMarshal sha1Sum reflectStructural) bigIntSchema,
            bigIntSchema),
          (uniqueKeyFn (mathExternals jsonMarshal sha1Sum reflectStructural) bigIntSchema,
            bigIntSchema),
          (uniqueKeyFn (mathExternals jsonMarshal sha1Sum reflectStructural) bigIntSchema,
            bigIntSchema)] := rfl
    rw [he] at hkv
    simp only [List.mem_cons, List.mem_singleton, List.not_mem_nil, or_false] at hkv
    rcases hkv with rfl | rfl | rfl <;> rfl

/-! ## C7 -/

/-- C7: every method that is retained after a call of `Describe`, and so every method
of the document it returns, has the name of a method that was retained before the call,
or is a method of the registry that is not flagged `isSubscribe` and whose qualified
name does not contain, hence does not end in, the subscribe suffix. So if no method
retained before the call has a name ending in the suffix, no method of the returned
document has. -/
theorem no_subscription_methods (E : Externals) (s s' : RPCService)
    (r : Option OpenRPCSpec1) (err : Option Err) (h : Describe E s = some (s', r, err)) :
    (∀ doc, r = some doc → ∀ m ∈ doc.Methods,
      (∃ m0 ∈ s.retainedMethods, m0.Name = m.Name) ∨
      (∃ module list methodName cb, (module, list) ∈ s.methods ∧ (methodName, cb) ∈ list ∧
        m.Name = module ++ E.serviceMethodSeparator ++ methodName ∧
        cb.isSubscribe = false ∧ strContains m.Name E.subscribeMethodSuffix = false ∧
        strHasSuffix m.Name E.subscribeMethodSuffix = false)) ∧
    ((∀ m0 ∈ s.retainedMethods, strHasSuffix m0.Name E.subscribeMethodSuffix = false) →
      (∀ m ∈ s'.retainedMethods, strHasSuffix m.Name E.subscribeMethodSuffix = false) ∧
      ∀ doc, r = some doc →
        ∀ m ∈ doc.Methods, strHasSuffix m.Name E.subscribeMethodSuffix = false) := by
  have hinv := Describe_invariant E
    (fun ms => ∀ m ∈ ms,
      (∃ m0 ∈ s.retainedMethods, m0.Name = m.Name) ∨
      (∃ module list methodName cb, (module, list) ∈ s.methods ∧ (methodName, cb) ∈ list ∧
        m.Name = module ++ E.serviceMethodSeparator ++ methodName ∧
        cb.isSubscribe = false ∧ strContains m.Name E.subscribeMethodSuffix = false ∧
        strHasSuffix m.Name E.subscribeMethodSuffix = false))
    s s' r err h
    (by
      intro module list methodName cb d0 d1 hmod _ hmem hsub hsuf _ hP hr m hm
      obtain ⟨method, hname, hiff⟩ := mem_of_RegisterMethod E d0 d1 _ cb hr
      rcases (hiff m).1 hm with hm0 | rfl
      · exact hP m hm0
      · right
        refine ⟨module, list, methodName, cb, hmod, hmem, hname, hsub,
          by rw [hname]; exact hsuf, ?_⟩
        cases hs : strHasSuffix m.Name E.subscribeMethodSuffix with
        | false => rfl
        | true =>
          have := strContains_of_strHasSuffix _ _ hs
          rw [hname, hsuf] at this
          exact absurd this (by simp))
    (by
      intro ms hms m hm
      obtain ⟨m1, hm1, rfl⟩ := List.mem_map.1 hm
      exact hms m1 hm1)
    (fun m hm => Or.inl ⟨m, hm, rfl⟩)
  refine ⟨hinv.2, ?_⟩
  intro h0
  have hsuffix : ∀ m : Method,
      ((∃ m0 ∈ s.retainedMethods, m0.Name = m.Name) ∨
        (∃ module list methodName cb, (module, list) ∈ s.methods ∧ (methodName, cb) ∈ list ∧
          m.Name = module ++ E.serviceMethodSeparator ++ methodName ∧
          cb.isSubscribe = false ∧ strContains m.Name E.subscribeMethodSuffix = false ∧
          strHasSuffix m.Name E.subscribeMethodSuffix = false)) →
      strHasSuffix m.Name E.subscribeMethodSuffix = false := by
    rintro m (⟨m0, hm0, hn0⟩ | ⟨_, _, _, _, _, _, _, _, _, hsuf⟩)
    · rw [← hn0]
      exact h0 m0 hm0
    · exact hsuf
  exact ⟨fun m hm => hsuffix m (hinv.1 m hm),
    fun doc hdoc m hm => hsuffix m (hinv.2 doc hdoc m hm)⟩

/-- C7, at a concrete input: of the three methods of `filterService`, one flagged
`isSubscribe` and one named `eth_logs_subscribe`, the document holds `admin_datadir`
only. -/
theorem no_subscription_methods_witness :
    (Describe adminExternals filterService).map
        (fun r => (r.2.1.map fun doc => doc.Methods.map fun m => m.Name, r.2.2)) =
      some (some ["admin_datadir"], none) ∧
    ∃ s' doc, Describe adminExternals filterService = some (s', some doc, none) ∧
      ((∀ m0 ∈ filterService.retainedMethods,
          strHasSuffix m0.Name adminExternals.subscribeMethodSuffix = false) →
        (∀ m ∈ s'.retainedMethods,
          strHasSuffix m.Name adminExternals.subscribeMethodSuffix = false) ∧
        ∀ doc', some doc = some doc' →
          ∀ m ∈ doc'.Methods, strHasSuffix m.Name adminExternals.subscribeMethodSuffix = false) :=
  ⟨rfl, _, _, rfl,
    (no_subscription_methods adminExternals filterService _ _ none rfl).2⟩

/-! ## C8 -/

/-- C8: qualified names are unique. When the names of the retained methods are pairwise
distinct before a call of `Describe` (as they are when nothing is retained), so are the
names of the methods retained after it and of the document it returns. A method whose
qualified name is in the description already is skipped: the loop goes on with the
description as it is, without a call of `RegisterMethod` and without error; and no
method of the description is removed or changed by the registrations that follow, so
the entry of a name is the one registered first. -/
theorem qualified_names_unique (E : Externals) :
    (∀ s s' r err, Describe E s = some (s', r, err) →
      (s.retainedMethods.map fun m => m.Name).Nodup →
      (s'.retainedMethods.map fun m => m.Name).Nodup ∧
      ∀ doc, r = some doc → (doc.Methods.map fun m => m.Name).Nodup) ∧
    (∀ module methodName cb rest d,
      (∃ m ∈ d.Doc.Methods, m.Name = module ++ E.serviceMethodSeparator ++ methodName) →
      describeList E module ((methodName, cb) :: rest) d = describeList E module rest d) ∧
    (∀ methods d d' err, describeModules E methods d = some (d', err) →
      ∀ m ∈ d.Doc.Methods, m ∈ d'.Doc.Methods) := by
  refine ⟨?_, ?_, ?_⟩
  · intro s s' r err h h0
    refine Describe_invariant E (fun ms => (ms.map fun m => m.Name).Nodup) s s' r err h
      ?_ ?_ h0
    · intro module _ methodName cb d0 d1 _ _ _ _ _ hnew hP hr
      obtain ⟨_, fn, method, _, _, hm, rfl⟩ := RegisterMethod_ok E d0 d1 _ cb hr
      have hname := (makeMethod_returns E _ cb cb.fn fn method none hm).1
      have hperm := (sortSlice_perm (d0.Doc.Methods ++ [method])).map (fun m => m.Name)
      refine (hperm.nodup_iff).2 ?_
      simp only [List.map_append, List.map_cons, List.map_nil]
      refine List.Nodup.append hP (List.nodup_singleton _) ?_
      simp only [List.disjoint_singleton, List.mem_map, not_exists, not_and]
      intro m0 hm0 heq
      have : (d0.Doc.Methods.any fun m =>
          m.Name == module ++ E.serviceMethodSeparator ++ methodName) = true := by
        rw [List.any_eq_true]
        exact ⟨m0, hm0, by simp [heq, hname]⟩
      rw [hnew] at this
      exact absurd this (by simp)
    · intro ms hms
      simpa [Function.comp_def, cleanedMethod_Name] using hms
  · intro module methodName cb rest d ⟨m, hm, hname⟩
    have hany : (d.Doc.Methods.any fun m =>
        m.Name == module ++ E.serviceMethodSeparator ++ methodName) = true := by
      rw [List.any_eq_true]
      exact ⟨m, hm, by simp [hname]⟩
    simp only [describeList, hany, if_true]
    split <;> rfl
  · intro methods d d' err h
    exact describeModules_keeps E methods d d' err h

/-- C8, at a concrete input: `adminService` meets `admin_datadir` twice; the document
has one method of that name, and it is the one built from the first callback. -/
theorem qualified_names_unique_witness :
    (Describe adminExternals adminService).map
        (fun r => (r.2.1.map fun doc =>
          doc.Methods.map fun m => (m.Name, m.ExternalDocsDescription), r.2.2)) =
      some (some [("admin_datadir",
        "github.com/ethereum/go-ethereum/node.(*PrivateAdminAPI).Datadir")], none) ∧
    ∃ s' doc, Describe adminExternals adminService = some (s', some doc, none) ∧
      (s'.retainedMethods.map fun m => m.Name).Nodup ∧
      ∀ doc', some doc = some doc' → (doc'.Methods.map fun m => m.Name).Nodup :=
  ⟨rfl, _, _, rfl,
    (qualified_names_unique adminExternals).1 adminService _ _ none rfl List.nodup_nil⟩

/-! ## C9 -/

/-- C9: after every call of `RegisterMethod` that succeeds, `Doc.Methods` is in ascending
order of `Name`, whatever its order was before, and it is a permutation of the previous
list and the method `makeMethod` built under the name registered. Hence the order is an
invariant of `Describe`: when the retained methods are in ascending order of `Name`
before a call, so are the retained methods after it and the methods of the document it
returns; and they are before the first call, when nothing is retained. -/
theorem methods_sorted (E : Externals) :
    (∀ d name cb d', RegisterMethod E d name cb = some (d', none) →
      List.Sorted (fun a b : Method => a.Name ≤ b.Name) d'.Doc.Methods ∧
      ∃ fn method, makeMethod E name cb cb.fn fn = some (method, none) ∧ method.Name = name ∧
        List.Perm d'.Doc.Methods (d.Doc.Methods ++ [method])) ∧
    (∀ s s' r err, Describe E s = some (s', r, err) →
      List.Sorted (fun a b : Method => a.Name ≤ b.Name) s.retainedMethods →
      List.Sorted (fun a b : Method => a.Name ≤ b.Name) s'.retainedMethods ∧
      ∀ doc, r = some doc → List.Sorted (fun a b : Method => a.Name ≤ b.Name) doc.Methods) ∧
    (∀ s s' r err, s.doc = none → Describe E s = some (s', r, err) →
      ∀ doc, r = some doc → List.Sorted (fun a b : Method => a.Name ≤ b.Name) doc.Methods) := by
  have hreg : ∀ d name cb d', RegisterMethod E d name cb = some (d', none) →
      List.Sorted (fun a b : Method => a.Name ≤ b.Name) d'.Doc.Methods ∧
      ∃ fn method, makeMethod E name cb cb.fn fn = some (method, none) ∧ method.Name = name ∧
        List.Perm d'.Doc.Methods (d.Doc.Methods ++ [method]) := by
    intro d name cb d' h
    obtain ⟨_, fn, method, _, _, hm, rfl⟩ := RegisterMethod_ok E d d' name cb h
    exact ⟨sortSlice_sorted _, fn, method, hm,
      (makeMethod_returns E name cb cb.fn fn method none hm).1, sortSlice_perm _⟩
  have hdesc : ∀ s s' r err, Describe E s = some (s', r, err) →
      List.Sorted (fun a b : Method => a.Name ≤ b.Name) s.retainedMethods →
      List.Sorted (fun a b : Method => a.Name ≤ b.Name) s'.retainedMethods ∧
      ∀ doc, r = some doc →
        List.Sorted (fun a b : Method => a.Name ≤ b.Name) doc.Methods := by
    intro s s' r err h h0
    refine Describe_invariant E (List.Sorted (fun a b : Method => a.Name ≤ b.Name))
      s s' r err h ?_ ?_ h0
    · intro _ _ methodName cb d0 d1 _ _ _ _ _ _ _ hr
      exact (hreg d0 _ cb d1 hr).1
    · intro ms hms
      simpa only [List.Sorted, List.pairwise_map, cleanedMethod_Name] using hms
  refine ⟨hreg, hdesc, ?_⟩
  intro s s' r err hs h
  refine (hdesc s s' r err h ?_).2
  simp [RPCService.retainedMethods, hs]

/-- C9, at a concrete input: registering `net_version` in a description whose methods
are `web3_sha3`, `eth_call`, in that order, leaves the three methods in the order
`eth_call`, `net_version`, `web3_sha3`. -/
theorem methods_sorted_witness :
    (RegisterMethod versionExternals unsortedDescription "net_version" versionCb).map
        (fun r => (r.1.Doc.Methods.map (fun m => m.Name), r.2)) =
      some (["eth_call", "net_version", "web3_sha3"], none) ∧
    ∃ d', RegisterMethod versionExternals unsortedDescription "net_version" versionCb =
        some (d', none) ∧
      List.Sorted (fun a b : Method => a.Name ≤ b.Name) d'.Doc.Methods ∧
      ∃ fn method, makeMethod versionExternals "net_version" versionCb versionCb.fn fn =
          some (method, none) ∧ method.Name = "net_version" ∧
        List.Perm d'.Doc.Methods (unsortedDescription.Doc.Methods ++ [method]) :=
  ⟨rfl, _, rfl,
    (methods_sorted versionExternals).1 unsortedDescription "net_version" versionCb _ rfl⟩

/-! ## C10 -/

/-- C10, counterexample: a mismatch between the number of declared names and the number
of argument types is no error. For the callback `addCb` with two argument types and a
declaration with the three names `a`, `b`, `c`, `makeMethod` returns, in every
environment, the method with the parameters `a`, `b` and no error, and with the one name
`a` the method with the parameter `a` and no error; and `RegisterMethod` adds the method
with the two parameters to the document. -/
theorem count_mismatch_no_error :
    (fun E : Externals => (makeMethod E "math_add" addCb addCb.fn (addDecl ["a", "b", "c"])).map
        fun r => (r.1.Params.map fun cd => cd.Name, r.2)) =
      (fun _ => some (["a", "b"], none)) ∧
    (fun E : Externals => (makeMethod E "math_add" addCb addCb.fn (addDecl ["a"])).map
        fun r => (r.1.Params.map fun cd => cd.Name, r.2)) =
      (fun _ => some (["a"], none)) ∧
    (RegisterMethod (externalsWith fun _ => .ok [.FuncDecl (addDecl ["a", "b", "c"])])
        NewOpenRPCDescription "math_add" addCb).map
        (fun r => (r.1.Doc.Methods.map fun m => (m.Name, m.Params.map fun cd => cd.Name), r.2)) =
      some ([("math_add", ["a", "b"])], none) :=
  ⟨rfl, rfl, rfl⟩

/-- C10, as amended: `makeMethod` returns no error for a mismatch between the declared
names and the argument types. A declared name for which no argument type is left is
skipped, and the loop over the names goes on without error and without a descriptor for
it. The only error `makeMethod` returns is the error of `makeContentDescriptor` for a
type `jsonschemaPkgSupport` rejects; so `RegisterMethod` fails, leaving the document as
it was, only with a parse error, with the error for a declaration that was not found, or
with that error of `makeContentDescriptor` under the name of the method. -/
theorem count_mismatch_skipped (E : Externals) (name : String) (cb : callback) :
    (∀ field names j ps, cb.argTypes.length ≤ j →
      paramNames E name cb field names j ps = some (j, ps, none)) ∧
    (∀ rt fn m err, makeMethod E name cb rt fn = some (m, some err) →
      err.isUnsupportedIface) ∧
    (∀ d d' err, RegisterMethod E d name cb = some (d', some err) →
      d' = d ∧
      ((∃ msg, err = .parseError msg) ∨ err = .nilAstFunc name ∨
        ∃ inner, err = .makeMethodError name cb inner ∧ inner.isUnsupportedIface)) := by
  refine ⟨paramNames_surplus E name cb, ?_, ?_⟩
  · intro rt fn m err h
    exact makeMethod_error E name cb rt fn m err h
  · intro d d' err h
    refine ⟨RegisterMethod_error E d d' name cb err h, ?_⟩
    unfold RegisterMethod at h
    cases hpf : E.ParseFile cb.fn.File with
    | error e =>
      simp only [hpf, Option.some.injEq, Prod.mk.injEq] at h
      exact Or.inl ⟨e, h.2.symm⟩
    | ok astFile =>
      simp only [hpf] at h
      cases hg : getAstFunc cb astFile cb.fn with
      | none => simp [hg] at h
      | some r =>
        cases r with
        | none =>
          simp only [hg, Option.some.injEq, Prod.mk.injEq] at h
          exact Or.inr (Or.inl h.2.symm)
        | some fn =>
          simp only [hg] at h
          cases hm : makeMethod E name cb cb.fn fn with
          | none => simp [hm] at h
          | some r2 =>
            obtain ⟨method, e⟩ := r2
            cases e with
            | some e0 =>
              simp only [hm, Option.some.injEq, Prod.mk.injEq] at h
              exact Or.inr (Or.inr ⟨e0, h.2.symm, makeMethod_error E name cb cb.fn fn method e0 hm⟩)
            | none => simp [hm] at h

/-- C10 as amended, at a concrete input: with the two argument types of `addCb`, the
loop over the names skips a third name. -/
theorem count_mismatch_skipped_witness :
    paramNames versionExternals "math_add" addCb (bigIntField [some "c"]) [some "c"] 2 [] =
      some (2, [], none) :=
  (count_mismatch_skipped versionExternals "math_add" addCb).1 (bigIntField [some "c"])
    [some "c"] 2 [] (by decide)

/-! ## C11 -/

/-- C11, counterexample: a channel-valued result is not always rejected. The one result
of `chanErrorDecl` is of type `chan error`, a type `jsonschemaPkgSupport` rejects; its
type text contains `error`, so the result loop skips it before it looks at the type, and
`makeMethod` returns the method with the result `null` and no error, in every
environment. -/
theorem channel_result_skipped :
    jsonschemaPkgSupport (.Chan errorType) = false ∧
    (resultsCb [.Chan errorType]).retTypes = [.Chan errorType] ∧
    chanErrorDecl.Type_.Results.map resultSlots = some [] ∧
    (fun E : Externals =>
        (makeMethod E "eth_errors" (resultsCb [.Chan errorType]) (resultsCb []).fn
          chanErrorDecl).map fun r => (r.1.Result.Name, r.2)) =
      (fun _ => some ("null", none)) :=
  ⟨rfl, rfl, rfl, rfl⟩

/-- C11, as amended: `makeContentDescriptor` returns an error exactly when
`jsonschemaPkgSupport` rejects the type, that is when the kind of the type is not one of
struct, map, slice, array, interface, the integer kinds `Int` to `Int64` and `Uint` to
`Uint64`, `Float32`, `Float64`, `Bool`, `String`, `Ptr`; so it rejects every function and
channel type. And `makeMethod` returns that error for the types it passes on, those of
the slots: when the calls for the slots before slot `k` of the parameter list succeed
and the argument type of slot `k` is rejected, `makeMethod` returns the error for that
type with the `k` descriptors built before it, and likewise for the result list once the
parameters are built. A parameter field that is skipped as the context argument and a
result field whose type text contains `error` have no slot, whatever their types. -/
theorem unsupported_kinds_rejected (E : Externals) :
    (∀ ty field ident, jsonschemaPkgSupport ty = false →
      makeContentDescriptor E ty field ident =
        some (ContentDescriptor.zero, some (.unsupportedIface ty field ident))) ∧
    (∀ ty field ident cd err, jsonschemaPkgSupport ty = true →
      makeContentDescriptor E ty field ident = some (cd, err) → err = none) ∧
    (∀ ty, jsonschemaPkgSupport ty = true ↔
      ty.Kind ∈ [Kind.Struct, Kind.Map, Kind.Slice, Kind.Array, Kind.Interface,
        Kind.Int, Kind.Int8, Kind.Int16, Kind.Int32, Kind.Int64,
        Kind.Uint, Kind.Uint8, Kind.Uint16, Kind.Uint32, Kind.Uint64,
        Kind.Float32, Kind.Float64, Kind.Bool, Kind.String, Kind.Ptr]) ∧
    (∀ ty, ty.Kind = Kind.Func ∨ ty.Kind = Kind.Chan → jsonschemaPkgSupport ty = false) ∧
    (∀ name cb rt fn fields k field ident ty, fn.Type_.Params = some fields →
      (∀ i, i < k → ∀ f id, (paramSlots cb fields)[i]? = some (f, id) →
        ∃ ty' cd, cb.argTypes[i]? = some ty' ∧
          makeContentDescriptor E ty' f ⟨id, name ++ "Parameter" ++ toString i⟩ =
            some (cd, none)) →
      (paramSlots cb fields)[k]? = some (field, ident) → cb.argTypes[k]? = some ty →
      jsonschemaPkgSupport ty = false →
      ∃ m, makeMethod E name cb rt fn =
          some (m, some (.unsupportedIface ty field
            ⟨ident, name ++ "Parameter" ++ toString k⟩)) ∧
        m.Params.length = k) ∧
    (∀ name cb rt fn fields j ps k field slot ty,
      makeMethodParams E name cb fn = some (j, ps, none) →
      fn.Type_.Results = some fields →
      (∀ i, i < k → ∀ f s, (resultSlots fields)[i]? = some (f, s) →
        ∃ ty' cd, cb.retTypes[i]? = some ty' ∧
          makeContentDescriptor E ty' f (resultIdent name s i) = some (cd, none)) →
      (resultSlots fields)[k]? = some (field, slot) → cb.retTypes[k]? = some ty →
      jsonschemaPkgSupport ty = false →
      ∃ m, makeMethod E name cb rt fn =
          some (m, some (.unsupportedIface ty field (resultIdent name slot k))) ∧
        m.Params = ps) ∧
    (∀ (cb : callback) fields f id, (f, id) ∈ paramSlots cb fields →
      some f ∈ fields ∧ isContextField cb f = false) ∧
    (∀ fields f s, (f, s) ∈ resultSlots fields →
      some f ∈ fields ∧ strContains f.typeText "error" = false) := by
  refine ⟨makeContentDescriptor_unsupported E, makeContentDescriptor_supported E, ?_, ?_, ?_, ?_,
    fun cb fields f id h => ⟨((mem_paramSlots cb f id fields).1 h).1,
      ((mem_paramSlots cb f id fields).1 h).2.1⟩,
    fun fields f s h => mem_resultSlots f s fields h⟩
  · intro ty
    unfold jsonschemaPkgSupport
    cases ty.Kind <;> simp
  · intro ty h
    unfold jsonschemaPkgSupport
    rcases h with h | h <;> rw [h]
  · intro name cb rt fn fields k field ident ty hP hok hk hty hs
    obtain ⟨ps', hrun, hlen⟩ := runParamSlots_reject E name cb (paramSlots cb fields) 0 [] k
      field ident ty (by simpa using hok) hk (by simpa using hty) hs
    simp only [Nat.zero_add, List.length_nil] at hrun hlen
    refine ⟨deferredNullResult { newMethod name rt fn with Params := ps' }, ?_, ?_⟩
    · simp only [makeMethod, makeMethodParams, hP, paramFields_slots, hrun]
    · rw [deferredNullResult_Params]
      exact hlen
  · intro name cb rt fn fields j ps k field slot ty hp hR hok hk hty hs
    obtain ⟨res', hrun⟩ := runResultSlots_reject E name cb (resultSlots fields) 0
      ContentDescriptor.zero k field slot ty (by simpa using hok) hk (by simpa using hty) hs
    simp only [Nat.zero_add] at hrun
    refine ⟨deferredNullResult
      { newMethod name rt fn with Params := ps, Result := res' }, ?_, ?_⟩
    · simp only [makeMethod, hp, makeMethodResults, hR, resultFields_slots, hrun]
    · rw [deferredNullResult_Params]

/-- C11 as amended, at a concrete input: the one argument of `watchDecl` is a channel, and
`makeMethod` returns the error of `makeContentDescriptor` for it and no parameter. -/
theorem unsupported_kinds_rejected_witness :
    ∃ m, makeMethod versionExternals "eth_watch" watchCb watchCb.fn watchDecl =
        some (m, some (.unsupportedIface (.Chan (.Basic .int))
          (fieldOf [some "ch"] .Other
            "&\x7b%!s(token.Pos=40) %!s(token.Pos=0) %!s(ast.ChanDir=3) int\x7d")
          ⟨some "ch", "eth_watch" ++ "Parameter" ++ toString 0⟩)) ∧
      m.Params.length = 0 :=
  (unsupported_kinds_rejected versionExternals).2.2.2.2.1 "eth_watch" watchCb watchCb.fn
    watchDecl _ 0 _ (some "ch") (.Chan (.Basic .int)) rfl
    (by intro i hi; exact absurd hi (Nat.not_lt_zero i)) rfl rfl rfl

/-! ## C12 -/

/-- C12, counterexample: a failed call of `Describe` leaves partial state behind. The
service `halfService` retains nothing; the registration of `admin_datadir` succeeds and
the file of `admin_peers` cannot be parsed. The call returns no document and the parse
error, and the service retains a description that holds `admin_datadir`, a method
registered during the failed call. -/
theorem failed_call_partial_state :
    halfService.retainedMethods = [] ∧
    (Describe nodeOnlyExternals halfService).map
        (fun r => (r.1.retainedMethods.map fun m => m.Name, r.2.1.isNone, r.2.2)) =
      some (["admin_datadir"], true, some (.parseError "expected declaration")) :=
  ⟨rfl, rfl⟩

/-- C12, amended: `Describe` is fail-fast and not atomic. A call returns the error `e`
exactly when the registry, as the call enumerates it, splits at a method of a module
other than `rpc` such that the loops end without error on everything before it, the
method is not skipped, and `RegisterMethod` returns `e` for it; whatever follows the
method in its module and in the registry is not attempted. The call then returns no
document, and the service retains the description as the registrations before the
failure left it: it holds every method that was retained before the call and every
method registered during the call. -/
theorem describe_fail_fast (E : Externals) (s s' : RPCService) (r : Option OpenRPCSpec1)
    (e : Err) :
    (Describe E s = some (s', r, some e) ↔
      ∃ pre module l1 methodName cb l2 post d0 d1,
        s.methods = pre ++ (module, l1 ++ (methodName, cb) :: l2) :: post ∧
        module ≠ "rpc" ∧
        describeModules E pre (s.doc.getD NewOpenRPCDescription) = some (d0, none) ∧
        describeList E module l1 d0 = some (d1, none) ∧
        cb.isSubscribe = false ∧
        strContains (module ++ E.serviceMethodSeparator ++ methodName)
          E.subscribeMethodSuffix = false ∧
        (d1.Doc.Methods.any fun m =>
          m.Name == module ++ E.serviceMethodSeparator ++ methodName) = false ∧
        RegisterMethod E d1 (module ++ E.serviceMethodSeparator ++ methodName) cb =
          some (d1, some e) ∧
        r = none ∧ s' = { s with doc := some d1 } ∧
        (∀ m ∈ s.retainedMethods, m ∈ d1.Doc.Methods) ∧
        (∀ m ∈ d0.Doc.Methods, m ∈ d1.Doc.Methods)) := by
  constructor
  · intro h
    obtain ⟨d, e', hd, hcase⟩ := Describe_cases E s s' r (some e) h
    rcases hcase with ⟨_, h2, _, _⟩ | ⟨_, h2, hr, hs⟩
    · simp at h2
    · subst h2
      obtain ⟨pre, module, list, post, d0, hm, hne, hpre, hlist⟩ :=
        describeModules_error E s.methods _ d e hd
      obtain ⟨l1, mn, cb, l2, hl, hl1, hsub, hsuf, hdup, hreg⟩ :=
        describeList_error E module list d0 d e hlist
      refine ⟨pre, module, l1, mn, cb, l2, post, d0, d, by rw [hm, hl], hne, hpre, hl1,
        hsub, hsuf, hdup, hreg, hr, hs, ?_, describeList_keeps E module l1 d0 d none hl1⟩
      intro m hmem
      rw [← retainedMethods_getD] at hmem
      exact describeList_keeps E module l1 d0 d none hl1 m
        (describeModules_keeps E pre _ d0 none hpre m hmem)
  · rintro ⟨pre, module, l1, mn, cb, l2, post, d0, d1, hm, hne, hpre, hl1, hsub, hsuf, hdup,
      hreg, hr, hs, _, _⟩
    have hlist : describeList E module (l1 ++ (mn, cb) :: l2) d0 = some (d1, some e) := by
      rw [describeList_append E module _ l1 d0 d1 hl1]
      exact describeList_fails E module mn cb l2 d1 e hsub hsuf hdup hreg
    have hmods : describeModules E s.methods (s.doc.getD NewOpenRPCDescription) =
        some (d1, some e) := by
      rw [hm, describeModules_append E _ pre _ d0 hpre]
      simp only [describeModules]
      rw [if_neg (by simpa using hne)]
      simp only [hlist]
    unfold Describe
    have hd : (match s.doc with | none => NewOpenRPCDescription | some d => d) =
        s.doc.getD NewOpenRPCDescription := by cases s.doc <;> rfl
    simp only [hd, hmods, hr, hs]

/-! ## C13 -/

/-- C13, counterexample: the description persists between the calls of `Describe`, and a
second call does not return the document of the first. For the registry with the one
method `add` of the module `math`, whatever the serializer, the digest and the
structural reflection are: the first call returns a document; a call on the service it
left, with a registry that holds no method at all, returns a document with the method
`math_add`, where a call on a service without retained description and the same empty
registry returns a document without methods; and no second call on the service the
first call left returns a document whose table binds every key as the table of the first
does, since the table of the first binds a key to the integer schema and `Clean` builds
the table of the second from the references the first left. -/
theorem second_call_differs :
    (fun jsonMarshal sha1Sum reflectStructural =>
        (Describe (mathExternals jsonMarshal sha1Sum reflectStructural) mathService).map
          fun r => (r.2.1.isSome, r.2.2)) =
      (fun _ _ _ => some (true, none)) ∧
    (fun jsonMarshal sha1Sum reflectStructural =>
        ((Describe (mathExternals jsonMarshal sha1Sum reflectStructural) mathService).bind
          fun r => Describe (mathExternals jsonMarshal sha1Sum reflectStructural)
            { r.1 with methods := [] }).map
          fun r => (r.2.1.map fun doc => doc.Methods.map fun m => m.Name, r.2.2)) =
      (fun _ _ _ => some (some ["math_add"], none)) ∧
    (fun jsonMarshal sha1Sum reflectStructural =>
        (Describe (mathExternals jsonMarshal sha1Sum reflectStructural)
          { doc := none, methods := [] }).map
          fun r => (r.2.1.map fun doc => doc.Methods.map fun m => m.Name, r.2.2)) =
      (fun _ _ _ => some (some [], none)) ∧
    ¬ ∃ (jsonMarshal : Schema → String) (sha1Sum : String → Fin 20 → Fin 256)
        (reflectStructural : GoType → Option Schema) (s1 s2 : RPCService)
        (doc1 doc2 : OpenRPCSpec1),
      Describe (mathExternals jsonMarshal sha1Sum reflectStructural) mathService =
        some (s1, some doc1, none) ∧
      Describe (mathExternals jsonMarshal sha1Sum reflectStructural) s1 =
        some (s2, some doc2, none) ∧
      ∀ key : String, doc2.Schemas.lookup key = doc1.Schemas.lookup key := by
  refine ⟨rfl, ?_, rfl, ?_⟩
  · funext jm sha rs
    have hd : describeModules (mathExternals jm sha rs)
        mathService.methods (mathService.doc.getD NewOpenRPCDescription) =
          some (⟨{ NewOpenRPCDescription.Doc with Methods := [mathMethod] }⟩, none) := rfl
    have h2 := Describe_ok (mathExternals jm sha rs)
      { doc := some ⟨(Clean (mathExternals jm sha rs)
          { NewOpenRPCDescription.Doc with Methods := [mathMethod] }).1⟩, methods := [] }
      ⟨(Clean (mathExternals jm sha rs)
          { NewOpenRPCDescription.Doc with Methods := [mathMethod] }).1⟩ rfl
    rw [Describe_ok _ mathService _ hd]
    show (Describe (mathExternals jm sha rs)
      { doc := some ⟨(Clean (mathExternals jm sha rs)
          { NewOpenRPCDescription.Doc with Methods := [mathMethod] }).1⟩, methods := [] }).map _ = _
    rw [h2]
    simp only [Option.map, Clean_names]
    rfl
  rintro ⟨jm, sha, rs, s1, s2, doc1, doc2, h1, h2, hkeys⟩
  obtain ⟨hs1, _, h3⟩ := Describe_again _ mathService s1 doc1 h1 mathService.methods
    (fun _ list hmem _ hx => ⟨list, hmem, hx⟩)
  have hs : ({ s1 with methods := mathService.methods } : RPCService) = s1 := by
    rw [hs1]
  rw [hs, h2] at h3
  have hd : describeModules (mathExternals jm sha rs)
      mathService.methods (mathService.doc.getD NewOpenRPCDescription) =
        some (⟨{ NewOpenRPCDescription.Doc with Methods := [mathMethod] }⟩, none) := rfl
  have h0 := Describe_ok _ mathService _ hd
  rw [h1] at h0
  simp only [Option.some.injEq, Prod.mk.injEq, and_true] at h0 h3
  have hdoc := h0.2
  have hdoc2 := h3.2
  obtain ⟨k0, v0, rest, hT, hv⟩ : ∃ k0 v0 rest,
      methodEntries (mathExternals jm sha rs) [mathMethod] = (k0, v0) :: rest ∧
        v0.isReference = false := ⟨_, _, _, rfl, rfl⟩
  have h1k : doc1.Schemas.lookup k0 = some v0 := by
    rw [hdoc]
    simp only [Clean_eq, hT, List.lookup_cons, beq_self_eq_true]
  have h2k := hkeys k0
  rw [h1k] at h2k
  have hmem := mem_of_lookup k0 v0 _ h2k
  rw [hdoc2, Clean_eq] at hmem
  have hall : allReferences doc1.Methods := by
    rw [hdoc]
    exact Clean_allReferences _ _
  have href := methodEntries_references _ _ hall _ hmem
  rw [hv] at href
  exact absurd href (by decide)

/-- C13, as amended: the description persists between the calls of `Describe`. After a
call that returned the document `doc1` the service retains that document. A later call
on a registry that holds no method the first did not hold, its modules and the methods
of a module enumerated in whatever order, builds no method: its loops skip every method,
because its name is in the retained document, and leave the description as it is; the
call then runs `Clean` on the retained document and returns and retains what that run
leaves. And whatever the registry of a later call holds, every method name of `doc1` is
the name of a method of the document that call returns. -/
theorem second_call (E : Externals) (s s1 : RPCService) (doc1 : OpenRPCSpec1)
    (h : Describe E s = some (s1, some doc1, none)) :
    s1 = { s with doc := some ⟨doc1⟩ } ∧
    (∀ methods2 : List (String × List (String × callback)),
      (∀ module list, (module, list) ∈ methods2 → ∀ x ∈ list,
        ∃ list1, (module, list1) ∈ s.methods ∧ x ∈ list1) →
      describeModules E methods2 ⟨doc1⟩ = some (⟨doc1⟩, none) ∧
      Describe E { s1 with methods := methods2 } =
        some ({ doc := some ⟨(Clean E doc1).1⟩, methods := methods2 },
          some (Clean E doc1).1, none)) ∧
    (∀ (methods2 : List (String × List (String × callback))) (s2 : RPCService)
        (doc2 : OpenRPCSpec1),
      Describe E { s1 with methods := methods2 } = some (s2, some doc2, none) →
      ∀ m ∈ doc1.Methods, ∃ m2 ∈ doc2.Methods, m2.Name = m.Name) := by
  obtain ⟨d, e, hd, hcase⟩ := Describe_cases E s s1 (some doc1) none h
  rcases hcase with ⟨rfl, _, hr, hs⟩ | ⟨_, _, hr, _⟩
  swap
  · simp at hr
  have hdoc : doc1 = (Clean E d.Doc).1 := Option.some.inj hr
  have hs1 : s1.doc = some ⟨doc1⟩ := by rw [hs, hdoc]
  refine ⟨by rw [hs, hdoc], fun methods2 hsub => (Describe_again E s s1 doc1 h methods2 hsub).2,
    ?_⟩
  intro methods2 s2 doc2 h2 m hm
  obtain ⟨d2, e2, hd2, hcase2⟩ := Describe_cases E _ s2 (some doc2) none h2
  rcases hcase2 with ⟨rfl, _, hr2, _⟩ | ⟨_, _, hr2, _⟩
  swap
  · simp at hr2
  have hdoc2 : doc2 = (Clean E d2.Doc).1 := Option.some.inj hr2
  simp only [hs1, Option.getD_some] at hd2
  have hmem := describeModules_keeps E methods2 ⟨doc1⟩ d2 none hd2 m hm
  refine ⟨cleanedMethod E m, ?_, cleanedMethod_Name E m⟩
  rw [hdoc2]
  simp only [Clean_eq]
  exact List.mem_map_of_mem _ hmem

/-- C13, witness: the service `filterService`, whose first call returns a document; a
second call with the modules and the methods of the module `eth` in the other order
returns what `Clean` leaves of the retained document. -/
theorem second_call_witness :
    ∃ s1 doc1, Describe adminExternals filterService = some (s1, some doc1, none) ∧
      Describe adminExternals
          { s1 with methods := filterService.methods.reverse.map fun x => (x.1, x.2.reverse) } =
        some ({ doc := some ⟨(Clean adminExternals doc1).1⟩,
                methods := filterService.methods.reverse.map fun x => (x.1, x.2.reverse) },
          some (Clean adminExternals doc1).1, none) :=
  ⟨_, _, rfl,
    ((second_call adminExternals filterService _ _ rfl).2.1
      (filterService.methods.reverse.map fun x => (x.1, x.2.reverse))
      (by
        intro module list hmem x hx
        simp only [filterService, List.reverse_cons, List.reverse_nil, List.nil_append,
          List.cons_append, List.map_cons, List.map_nil, List.mem_cons, Prod.mk.injEq,
          List.mem_nil_iff, or_false] at hmem
        rcases hmem with ⟨rfl, rfl⟩ | ⟨rfl, rfl⟩
        · exact ⟨_, List.mem_cons_of_mem _ (List.mem_cons_self _ _), hx⟩
        · refine ⟨_, List.mem_cons_self _ _, ?_⟩
          simp only [List.mem_cons, List.mem_nil_iff, or_false] at hx ⊢
          exact hx.symm)).2⟩

/-! ## C14 -/

/-- C14, counterexample: the types of a node are followed by `.`, not by `+`. The key of
the integer override schema, of type `string` and title `integer`, is `string.integer.`
followed by the digest, in every environment, and in no environment does it start with
`string+`. -/
theorem key_type_separator :
    (fun E : Externals => uniqueKeyFn E integerD) =
      (fun E => "string." ++ ("integer." ++
        String.mk (hexBytes [E.sha1Sum (E.jsonMarshal integerD) 0,
          E.sha1Sum (E.jsonMarshal integerD) 1, E.sha1Sum (E.jsonMarshal integerD) 2,
          E.sha1Sum (E.jsonMarshal integerD) 3]))) ∧
    ¬ ∃ (E : Externals) (rest : String), uniqueKeyFn E integerD = "string+" ++ rest := by
  refine ⟨rfl, ?_⟩
  rintro ⟨E, rest, h⟩
  have hk : uniqueKeyFn E integerD = "string." ++ ("integer." ++
      String.mk (hexBytes [E.sha1Sum (E.jsonMarshal integerD) 0,
        E.sha1Sum (E.jsonMarshal integerD) 1, E.sha1Sum (E.jsonMarshal integerD) 2,
        E.sha1Sum (E.jsonMarshal integerD) 3])) := rfl
  rw [hk] at h
  have hd := congrArg String.data h
  simp only [String.data_append] at hd
  have h6 := congrArg (fun l => l.get? 6) hd
  simp at h6

/-- C14, as amended: the key `uniqueKeyFn` computes ends with a digest of exactly 8
lower-case hexadecimal characters, the first 4 bytes of the SHA-1 sum of the serialized
node; when the title of the node is not empty the digest is immediately preceded by the
title followed by `.`; when the node has types, that is preceded by the types, joined
by `+` and followed by `.`; in front of that stands nothing or the token of the
description followed by `_`. -/
theorem key_format (E : Externals) (sch : Schema) :
    ∃ digest tokenPrefix : String,
      digest = String.mk (hexBytes [E.sha1Sum (E.jsonMarshal sch) 0,
        E.sha1Sum (E.jsonMarshal sch) 1, E.sha1Sum (E.jsonMarshal sch) 2,
        E.sha1Sum (E.jsonMarshal sch) 3]) ∧
      digest.length = 8 ∧
      (∀ c ∈ digest.toList, c ∈ "0123456789abcdef".toList) ∧
      (tokenPrefix = "" ∨ tokenPrefix = lastColonToken sch.Description ++ "_") ∧
      uniqueKeyFn E sch =
        tokenPrefix ++
          ((if sch.Type_ = [] then "" else String.intercalate "+" sch.Type_ ++ ".") ++
            ((if sch.Title = "" then "" else sch.Title ++ ".") ++ digest)) := by
  have hbody : keyBody E sch =
      (if sch.Type_ = [] then "" else String.intercalate "+" sch.Type_ ++ ".") ++
        ((if sch.Title = "" then "" else sch.Title ++ ".") ++
          String.mk (hexBytes [E.sha1Sum (E.jsonMarshal sch) 0,
            E.sha1Sum (E.jsonMarshal sch) 1, E.sha1Sum (E.jsonMarshal sch) 2,
            E.sha1Sum (E.jsonMarshal sch) 3])) := by
    unfold keyBody
    by_cases ht : sch.Title = "" <;> by_cases hty : sch.Type_ = [] <;>
      simp [ht, hty, String.append_assoc]
  have hfour := hexBytes_four (E.sha1Sum (E.jsonMarshal sch) 0) (E.sha1Sum (E.jsonMarshal sch) 1)
    (E.sha1Sum (E.jsonMarshal sch) 2) (E.sha1Sum (E.jsonMarshal sch) 3)
  by_cases hc : (lastColonToken sch.Description != "" &&
      !strContains (lastColonToken sch.Description) " ") = true
  · refine ⟨_, lastColonToken sch.Description ++ "_", rfl, by simpa using hfour.1,
      by simpa using hfour.2, Or.inr rfl, ?_⟩
    rw [uniqueKeyFn_eq_keyBody, if_pos hc, hbody]
  · refine ⟨_, "", rfl, by simpa using hfour.1, by simpa using hfour.2, Or.inl rfl, ?_⟩
    rw [uniqueKeyFn_eq_keyBody, if_neg hc, hbody]
    simp

/-! ## C15 -/

/-- C15, counterexample: a description without colon and a token with a tab both give a
prefix. The schema of the `null` result, whose description `Null` has no colon, gets a
key that starts with `Null_`, and a schema whose description ends in the token
`see<tab>below` gets a key that starts with that token and `_`, in every environment. -/
theorem key_token_cases :
    (fun E : Externals => uniqueKeyFn E nullSchema) =
      (fun E => "Null" ++ "_" ++ keyBody E nullSchema) ∧
    nullSchema.Description = "Null" ∧
    (fun E : Externals => uniqueKeyFn E tabSchema) =
      (fun E => "see\tbelow" ++ "_" ++ keyBody E tabSchema) ∧
    tabSchema.Description = "note:see\tbelow" :=
  ⟨rfl, rfl, rfl, rfl⟩

/-- C15, as amended: `uniqueKeyFn` puts a prefix in front of the key exactly when the
last element of the description split at its colons is not empty and contains no space
character; the prefix is that element followed by `_`. That element is the whole
description when the description has no colon, and the text after the last colon
otherwise; a whitespace character other than the space does not prevent the prefix. -/
theorem key_token_rule (E : Externals) (sch : Schema) :
    (uniqueKeyFn E sch =
      if lastColonToken sch.Description ≠ "" ∧ ' ' ∉ (lastColonToken sch.Description).toList
      then lastColonToken sch.Description ++ "_" ++ keyBody E sch else keyBody E sch) ∧
    (∀ desc : String, ':' ∉ desc.toList → lastColonToken desc = desc) ∧
    (∀ pre tok : List Char, ':' ∉ tok →
      lastColonToken (String.mk (pre ++ ':' :: tok)) = String.mk tok) := by
  refine ⟨?_, lastColonToken_no_colon, lastColonToken_after_colon⟩
  rw [uniqueKeyFn_eq_keyBody]
  have hiff : (lastColonToken sch.Description != "" &&
      !strContains (lastColonToken sch.Description) " ") = true ↔
      (lastColonToken sch.Description ≠ "" ∧
        ' ' ∉ (lastColonToken sch.Description).toList) := by
    rw [← strContains_space]
    simp
  by_cases hc : lastColonToken sch.Description ≠ "" ∧
      ' ' ∉ (lastColonToken sch.Description).toList
  · rw [if_pos hc, if_pos (hiff.2 hc)]
  · rw [if_neg hc, if_neg (fun h => hc (hiff.1 h))]

/-- C15 as amended, at a concrete input: the description `Null` has no colon, so its
token is the whole description. -/
theorem key_token_rule_witness : lastColonToken "Null" = "Null" :=
  (key_token_rule versionExternals nullSchema).2.1 "Null" (by decide)

/-! ## C16 -/

/-- C16, counterexample: a documentation lookup failure aborts the registration. When
the declaring file cannot be parsed, `RegisterMethod` returns the error of the parser,
and when the file holds no matching declaration it returns the error `nil ast func`; in
both cases the document is left without the method, and `Describe` returns that error
and no document. -/
theorem lookup_failure_cases :
    RegisterMethod (externalsWith fun _ => .error "open service.go: no such file or directory")
        NewOpenRPCDescription "net_version" versionCb =
      some (NewOpenRPCDescription,
        some (.parseError "open service.go: no such file or directory")) ∧
    getAstFunc versionCb [.GenDecl] versionCb.fn = some none ∧
    RegisterMethod (externalsWith fun _ => .ok [.GenDecl])
        NewOpenRPCDescription "net_version" versionCb =
      some (NewOpenRPCDescription, some (.nilAstFunc "net_version")) ∧
    (Describe (externalsWith fun _ => .ok [.GenDecl])
        ⟨none, [("net", [("version", versionCb)])]⟩).map
        (fun r => (r.1.retainedMethods.map (fun m => m.Name), r.2.1.isSome, r.2.2)) =
      some ([], false, some (.nilAstFunc "net_version")) :=
  ⟨rfl, rfl, rfl, rfl⟩

/-- C16, as amended: a documentation lookup failure aborts the registration of the
method. When the declaring file of the callback cannot be parsed, `RegisterMethod`
returns the error of the parser, and when `getAstFunc` returns nil it returns the error
`nil ast func` with the name of the method; the document is unchanged in both cases. A
registration succeeds only when the file was parsed and the declaration found, and the
summary of the method is then the documentation text of that declaration, which is
blank only when the declaration has none. -/
theorem lookup_failure_aborts (E : Externals) (d : OpenRPCDescription) (name : String)
    (cb : callback) :
    (∀ msg, E.ParseFile cb.fn.File = .error msg →
      RegisterMethod E d name cb = some (d, some (.parseError msg))) ∧
    (∀ astFile, E.ParseFile cb.fn.File = .ok astFile →
      getAstFunc cb astFile cb.fn = some none →
      RegisterMethod E d name cb = some (d, some (.nilAstFunc name))) ∧
    (∀ d', RegisterMethod E d name cb = some (d', none) →
      ∃ astFile fn method, E.ParseFile cb.fn.File = .ok astFile ∧
        getAstFunc cb astFile cb.fn = some (some fn) ∧
        makeMethod E name cb cb.fn fn = some (method, none) ∧ method.Summary = fn.Doc ∧
        d' = { d with Doc :=
          { d.Doc with Methods := sortSlice (d.Doc.Methods ++ [method]) } }) := by
  refine ⟨?_, ?_, ?_⟩
  · intro msg h
    simp only [RegisterMethod, h]
  · intro astFile h hg
    simp only [RegisterMethod, h, hg]
  · intro d' h
    obtain ⟨astFile, fn, method, h1, h2, h3, h4⟩ := RegisterMethod_ok E d d' name cb h
    exact ⟨astFile, fn, method, h1, h2, h3,
      makeMethod_Summary E name cb cb.fn fn method none h3, h4⟩

/-- C16 as amended, at a concrete input: without a declaration of `Version` in the file,
the registration of `net_version` fails. -/
theorem lookup_failure_aborts_witness :
    RegisterMethod (externalsWith fun _ => .ok [.GenDecl]) NewOpenRPCDescription
        "net_version" versionCb =
      some (NewOpenRPCDescription, some (.nilAstFunc "net_version")) :=
  (lookup_failure_aborts (externalsWith fun _ => .ok [.GenDecl]) NewOpenRPCDescription
    "net_version" versionCb).2.1 [.GenDecl] rfl rfl

/-! ## C17 -/

/-- C17, counterexample: `OpenRPCJSONSchemaTypeMapper` is not total. For a channel type,
a function type, `complex128`, `uintptr` and `unsafe.Pointer`, none of which has an entry
in the override table, it reaches the `default` case of its kind switch and panics. -/
theorem mapper_panics :
    OpenRPCJSONSchemaTypeMapper (.Chan (.Basic .int)) = none ∧
    OpenRPCJSONSchemaTypeMapper (.Func "func(int) error") = none ∧
    OpenRPCJSONSchemaTypeMapper (.Basic .complex128) = none ∧
    OpenRPCJSONSchemaTypeMapper (.Basic .uintptr) = none ∧
    OpenRPCJSONSchemaTypeMapper (.Basic .unsafePointer) = none :=
  ⟨rfl, rfl, rfl, rfl, rfl⟩

/-- C17, as amended: `OpenRPCJSONSchemaTypeMapper` returns (an override schema, the
integer schema, or `nil`) for every type that has an entry in the override table or
whose kind is one of the kinds of its switch, and it panics for every other type: a type
without an entry whose kind is function, channel, complex, uintptr or unsafe pointer. In
particular it returns for every type `jsonschemaPkgSupport` accepts. -/
theorem mapper_panics_iff (r : GoType) :
    (OpenRPCJSONSchemaTypeMapper r = none ↔
      dictLookup r dict = none ∧
        r.Kind ∈ [Kind.Invalid, Kind.Uintptr, Kind.Complex64, Kind.Complex128, Kind.Chan,
          Kind.Func, Kind.UnsafePointer]) ∧
    (jsonschemaPkgSupport r = true → OpenRPCJSONSchemaTypeMapper r ≠ none) := by
  constructor
  · unfold OpenRPCJSONSchemaTypeMapper
    cases hd : dictLookup r dict with
    | some tt => simp
    | none =>
      simp only [true_and]
      cases r.Kind <;> simp [kindSwitch]
  · intro hs
    unfold OpenRPCJSONSchemaTypeMapper
    cases hd : dictLookup r dict with
    | some tt => simp
    | none =>
      unfold jsonschemaPkgSupport at hs
      revert hs
      cases r.Kind <;> simp [kindSwitch]

/-! ## C18 -/

/-- C18, the code at the failing input: for pointer-to-address the mapper returns the
schema of a Keccak hash, with the pattern of 64 hexadecimal digits, where for the address
itself it returns the address schema, with the pattern of 40 digits; for pointer-to-hash
it returns a schema that differs from the one of the hash in its description; for
`big.Int`, `hexutil.Big` and `hexutil.Bytes` pointer and value get the same schema. -/
theorem pointer_to_address_schema :
    OpenRPCJSONSchemaTypeMapper (.Ptr commonAddress) =
      some (some (Schema.mk "keccak" ["string"] "^0x[a-fA-F\\d]{64}$"
        "Hex representation of a Keccak 256 hash POINTER" [] [] [] [] [] "")) ∧
    OpenRPCJSONSchemaTypeMapper commonAddress =
      some (some (Schema.mk "address" ["string"] "^0x[a-fA-F\\d]{40}$" "" [] [] [] [] [] "")) ∧
    OpenRPCJSONSchemaTypeMapper (.Ptr commonAddress) ≠ OpenRPCJSONSchemaTypeMapper commonAddress ∧
    OpenRPCJSONSchemaTypeMapper (.Ptr commonHash) =
      some (some (Schema.mk "keccak" ["string"] "^0x[a-fA-F\\d]{64}$"
        "Hex representation of a Keccak 256 hash POINTER" [] [] [] [] [] "")) ∧
    OpenRPCJSONSchemaTypeMapper commonHash =
      some (some (Schema.mk "keccak" ["string"] "^0x[a-fA-F\\d]{64}$"
        "Hex representation of a Keccak 256 hash" [] [] [] [] [] "")) ∧
    OpenRPCJSONSchemaTypeMapper (.Ptr bigInt) = OpenRPCJSONSchemaTypeMapper bigInt ∧
    OpenRPCJSONSchemaTypeMapper (.Ptr hexutilBig) = OpenRPCJSONSchemaTypeMapper hexutilBig ∧
    OpenRPCJSONSchemaTypeMapper (.Ptr hexutilBytes) = OpenRPCJSONSchemaTypeMapper hexutilBytes := by
  refine ⟨rfl, rfl, ?_, rfl, rfl, rfl, rfl, rfl⟩
  intro h
  have h1 : OpenRPCJSONSchemaTypeMapper (.Ptr commonAddress) = some (some keccakPointerD) := rfl
  have h2 : OpenRPCJSONSchemaTypeMapper commonAddress = some (some addressD) := rfl
  rw [h1, h2] at h
  simp [keccakPointerD, addressD] at h

/-! ## C19 -/

/-- C19, the code at the failing input: for the block number type the mapper returns a
`oneOf` of the Keccak hash schema (64 hexadecimal digits) and the enumeration of the tags
`earliest`, `latest`, `pending`, under the title `blockNumberOrTag` and the description
`Block tag or hex representation of a block number`; the hex integer schema is not among
the alternatives. For the block-number-or-hash type it returns a `oneOf` of the hash
schema and the hex integer schema. -/
theorem block_number_union :
    OpenRPCJSONSchemaTypeMapper blockNumber =
      some (some (Schema.mk "blockNumberOrTag" [] ""
        "Block tag or hex representation of a block number" [] [] []
        [ Schema.mk "keccak" ["string"] "^0x[a-fA-F\\d]{64}$"
            "Hex representation of a Keccak 256 hash" [] [] [] [] [] "",
          Schema.mk "blockNumberTag" ["string"] "" "The optional block height description"
            ["earliest", "latest", "pending"] [] [] [] [] "" ] [] "")) ∧
    blockNumberOrTagD.OneOf.map (fun s => s.Pattern) = ["^0x[a-fA-F\\d]{64}$", ""] ∧
    integerD.Pattern = "^0x[a-fA-F0-9]+$" ∧
    OpenRPCJSONSchemaTypeMapper blockNumberOrHash =
      some (some (Schema.mk "blockNumberOrHash" [] ""
        "Hex representation of a block number or hash" [] [] []
        [ Schema.mk "keccak" ["string"] "^0x[a-fA-F\\d]{64}$"
            "Hex representation of a Keccak 256 hash" [] [] [] [] [] "",
          Schema.mk "integer" ["string"] "^0x[a-fA-F0-9]+$"
            "Hex representation of the integer" [] [] [] [] [] "" ] [] "")) :=
  ⟨rfl, rfl, rfl, rfl⟩

/-! ## C20 -/

/-- C20, counterexample: the synthetic result name carries no index, and a declared name
wins. For the two unnamed results of `pairDecl`, built under the name `eth_pair`,
`makeMethod` returns the one result descriptor `eth_pairResult`, and for the one result
of `namedResultDecl`, declared as `result`, the descriptor `result`, in every
environment. -/
theorem result_names_cases :
    (fun E : Externals =>
        (makeMethod E "eth_pair" (resultsCb [.Basic .uint64, .Basic .uint32, errorType])
          (resultsCb []).fn pairDecl).map fun r => (r.1.Result.Name, r.2)) =
      (fun _ => some ("eth_pairResult", none)) ∧
    (fun E : Externals =>
        (makeMethod E "eth_pair" (resultsCb [.Basic .uint64, errorType])
          (resultsCb []).fn namedResultDecl).map fun r => (r.1.Result.Name, r.2)) =
      (fun _ => some ("result", none)) :=
  ⟨rfl, rfl⟩

/-- C20, as amended: `makeMethod` keeps one result descriptor. When it returns without
error and the result list has a slot besides the results whose type text contains
`error`, the descriptor is the one `makeContentDescriptor` builds for the last slot, from
the return type at the index of that slot; it is named `<name>Result` when the result is
declared without name, whatever the number of results, and by its declared identifier
when it is declared with one; the name `<name>Result<i>` is used only for an identifier
that is nil. -/
theorem result_naming (E : Externals) (name : String) (cb : callback) (rt : runtimeFunc)
    (fn : FuncDecl) :
    (∀ m fields field slot, makeMethod E name cb rt fn = some (m, none) →
      fn.Type_.Results = some fields →
      (resultSlots fields).getLast? = some (field, slot) →
      ∃ ty cd, cb.retTypes[(resultSlots fields).length - 1]? = some ty ∧
        makeContentDescriptor E ty field
          (resultIdent name slot ((resultSlots fields).length - 1)) = some (cd, none) ∧
        cd.Name = (resultIdent name slot ((resultSlots fields).length - 1)).Name ∧
        (cd.Name ≠ "" → m.Result = cd)) ∧
    (∀ j, (resultIdent name none j).Name = name ++ "Result") ∧
    (∀ j ident, (resultIdent name (some (some ident)) j).Name = ident) ∧
    (∀ j, (resultIdent name (some none) j).Name = name ++ "Result" ++ toString j) := by
  refine ⟨?_, fun _ => rfl, fun _ _ => rfl, fun _ => rfl⟩
  intro m fields field slot h hR hlast
  obtain ⟨_, j, e, _, hcase⟩ := makeMethod_returns E name cb rt fn m none h
  rcases hcase with ⟨he, h2, _⟩ | ⟨_, j2, res, hr, hm⟩
  · rw [← h2] at he
    simp at he
  · simp only [makeMethodResults, hR, resultFields_slots] at hr
    obtain ⟨_, _, h3⟩ := runResultSlots_ok E name cb (resultSlots fields) 0 _ j2 res hr
    have hne : (resultSlots fields) ≠ [] := by
      intro hnil
      rw [hnil] at hlast
      simp at hlast
    have hpos : 0 < (resultSlots fields).length := List.length_pos.2 hne
    have hidx : (resultSlots fields)[(resultSlots fields).length - 1]? =
        some (field, slot) := by
      rw [List.getLast?_eq_getElem?] at hlast
      exact hlast
    obtain ⟨ty, cd, g1, g2, g3⟩ := h3 _ field slot hidx
    simp only [Nat.zero_add] at g1 g2
    have hres : res = cd := g3 (by omega)
    subst hres
    refine ⟨ty, res, g1, g2, makeContentDescriptor_name E ty field _ res g2, ?_⟩
    intro hname
    rw [hm]
    unfold deferredNullResult
    have : (res.Name == "") = false := by simpa using hname
    simp [this]

/-- C20 as amended, at a concrete input: the descriptor kept for `pairDecl` is the one of
its second result. -/
theorem result_naming_witness :
    ∃ m, makeMethod versionExternals "eth_pair"
        (resultsCb [.Basic .uint64, .Basic .uint32, errorType]) (resultsCb []).fn pairDecl =
          some (m, none) ∧
      ∃ ty cd, (resultsCb [.Basic .uint64, .Basic .uint32, errorType]).retTypes[
          (resultSlots [some (fieldOf [] (.Ident "uint64") "uint64"),
            some (fieldOf [] (.Ident "uint32") "uint32"),
            some (fieldOf [] (.Ident "error") "error")]).length - 1]? = some ty ∧
        makeContentDescriptor versionExternals ty (fieldOf [] (.Ident "uint32") "uint32")
          (resultIdent "eth_pair" none
            ((resultSlots [some (fieldOf [] (.Ident "uint64") "uint64"),
              some (fieldOf [] (.Ident "uint32") "uint32"),
              some (fieldOf [] (.Ident "error") "error")]).length - 1)) = some (cd, none) ∧
        cd.Name = (resultIdent "eth_pair" none
            ((resultSlots [some (fieldOf [] (.Ident "uint64") "uint64"),
              some (fieldOf [] (.Ident "uint32") "uint32"),
              some (fieldOf [] (.Ident "error") "error")]).length - 1)).Name ∧
        (cd.Name ≠ "" → m.Result = cd) :=
  ⟨_, rfl,
    (result_naming versionExternals "eth_pair"
      (resultsCb [.Basic .uint64, .Basic .uint32, errorType]) (resultsCb []).fn pairDecl).1
      _ _ (fieldOf [] (.Ident "uint32") "uint32") none rfl rfl rfl⟩

/-! ## C21 -/

/-- C21, counterexample: a declared parameter besides the leading context argument is
excluded. The declaration `contextInfoDecl` declares, besides `ctx context.Context`, the
parameters `info mycontext.Info` and `id string`, and its callback has the two argument
types of `info` and `id`. The type text of `info` contains `context`, so `makeMethod`
skips it as well: it returns one parameter descriptor, named `id` and built from the
argument type at index 0, the type of `info`. -/
theorem context_parameter_excluded :
    contextInfoCb.hasCtx = true ∧ contextInfoCb.argTypes.length = 2 ∧
    (makeMethod versionExternals "eth_get" contextInfoCb contextInfoCb.fn contextInfoDecl).map
        (fun r => (r.1.Params.map fun cd => (cd.Name, cd.Schema.Description), r.2)) =
      some ([("id", "example.com/mycontext:Info")], none) ∧
    contextInfoDecl.Type_.Params.map (paramSlots contextInfoCb) =
      some [(fieldOf [some "id"] (.Ident "string") "string", some "id")] :=
  ⟨rfl, rfl, rfl, rfl⟩

/-- C21, as amended: when the callback is marked `hasCtx`, `makeMethod` excludes every
parameter field whose type text contains `context`, wherever it stands, and nothing
else: a slot is a name of a field that is not excluded, or such a field itself when it
has no names. When the slots are as many as the argument types of the callback and
`makeContentDescriptor` builds a descriptor for each slot from the argument type at its
index, `makeMethod` returns unless its result block panics, and the method it returns
has exactly one parameter descriptor for each slot, in the order of the declaration:
the descriptor at index `i` is built from argument type `i` and carries the name of the
identifier of slot `i`. A declaration without a field of such a type text besides the
leading one has the slots of its declared parameters. -/
theorem parameters_match_declaration (E : Externals) (name : String) (cb : callback)
    (rt : runtimeFunc) (fn : FuncDecl) (fields : List (Option Field))
    (hP : fn.Type_.Params = some fields)
    (hn : (paramSlots cb fields).length = cb.argTypes.length)
    (hok : ∀ (i : Nat) f id ty, (paramSlots cb fields)[i]? = some (f, id) →
      cb.argTypes[i]? = some ty →
      ∃ cd, makeContentDescriptor E ty f ⟨id, name ++ "Parameter" ++ toString i⟩ =
        some (cd, none)) :
    (makeMethod E name cb rt fn = none ↔ makeMethodResults E name cb fn = none) ∧
    (∀ m err, makeMethod E name cb rt fn = some (m, err) →
      m.Params.length = cb.argTypes.length ∧
      ∀ (i : Nat) f id, (paramSlots cb fields)[i]? = some (f, id) →
        ∃ ty cd, cb.argTypes[i]? = some ty ∧
          makeContentDescriptor E ty f ⟨id, name ++ "Parameter" ++ toString i⟩ =
            some (cd, none) ∧
          m.Params[i]? = some cd ∧
          cd.Name = (argIdent.mk id (name ++ "Parameter" ++ toString i)).Name ∧
          ∀ p, id = some p → cd.Name = p) ∧
    (∀ f id, (f, id) ∈ paramSlots cb fields ↔
      some f ∈ fields ∧ isContextField cb f = false ∧
        ((id = none ∧ f.Names = []) ∨ ∃ p, id = some p ∧ some p ∈ f.Names)) ∧
    (∀ f, isContextField cb f = (cb.hasCtx && strContains f.typeText "context")) ∧
    (∀ ctx rest, isContextField cb ctx = true →
      (∀ f, some f ∈ rest → isContextField cb f = false) →
      paramSlots cb (some ctx :: rest) = paramSlots { cb with hasCtx := false } rest) := by
  obtain ⟨new, hrun, hnl, hnew⟩ := runParamSlots_total E name cb (paramSlots cb fields) 0 []
    (by omega) (by simpa using hok)
  have hp : makeMethodParams E name cb fn =
      some ((paramSlots cb fields).length, new, none) := by
    simp only [makeMethodParams, hP, paramFields_slots, hrun, Nat.zero_add, List.nil_append]
  refine ⟨?_, ?_, fun f id => mem_paramSlots cb f id fields, fun _ => rfl, ?_⟩
  · rw [makeMethod_none_iff, hp]
    simp
  · intro m err h
    obtain ⟨_, j, e, hps, _⟩ := makeMethod_returns E name cb rt fn m err h
    rw [hp] at hps
    simp only [Option.some.injEq, Prod.mk.injEq] at hps
    obtain ⟨_, hparams, _⟩ := hps
    rw [← hparams]
    refine ⟨by rw [hnl, hn], ?_⟩
    intro i f id hslot
    obtain ⟨ty, cd, g1, g2, g3⟩ := hnew i f id hslot
    simp only [Nat.zero_add] at g1 g2
    have hname := makeContentDescriptor_name E ty f _ cd g2
    refine ⟨ty, cd, g1, g2, g3, hname, ?_⟩
    intro p hid
    rw [hname, hid]
    rfl
  · intro ctx rest hctx hrest
    simp only [paramSlots, hctx, if_true]
    exact paramSlots_no_context cb rest hrest

/-- C21 as amended, at a concrete input: the two parameters `a`, `b` of `Add`. -/
theorem parameters_match_declaration_witness :
    ∃ m, makeMethod versionExternals "math_add" addCb addCb.fn (addDecl ["a", "b"]) =
        some (m, none) ∧
      m.Params.length = addCb.argTypes.length ∧
      ∃ ty cd, addCb.argTypes[1]? = some ty ∧
        makeContentDescriptor versionExternals ty (bigIntField [some "a", some "b"])
          ⟨some "b", "math_add" ++ "Parameter" ++ toString 1⟩ = some (cd, none) ∧
        m.Params[1]? = some cd ∧
        cd.Name = (argIdent.mk (some "b") ("math_add" ++ "Parameter" ++ toString 1)).Name ∧
        ∀ p, some "b" = some p → cd.Name = p :=
  have h := (parameters_match_declaration versionExternals "math_add" addCb addCb.fn
    (addDecl ["a", "b"]) _ rfl rfl (by
      intro i f id ty hslot hty
      match i, hslot, hty with
      | 0, hslot, hty =>
        obtain ⟨rfl, rfl⟩ := Prod.mk.inj (Option.some.inj hslot)
        have hty' : ty = .Ptr bigInt := (Option.some.inj hty).symm
        subst hty'
        exact ⟨_, rfl⟩
      | 1, hslot, hty =>
        obtain ⟨rfl, rfl⟩ := Prod.mk.inj (Option.some.inj hslot)
        have hty' : ty = .Ptr bigInt := (Option.some.inj hty).symm
        subst hty'
        exact ⟨_, rfl⟩
      | n + 2, _, hty => exact absurd hty (by simp [addCb]))).2.1 _ none rfl
  ⟨_, rfl, h.1, h.2 1 (bigIntField [some "a", some "b"]) (some "b") rfl⟩

/-! ## C22 -/

/-- C22, the code at every input: `Clean` returns no error, for every document in every
environment, whatever its traversals met: the closure `registerSchema` reports no error,
the value `Traverse` returns is dropped, and the only return statement of `Clean` itself
returns nil. So the test of `Describe` for an error of `Clean` never fires: `Describe`
panics only when its loops do, and when its loops end without error it returns the
document `Clean` leaves. -/
theorem Clean_never_fails (E : Externals) (doc : OpenRPCSpec1) :
    (Clean E doc).2 = none ∧
    (∀ leaf a, (registerSchema E leaf a).2 = none) ∧
    (∀ sch st, cleanSchema E sch st =
      ((Traverse (referencer E) (Traverse removeDefinitions sch st).1
          (Traverse removeDefinitions sch st).2.1).1,
        (Traverse (referencer E) (Traverse removeDefinitions sch st).1
          (Traverse removeDefinitions sch st).2.1).2.1)) ∧
    (∀ s : RPCService, Describe E s = none ↔
      describeModules E s.methods (s.doc.getD NewOpenRPCDescription) = none) ∧
    (∀ (s : RPCService) d,
      describeModules E s.methods (s.doc.getD NewOpenRPCDescription) = some (d, none) →
      Describe E s =
        some ({ s with doc := some ⟨(Clean E d.Doc).1⟩ }, some (Clean E d.Doc).1, none)) := by
  refine ⟨by simp only [Clean_eq], fun _ _ => rfl, fun _ _ => rfl, ?_,
    fun s d h => Describe_ok E s d h⟩
  intro s
  unfold Describe
  have hd : (match s.doc with | none => NewOpenRPCDescription | some d => d) =
      s.doc.getD NewOpenRPCDescription := by cases s.doc <;> rfl
  simp only [hd]
  cases hm : describeModules E s.methods (s.doc.getD NewOpenRPCDescription) with
  | none => simp
  | some res =>
    obtain ⟨d, e⟩ := res
    cases e with
    | some e0 => simp
    | none => simp [Clean_eq]

/-! ## C23 -/

/-- C23, counterexample: a type of an integer kind without entry in the override table
is not left to structural reflection. For `int`, for `uint64` and for a named type whose
underlying type is `int64`, none of which has an entry, `OpenRPCJSONSchemaTypeMapper`
returns the hex-string integer schema, not `nil`. -/
theorem integer_kinds_not_nil :
    dictLookup (.Basic .int) dict = none ∧
    OpenRPCJSONSchemaTypeMapper (.Basic .int) =
      some (some (Schema.mk "integer" ["string"] "^0x[a-fA-F0-9]+$"
        "Hex representation of the integer" [] [] [] [] [] "")) ∧
    dictLookup (.Basic .uint64) dict = none ∧
    OpenRPCJSONSchemaTypeMapper (.Basic .uint64) = some (some integerD) ∧
    dictLookup (.Named "time" "Duration" (.Basic .int64)) dict = none ∧
    OpenRPCJSONSchemaTypeMapper (.Named "time" "Duration" (.Basic .int64)) =
      some (some integerD) :=
  ⟨rfl, rfl, rfl, rfl, rfl, rfl⟩

/-- C23, as amended: for a type without entry in the override table
`OpenRPCJSONSchemaTypeMapper` returns the hex-string integer schema when the kind of the
type is one of the integer kinds `Int` to `Int64` and `Uint` to `Uint64`, and `nil`,
which leaves the type to structural reflection, when the kind is struct, map, slice,
array, interface, `Float32`, `Float64`, `Bool`, `String` or `Ptr`. So the integer schema
is returned for the types whose entry in the table holds it and for every type of an
integer kind without entry, and for no other type. -/
theorem mapper_without_override (r : GoType) :
    (dictLookup r dict = none →
      r.Kind ∈ [Kind.Int, Kind.Int8, Kind.Int16, Kind.Int32, Kind.Int64,
        Kind.Uint, Kind.Uint8, Kind.Uint16, Kind.Uint32, Kind.Uint64] →
      OpenRPCJSONSchemaTypeMapper r = some (some integerD)) ∧
    (dictLookup r dict = none →
      r.Kind ∈ [Kind.Struct, Kind.Map, Kind.Slice, Kind.Array, Kind.Interface,
        Kind.Float32, Kind.Float64, Kind.Bool, Kind.String, Kind.Ptr] →
      OpenRPCJSONSchemaTypeMapper r = some none) ∧
    (OpenRPCJSONSchemaTypeMapper r = some (some integerD) ↔
      dictLookup r dict = some integerD ∨
        (dictLookup r dict = none ∧
          r.Kind ∈ [Kind.Int, Kind.Int8, Kind.Int16, Kind.Int32, Kind.Int64,
            Kind.Uint, Kind.Uint8, Kind.Uint16, Kind.Uint32, Kind.Uint64])) := by
  refine ⟨?_, ?_, ?_⟩
  · intro h hk
    simp only [OpenRPCJSONSchemaTypeMapper, h]
    simp only [List.mem_cons, List.mem_singleton, List.not_mem_nil, or_false] at hk
    rcases hk with hk | hk | hk | hk | hk | hk | hk | hk | hk | hk <;> rw [hk] <;> rfl
  · intro h hk
    simp only [OpenRPCJSONSchemaTypeMapper, h]
    simp only [List.mem_cons, List.mem_singleton, List.not_mem_nil, or_false] at hk
    rcases hk with hk | hk | hk | hk | hk | hk | hk | hk | hk | hk <;> rw [hk] <;> rfl
  · unfold OpenRPCJSONSchemaTypeMapper
    cases hd : dictLookup r dict with
    | some tt => simp
    | none =>
      simp only [false_and, reduceCtorEq, false_or, true_and]
      cases r.Kind <;> simp [kindSwitch]

/-! ## C24 -/

/-- C24, the code at the failing inputs: for the callback of the method `Datadir` of
`*node.PrivateAdminAPI`, whose runtime function has the short name `Datadir`,
`getAstFunc` panics on a file in which a function `Datadir` without receiver stands
before the method, and on a file in which the method `Datadir` of the type `API` stands
before it, it returns that declaration, of another receiver type. What it has checked
of a declaration it returns is that the name is the short name and that the name of the
receiver type, followed by a character of the class `\s`, occurs somewhere in the text
of the receiver of the callback. -/
theorem getAstFunc_receiver_match :
    runtimeFuncName datadirCb.fn = "Datadir" ∧
    datadirCb.rcvr = "<*node.PrivateAdminAPI Value>" ∧
    getAstFunc datadirCb [.FuncDecl plainDatadirDecl, .FuncDecl datadirDecl] datadirCb.fn =
      none ∧
    getAstFunc datadirCb [.FuncDecl apiDatadirDecl, .FuncDecl datadirDecl] datadirCb.fn =
      some (some apiDatadirDecl) ∧
    apiDatadirDecl.Recv.bind (fun list => recvName list "") = some "API" ∧
    getAstFunc datadirCb [.FuncDecl datadirDecl, .FuncDecl apiDatadirDecl] datadirCb.fn =
      some (some datadirDecl) ∧
    (∀ (cb : callback) (file : List Decl) (rf : runtimeFunc) (fn : FuncDecl),
      getAstFunc cb file rf = some (some fn) →
      Decl.FuncDecl fn ∈ file ∧ fn.Name = some (runtimeFuncName rf) ∧
      ∃ list fnRecName, fn.Recv = some list ∧ recvName list "" = some fnRecName ∧
        ∃ pre c post, cb.rcvr.toList = pre ++ fnRecName.toList ++ c :: post ∧
          isSpaceChar c = true) := by
  refine ⟨by decide, rfl, by decide, by decide, by decide, by decide, ?_⟩
  intro cb file rf fn h
  obtain ⟨h1, h2, list, rn, h3, h4, h5⟩ := getAstFuncLoop_returns cb _ fn file h
  exact ⟨h1, h2, list, rn, h3, h4, (matchLitSpace_iff _ _).1 h5⟩

/-! ## C25 -/

/-- C25: the document `Describe` builds does not depend on the order of the enumeration.
For two enumerations of a registry with the same entries, whose qualified names are
pairwise distinct, when a call of `Describe` from a service without retained
description returns a document for the one enumeration, which it does exactly when the
registration of every method that is not skipped succeeds, then the call for the other
enumeration returns the same document: the same methods in the same positions. The
methods are in strictly ascending order of their names. -/
theorem describe_order_independent (E : Externals)
    (methods1 methods2 : List (String × List (String × callback)))
    (s1 : RPCService) (doc1 : OpenRPCSpec1)
    (hperm : List.Perm (registryEntries methods1) (registryEntries methods2))
    (hnodup : ((registryEntries methods1).map (qualifiedName E)).Nodup)
    (h1 : Describe E ⟨none, methods1⟩ = some (s1, some doc1, none)) :
    Describe E ⟨none, methods2⟩ = some (⟨some ⟨doc1⟩, methods2⟩, some doc1, none) ∧
    List.Sorted (fun a b : Method => a.Name < b.Name) doc1.Methods ∧
    (∀ e ∈ registryEntries methods1, ∀ name cb, describeEntry E e = some (name, cb) →
      ∃ m, builtMethod E name cb = some m ∧
        ∀ d, RegisterMethod E d name cb =
          some (⟨{ d.Doc with Methods := sortSlice (d.Doc.Methods ++ [m]) }⟩, none)) := by
  obtain ⟨d, e, hd, hcase⟩ := Describe_cases E ⟨none, methods1⟩ s1 (some doc1) none h1
  rcases hcase with ⟨rfl, _, hr, _⟩ | ⟨_, _, hr, _⟩
  swap
  · simp at hr
  have hdoc : doc1 = (Clean E d.Doc).1 := Option.some.inj hr
  simp only [Option.getD_none] at hd
  rw [describeModules_entries] at hd
  have hnd : (((registryEntries methods1).filterMap (describeEntry E)).map Prod.fst).Nodup := by
    refine (filterMap_map_sublist (describeEntry E) Prod.fst (qualifiedName E) ?_
      (registryEntries methods1)).nodup hnodup
    intro a b hab
    unfold describeEntry at hab
    split at hab
    · simp at hab
    · split at hab
      · simp at hab
      · rw [← Option.some.inj hab]
  have h2 := registerAll_perm E _ _ NewOpenRPCDescription d rfl
    (hperm.filterMap (describeEntry E)) hnd hd
  rw [← describeModules_entries] at h2
  obtain ⟨a1, a2, a3, _⟩ := registerAll_ok E _ NewOpenRPCDescription d hnd
    (by intro _ _ m hm; simp [NewOpenRPCDescription] at hm) hd
  refine ⟨?_, ?_, ?_⟩
  · rw [Describe_ok E ⟨none, methods2⟩ d (by simpa using h2), hdoc]
  · have hs : List.Sorted (fun a b : Method => a.Name ≤ b.Name) d.Doc.Methods :=
      a3 List.sorted_nil
    have hn : (d.Doc.Methods.map fun m => m.Name).Nodup := by
      rw [(a2.map _).nodup_iff]
      simp only [NewOpenRPCDescription, List.nil_append]
      exact (filterMap_map_sublist (fun e : String × callback => builtMethod E e.1 e.2)
        (fun m => m.Name) Prod.fst (fun e m h => builtMethod_Name E e.1 e.2 m h) _).nodup hnd
    have hne : d.Doc.Methods.Pairwise (fun a b : Method => a.Name ≠ b.Name) :=
      List.pairwise_map.1 hn
    have hlt : List.Sorted (fun a b : Method => a.Name < b.Name) d.Doc.Methods :=
      (List.Pairwise.and hs hne).imp (fun h => lt_of_le_of_ne h.1 h.2)
    rw [hdoc]
    simp only [Clean_eq]
    simpa only [List.Sorted, List.pairwise_map, cleanedMethod_Name] using hlt
  · intro e he name cb hentry
    obtain ⟨m, hm⟩ := a1 (name, cb) (List.mem_filterMap.2 ⟨e, he, hentry⟩)
    exact ⟨m, hm, fun d0 => (RegisterMethod_built E d0 _ name cb).2 ⟨m, hm, rfl⟩⟩

/-- C25, at a concrete input: the method `datadir` of the modules `eth` and `admin`, met
in the two orders, gives the one document with `admin_datadir` before `eth_datadir`. -/
theorem describe_order_independent_witness :
    (Describe adminExternals ⟨none, ethFirstRegistry⟩).map
        (fun r => r.2.1.map fun doc => doc.Methods.map fun m => m.Name) =
      some (some ["admin_datadir", "eth_datadir"]) ∧
    ∃ s1 doc1, Describe adminExternals ⟨none, ethFirstRegistry⟩ = some (s1, some doc1, none) ∧
      Describe adminExternals ⟨none, adminFirstRegistry⟩ =
        some (⟨some ⟨doc1⟩, adminFirstRegistry⟩, some doc1, none) :=
  ⟨rfl, _, _, rfl,
    (describe_order_independent adminExternals ethFirstRegistry adminFirstRegistry _ _
      (List.Perm.swap _ _ _) (by decide) rfl).1⟩

/-! ## C26 -/

/-- C26: the support guard and the mapper agree. For a type `jsonschemaPkgSupport`
accepts `OpenRPCJSONSchemaTypeMapper` returns, and for a type without entry in the
override table that it rejects the mapper panics; the kinds the guard accepts are the
kinds for which the switch of the mapper does not reach its panic, namely struct, map,
slice, array, interface, the integer kinds, the float kinds, `Bool`, `String` and `Ptr`;
and every type of the override table is of a kind the guard accepts. -/
theorem guard_agrees_with_mapper (r : GoType) :
    (jsonschemaPkgSupport r = true → OpenRPCJSONSchemaTypeMapper r ≠ none) ∧
    (dictLookup r dict = none → jsonschemaPkgSupport r = false →
      OpenRPCJSONSchemaTypeMapper r = none) ∧
    (jsonschemaPkgSupport r = true ↔ kindSwitch r.Kind ≠ none) ∧
    (∀ k : Kind, kindSwitch k ≠ none ↔
      k ∈ [Kind.Struct, Kind.Map, Kind.Slice, Kind.Array, Kind.Interface,
        Kind.Int, Kind.Int8, Kind.Int16, Kind.Int32, Kind.Int64,
        Kind.Uint, Kind.Uint8, Kind.Uint16, Kind.Uint32, Kind.Uint64,
        Kind.Float32, Kind.Float64, Kind.Bool, Kind.String, Kind.Ptr]) ∧
    (∀ d ∈ dict, jsonschemaPkgSupport d.t = true) := by
  have hk : jsonschemaPkgSupport r = true ↔ kindSwitch r.Kind ≠ none := by
    unfold jsonschemaPkgSupport
    cases r.Kind <;> simp [kindSwitch]
  refine ⟨?_, ?_, hk, ?_, ?_⟩
  · intro hs
    unfold OpenRPCJSONSchemaTypeMapper
    cases dictLookup r dict with
    | some tt => simp
    | none => exact hk.1 hs
  · intro hd hs
    simp only [OpenRPCJSONSchemaTypeMapper, hd]
    by_contra hne
    rw [hk.2 hne] at hs
    exact Bool.noConfusion hs
  · intro k
    cases k <;> simp [kindSwitch]
  · have hall : dict.all (fun d => jsonschemaPkgSupport d.t) = true := by decide
    exact fun d hd => List.all_eq_true.1 hall d hd

/-! ## C27 -/

/-- C27: a method `makeMethod` returns has one result descriptor. A slot is a result
that is not skipped: every name of a field with names and every field without names,
but for the fields whose type text contains `error`, which are skipped at any position
and have no slot, so that they do not advance the index into the return types. When the
parameter block ends without error and every slot has, at its index among the slots, a
return type from which `makeContentDescriptor` builds a descriptor, `makeMethod`
returns without error. When it returns without error, the descriptor of every slot was
built from the return type at the index of the slot and carries the name of its
identifier, and the descriptor of the last slot, which overwrites the earlier ones, is
the result of the method unless its name is empty; without a slot the result is the
descriptor `null`; a result declared with a name is named by that identifier, not by a
synthetic name. -/
theorem result_descriptor_kept (E : Externals) (name : String) (cb : callback)
    (rt : runtimeFunc) (fn : FuncDecl) (fields : List (Option Field))
    (hR : fn.Type_.Results = some fields) :
    ((∃ j ps, makeMethodParams E name cb fn = some (j, ps, none)) →
      (∀ i f s, (resultSlots fields)[i]? = some (f, s) →
        ∃ ty cd, cb.retTypes[i]? = some ty ∧
          makeContentDescriptor E ty f (resultIdent name s i) = some (cd, none)) →
      ∃ m, makeMethod E name cb rt fn = some (m, none)) ∧
    (∀ m, makeMethod E name cb rt fn = some (m, none) →
      ((resultSlots fields = [] → m.Result.Name = "null") ∧
      ∀ i f s, (resultSlots fields)[i]? = some (f, s) →
        ∃ ty cd, cb.retTypes[i]? = some ty ∧
          makeContentDescriptor E ty f (resultIdent name s i) = some (cd, none) ∧
          cd.Name = (resultIdent name s i).Name ∧
          (i + 1 = (resultSlots fields).length → cd.Name ≠ "" → m.Result = cd))) ∧
    (∀ pre f post, strContains f.typeText "error" = true →
      resultSlots (pre ++ some f :: post) = resultSlots pre ++ resultSlots post) ∧
    (∀ j ident, (resultIdent name (some (some ident)) j).Name = ident) := by
  have hres : makeMethodResults E name cb fn =
      runResultSlots E name cb (resultSlots fields) 0 ContentDescriptor.zero := by
    simp only [makeMethodResults, hR, resultFields_slots]
  refine ⟨?_, ?_, ?_, fun _ _ => rfl⟩
  · rintro ⟨j, ps, hp⟩ hok
    obtain ⟨res', hrun⟩ := runResultSlots_total E name cb (resultSlots fields) 0
      ContentDescriptor.zero (by simpa using hok)
    refine ⟨deferredNullResult { newMethod name rt fn with Params := ps, Result := res' }, ?_⟩
    simp only [makeMethod, hp, hres, hrun]
  · intro m h
    obtain ⟨_, j, e, _, hcase⟩ := makeMethod_returns E name cb rt fn m none h
    rcases hcase with ⟨he, h2, _⟩ | ⟨_, j2, res, hr, hm⟩
    · rw [← h2] at he
      simp at he
    · rw [hres] at hr
      obtain ⟨_, h2, h3⟩ := runResultSlots_ok E name cb (resultSlots fields) 0 _ j2 res hr
      refine ⟨?_, ?_⟩
      · intro hnil
        rw [hm, h2 hnil]
        rfl
      · intro i f s hslot
        obtain ⟨ty, cd, g1, g2, g3⟩ := h3 i f s hslot
        simp only [Nat.zero_add] at g1 g2
        refine ⟨ty, cd, g1, g2, makeContentDescriptor_name E ty f _ cd g2, ?_⟩
        intro hlen hname
        rw [hm, g3 hlen]
        unfold deferredNullResult
        have : (cd.Name == "") = false := by simpa using hname
        simp [this]
  · intro pre f post hf
    rw [resultSlots_append]
    simp only [resultSlots, hf, if_true]

/-- C27, at a concrete input: for `pairDecl` and a callback with the return
types `uint64`, `uint32` and the error, the result of the method is the descriptor built
for the second result from the return type at index 1. -/
theorem result_descriptor_kept_witness :
    ∃ m, makeMethod versionExternals "eth_pair"
        (resultsCb [.Basic .uint64, .Basic .uint32, errorType]) (resultsCb []).fn pairDecl =
          some (m, none) ∧
      ∃ ty cd, (resultsCb [.Basic .uint64, .Basic .uint32, errorType]).retTypes[1]? = some ty ∧
        makeContentDescriptor versionExternals ty (fieldOf [] (.Ident "uint32") "uint32")
          (resultIdent "eth_pair" none 1) = some (cd, none) ∧
        cd.Name = (resultIdent "eth_pair" none 1).Name ∧
        (1 + 1 = (resultSlots [some (fieldOf [] (.Ident "uint64") "uint64"),
            some (fieldOf [] (.Ident "uint32") "uint32"),
            some (fieldOf [] (.Ident "error") "error")]).length →
          cd.Name ≠ "" → m.Result = cd) :=
  ⟨_, rfl,
    ((result_descriptor_kept versionExternals "eth_pair"
      (resultsCb [.Basic .uint64, .Basic .uint32, errorType]) (resultsCb []).fn pairDecl
      _ rfl).2.1 _ rfl).2 1 (fieldOf [] (.Ident "uint32") "uint32") none rfl⟩

end OpenRPC
